import Mathlib

/-!
# Quantized CPU kernels (`QuantizedOpKernels.cpp`)

A shallow embedding of the scalar paths of the quantized kernels of
`aten/src/ATen/native/quantized/cpu/kernels/QuantizedOpKernels.cpp`.

* 64-bit geometry values (`int64_t`) are integers; the geometry arithmetic is
  taken without overflow.
* A data pointer is a function from element offsets to integer codes.
* Loops whose termination depends on the arguments (`+= dH`) carry a fuel
  argument and return `none` when it runs out.
* Real values are rationals. The quantize and dequantize primitives are exact. The
  `float` and `double` operations the kernels write out themselves (the window bounds of
  adaptive pooling, the multiplier and the requantization of average pooling, the sum
  the add kernel stores) are rounded to nearest, ties to even, by `round_to_float` and
  `round_to_double`; `qadd_kernel` is the add kernel with the sum left exact,
  `qadd_kernel_float` the one with the sum rounded.
* A conversion of a real value to `int32_t` outside the range of the type, a division
  by zero and an infinite result have no value (`none`).
* The 32-bit accumulator of average pooling and the narrowing of a 64-bit value to the
  underlying type are reduced modulo the size of the type.
* A `Vec256` is a function from lanes to codes; loads, the maximum and stores act
  lane by lane, and the writes of one output position are a list of offset-code pairs.
-/

namespace QuantizedOpKernels

/-! ## Element types -/

/-- The element types `AT_DISPATCH_QINT_TYPES` dispatches over. -/
inductive QType where
  | qint8
  | quint8
  | qint32
  deriving DecidableEq, Repr

/-- The value of `std::numeric_limits<scalar_t::underlying>::lowest()`. -/
def QType.lowest : QType → Int
  | .qint8 => -128
  | .quint8 => 0
  | .qint32 => -2147483648

/-- The value of `std::numeric_limits<scalar_t::underlying>::max()`. -/
def QType.highest : QType → Int
  | .qint8 => 127
  | .quint8 => 255
  | .qint32 => 2147483647

/-- The codes representable in the underlying integer type. -/
def QType.InRange (T : QType) (q : Int) : Prop := T.lowest ≤ q ∧ q ≤ T.highest

instance (T : QType) (q : Int) : Decidable (T.InRange q) := by
  unfold QType.InRange; infer_instance

/-! ## Max pooling, channel-last -/

/-- The loop `while (h_start < 0) h_start += dH;`. -/
def clip_start : Nat → Int → Int → Option Int
  | 0, _, _ => none
  | fuel + 1, start, d => if start < 0 then clip_start fuel (start + d) d else some start

/-- The loop `for (y = start; y < stop; y += d) acc = body(acc, y);`. -/
def strided_for {α : Type} : Nat → Int → Int → Int → (α → Int → Option α) → α → Option α
  | 0, _, _, _, _, _ => none
  | fuel + 1, y, stop, d, body, acc =>
    if y < stop then
      match body acc y with
      | none => none
      | some acc1 => strided_for fuel (y + d) stop d body acc1
    else some acc

/-- The scalar tier of `qmaxpool_2d_nhwc_kernel` (lines 159-167 and 210-223): the code
written to `o_p[c]` for output position `(b, row, col)` and channel `c`. -/
def qmaxpool_2d_nhwc_kernel (fuel : Nat) (T : QType) (idata : Int → Int)
    (iC iH iW kH kW sH sW pH pW dH dW : Int) (b row col c : Int) : Option Int :=
  let i_p : Int → Int := fun off => idata (b * iW * iH * iC + off)
  let h_start0 := row * sH - pH
  let w_start0 := col * sW - pW
  let h_end := min (h_start0 + (kH - 1) * dH + 1) iH
  let w_end := min (w_start0 + (kW - 1) * dW + 1) iW
  match clip_start fuel h_start0 dH with
  | none => none
  | some h_start =>
    match clip_start fuel w_start0 dW with
    | none => none
    | some w_start =>
      strided_for fuel h_start h_end dH
        (fun max_val y =>
          strided_for fuel w_start w_end dW
            (fun max_val x =>
              let tcntr := y * iW + x
              let val := i_p (tcntr * iC + c)
              some (max max_val val))
            max_val)
        T.lowest

/-- The code stored at logical position `(b, y, x, c)` of a contiguous channel-last
array of shape `(batch, iH, iW, iC)`. -/
def nhwc_at (idata : Int → Int) (iC iH iW : Int) (b y x c : Int) : Int :=
  idata (((b * iH + y) * iW + x) * iC + c)

/-- The input coordinates of the max-pool window of output position `(row, col)`: `(y, x)` is
`(row*sH - pH + i*dH, col*sW - pW + j*dW)` for some `0 ≤ i < kH`, `0 ≤ j < kW`, and lies
inside the input. -/
def InMaxWindow (iH iW kH kW sH sW pH pW dH dW row col : Int) (y x : Int) : Prop :=
  ∃ i j : Int, 0 ≤ i ∧ i < kH ∧ 0 ≤ j ∧ j < kW ∧
    y = row * sH - pH + i * dH ∧ x = col * sW - pW + j * dW ∧
    0 ≤ y ∧ y < iH ∧ 0 ≤ x ∧ x < iW

/-- Fuel that suffices for every loop of one max-pool output element. -/
def qmaxpool_fuel (iH iW sH sW pH pW row col : Int) : Nat :=
  (pH - row * sH).toNat + (pW - col * sW).toNat + iH.toNat + iW.toNat + 1

/-- One step of a running maximum over the values satisfying `S`. -/
def MaxStep (S : Int → Prop) (acc v : Int) : Prop :=
  acc ≤ v ∧ (∀ u, S u → u ≤ v) ∧ (v = acc ∨ S v)

/-! ### The three channel tiers of max pooling -/

/-- A `Vec256<scalar_t>`: the value of each lane, lanes counted from `0`; the lanes below
the vector width `Vec256<scalar_t>::size()` are the ones a load fills and a store
writes. -/
abbrev Vec256 : Type := Nat → Int

/-- The broadcast constructor `Vec256<scalar_t>{v}`. -/
def Vec256.splat (v : Int) : Vec256 := fun _ => v

/-- The load `Vec256<scalar_t>::loadu(p + off)`: lane `l` holds `p[off + l]`. -/
def Vec256.loadu (p : Int → Int) (off : Int) : Vec256 := fun l => p (off + (l : Int))

/-- The lane-wise maximum `vec256::maximum(a, b)`. -/
def Vec256.maximum (a b : Vec256) : Vec256 := fun l => max (a l) (b l)

/-- The store `v.store(o_p + c)`: the writes `o_p[c + l] = v[l]` for the lanes `l` below
the vector width, as pairs of an offset and a code. -/
def Vec256.store (vec_width : Nat) (v : Vec256) (c : Int) : List (Int × Int) :=
  (List.range vec_width).map (fun (l : Nat) => (c + (l : Int), v l))

/-- The window scan of the scalar tier for channel `c` (lines 211-220), from the clipped
window bounds. -/
def qmaxpool_scan_scalar (fuel : Nat) (T : QType) (i_p : Int → Int) (iC iW : Int)
    (h_start h_end w_start w_end dH dW : Int) (c : Int) : Option Int :=
  strided_for fuel h_start h_end dH
    (fun max_val y =>
      strided_for fuel w_start w_end dW
        (fun max_val x =>
          let tcntr := y * iW + x
          let val := i_p (tcntr * iC + c)
          some (max max_val val))
        max_val)
    T.lowest

/-- The window scan of the single-vector tier for the channels from `c` (lines
196-206). -/
def qmaxpool_scan_vec (fuel : Nat) (T : QType) (i_p : Int → Int) (iC iW : Int)
    (h_start h_end w_start w_end dH dW : Int) (c : Int) : Option Vec256 :=
  strided_for fuel h_start h_end dH
    (fun acc y =>
      strided_for fuel w_start w_end dW
        (fun acc x =>
          let tcntr := y * iW + x
          let vals := Vec256.loadu i_p (tcntr * iC + c)
          some (Vec256.maximum acc vals))
        acc)
    (Vec256.splat T.lowest)

/-- The window scan of the 4x-interleaved vector tier for the channels from `c` (lines
174-188): the four accumulators `accs[0..3]`. -/
def qmaxpool_scan_vec4 (fuel : Nat) (T : QType) (vec_width : Nat) (i_p : Int → Int)
    (iC iW : Int) (h_start h_end w_start w_end dH dW : Int) (c : Int) :
    Option (Nat → Vec256) :=
  strided_for fuel h_start h_end dH
    (fun accs y =>
      strided_for fuel w_start w_end dW
        (fun accs x =>
          some ([0, 1, 2, 3].foldl
            (fun accs (i : Nat) =>
              let tcntr := y * iW + x
              let vals := Vec256.loadu i_p (tcntr * iC + c + (vec_width : Int) * (i : Int))
              Function.update accs i (Vec256.maximum (accs i) vals))
            accs))
        accs)
    (fun _ => Vec256.splat T.lowest)

/-- A channel loop `for (; c + step <= iC; c += step) body(c)`: the value of `c` when
the loop ends and the writes of the bodies, in order. -/
def channel_for (step iC : Int) (body : Int → Option (List (Int × Int))) :
    Nat → Int → Option (Int × List (Int × Int))
  | 0, _ => none
  | fuel + 1, c =>
    if c + step ≤ iC then
      match body c with
      | none => none
      | some w =>
        match channel_for step iC body fuel (c + step) with
        | none => none
        | some (c1, ws) => some (c1, w ++ ws)
    else some (c, [])

/-- The body of the 4x-interleaved vector loop at channel `c` (lines 174-191): the scan
into four accumulators and their stores at `o_p + c + vec_width * i`. -/
def interleaved_tier (fuel : Nat) (T : QType) (vec_width : Nat) (i_p : Int → Int)
    (iC iW : Int) (h_start h_end w_start w_end dH dW : Int) (c : Int) :
    Option (List (Int × Int)) :=
  match qmaxpool_scan_vec4 fuel T vec_width i_p iC iW h_start h_end w_start w_end dH dW c
  with
  | none => none
  | some accs =>
    some ([0, 1, 2, 3].flatMap (fun (i : Nat) =>
      Vec256.store vec_width (accs i) (c + (vec_width : Int) * (i : Int))))

/-- The body of the single-vector loop at channel `c` (lines 196-207): the scan and the
store at `o_p + c`. -/
def vector_tier (fuel : Nat) (T : QType) (vec_width : Nat) (i_p : Int → Int)
    (iC iW : Int) (h_start h_end w_start w_end dH dW : Int) (c : Int) :
    Option (List (Int × Int)) :=
  match qmaxpool_scan_vec fuel T i_p iC iW h_start h_end w_start w_end dH dW c with
  | none => none
  | some acc => some (Vec256.store vec_width acc c)

/-- The body of the scalar remainder loop at channel `c` (lines 211-222): the scan and
the write `o_p[c] = max_val`. -/
def scalar_tier (fuel : Nat) (T : QType) (i_p : Int → Int)
    (iC iW : Int) (h_start h_end w_start w_end dH dW : Int) (c : Int) :
    Option (List (Int × Int)) :=
  match qmaxpool_scan_scalar fuel T i_p iC iW h_start h_end w_start w_end dH dW c with
  | none => none
  | some max_val => some [(c, max_val)]

/-- The three channel tiers of `qmaxpool_2d_nhwc_kernel` for one output position
`(b, row, col)` (lines 159-223): the writes `o_p[offset] = code`, in order. The
4x-interleaved tier runs while `c + 4 * vec_width <= iC`, the single-vector tier while
`c + vec_width <= iC`, the scalar tier while `c < iC`. -/
def qmaxpool_2d_nhwc_tiers (fuel : Nat) (T : QType) (vec_width : Nat) (idata : Int → Int)
    (iC iH iW kH kW sH sW pH pW dH dW : Int) (b row col : Int) :
    Option (List (Int × Int)) :=
  let i_p : Int → Int := fun off => idata (b * iW * iH * iC + off)
  let h_start0 := row * sH - pH
  let w_start0 := col * sW - pW
  let h_end := min (h_start0 + (kH - 1) * dH + 1) iH
  let w_end := min (w_start0 + (kW - 1) * dW + 1) iW
  match clip_start fuel h_start0 dH with
  | none => none
  | some h_start =>
    match clip_start fuel w_start0 dW with
    | none => none
    | some w_start =>
      match channel_for (4 * (vec_width : Int)) iC
          (interleaved_tier fuel T vec_width i_p iC iW h_start h_end w_start w_end dH dW)
          fuel 0 with
      | none => none
      | some (c1, w1) =>
        match channel_for (vec_width : Int) iC
            (vector_tier fuel T vec_width i_p iC iW h_start h_end w_start w_end dH dW)
            fuel c1 with
        | none => none
        | some (c2, w2) =>
          match channel_for 1 iC
              (scalar_tier fuel T i_p iC iW h_start h_end w_start w_end dH dW)
              fuel c2 with
          | none => none
          | some (_, w3) => some (w1 ++ w2 ++ w3)

/-- The window scan of the scalar tier for channel `c` (lines 211-220) with its reads
recorded: the running maximum and the coordinates `(y, x)` read so far, in order. -/
def qmaxpool_scan_traced (fuel : Nat) (T : QType) (i_p : Int → Int) (iC iW : Int)
    (h_start h_end w_start w_end dH dW : Int) (c : Int) :
    Option (Int × List (Int × Int)) :=
  strided_for fuel h_start h_end dH
    (fun acc y =>
      strided_for fuel w_start w_end dW
        (fun acc x =>
          let tcntr := y * iW + x
          let val := i_p (tcntr * iC + c)
          some (max acc.1 val, acc.2 ++ [(y, x)]))
        acc)
    (T.lowest, [])

/-- The scalar tier of `qmaxpool_2d_nhwc_kernel` (lines 159-167 and 210-223) with its
reads recorded: the code written to `o_p[c]` and the input coordinates read for it. -/
def qmaxpool_2d_nhwc_traced (fuel : Nat) (T : QType) (idata : Int → Int)
    (iC iH iW kH kW sH sW pH pW dH dW : Int) (b row col c : Int) :
    Option (Int × List (Int × Int)) :=
  let i_p : Int → Int := fun off => idata (b * iW * iH * iC + off)
  let h_start0 := row * sH - pH
  let w_start0 := col * sW - pW
  let h_end := min (h_start0 + (kH - 1) * dH + 1) iH
  let w_end := min (w_start0 + (kW - 1) * dW + 1) iW
  match clip_start fuel h_start0 dH with
  | none => none
  | some h_start =>
    match clip_start fuel w_start0 dW with
    | none => none
    | some w_start =>
      qmaxpool_scan_traced fuel T i_p iC iW h_start h_end w_start w_end dH dW c

/-- Fuel that suffices for every loop of the three tiers of one output position. -/
def qmaxpool_tiers_fuel (iC iH iW sH sW pH pW row col : Int) : Nat :=
  qmaxpool_fuel iH iW sH sW pH pW row col + iC.toNat

/-! ## Top-K selection along one axis -/

/-- The queue entries of `qtopk_kernel`: `std::pair<underlying, int64_t>`, a code and its
position in the slice. -/
abbrev elem_t : Type := Int × Nat

/-- The comparator of the `largest` branches: `x.first > y.first`. -/
def comp_largest (x y : elem_t) : Bool := decide (x.1 > y.1)

/-- The comparator of the other branches: `x.first < y.first`. -/
def comp_smallest (x y : elem_t) : Bool := decide (x.1 < y.1)

/-- The C++ requirement on a comparator (*Compare*): a strict weak ordering, that is
irreflexive, transitive, with a transitive incomparability relation. -/
structure StrictWeakOrder {α : Type} (comp : α → α → Bool) : Prop where
  irrefl : ∀ a, comp a a = false
  trans : ∀ a b c, comp a b = true → comp b c = true → comp a c = true
  equiv_trans : ∀ a b c, comp a b = false → comp b a = false →
    comp b c = false → comp c b = false → comp a c = false ∧ comp c a = false

/-- The three standard-library algorithms `qtopk_kernel` calls. Their code is the C++
standard library's, not this repository's, so they are parameters, each with the
postconditions the C++ standard gives it for a comparator that is a strict weak ordering
and a valid range. A sequence is a list; `sort comp l` is `std::sort` over a whole
sequence, `partial_sort comp middle l` is
`std::partial_sort(begin, begin + middle, end, comp)` and `nth_element comp nth l` is
`std::nth_element(begin, begin + nth, end, comp)`. -/
structure StdAlgorithms (α : Type) where
  sort : (α → α → Bool) → List α → List α
  partial_sort : (α → α → Bool) → Nat → List α → List α
  nth_element : (α → α → Bool) → Nat → List α → List α
  /-- The result of `std::sort` is a rearrangement of the range. -/
  sort_perm : ∀ comp l, StrictWeakOrder comp → (sort comp l).Perm l
  /-- The result of `std::sort` is sorted with respect to `comp`. -/
  sort_sorted : ∀ comp l, StrictWeakOrder comp →
    (sort comp l).Pairwise (fun a b => comp b a = false)
  /-- The result of `std::partial_sort` is a rearrangement of the range. -/
  partial_sort_perm : ∀ comp middle l, StrictWeakOrder comp → middle ≤ l.length →
    (partial_sort comp middle l).Perm l
  /-- After `std::partial_sort` the range `[first, middle)` is sorted. -/
  partial_sort_sorted : ∀ comp middle l, StrictWeakOrder comp → middle ≤ l.length →
    ((partial_sort comp middle l).take middle).Pairwise (fun a b => comp b a = false)
  /-- After `std::partial_sort` no element of `[middle, last)` goes before an element of
  `[first, middle)`. -/
  partial_sort_least : ∀ comp middle l, StrictWeakOrder comp → middle ≤ l.length →
    ∀ a ∈ (partial_sort comp middle l).take middle,
      ∀ b ∈ (partial_sort comp middle l).drop middle, comp b a = false
  /-- The result of `std::nth_element` is a rearrangement of the range. -/
  nth_element_perm : ∀ comp nth l, StrictWeakOrder comp → nth < l.length →
    (nth_element comp nth l).Perm l
  /-- After `std::nth_element`, for every `i` in `[first, nth)` and every `j` in
  `[nth, last)`, `comp(*j, *i)` is false. -/
  nth_element_before : ∀ comp nth l, StrictWeakOrder comp → nth < l.length →
    ∀ a ∈ (nth_element comp nth l).take nth,
      ∀ b ∈ (nth_element comp nth l).drop nth, comp b a = false
  /-- After `std::nth_element` the element at `nth` is the one a full sort would put
  there: no later element goes before it. -/
  nth_element_after : ∀ comp nth l, StrictWeakOrder comp → nth < l.length →
    ∀ x, (nth_element comp nth l)[nth]? = some x →
      ∀ b ∈ (nth_element comp nth l).drop (nth + 1), comp b x = false

/-- The call `std::sort(queue.begin(), queue.begin() + m, comp)`: the first `m` entries
are sorted in place, the others stay. -/
def sort_range {α : Type} (A : StdAlgorithms α) (comp : α → α → Bool) (m : Nat)
    (queue : List α) : List α :=
  A.sort comp (queue.take m) ++ queue.drop m

/-- The queue `qtopk_kernel` builds (lines 470-475): `queue[j] = (tmp_values[j], j)`. -/
def qtopk_queue (tmp_values : List Int) : List elem_t :=
  tmp_values.zip (List.range tmp_values.length)

/-- The queue of `qtopk_kernel` after the selection step (lines 477-514). -/
def qtopk_select (A : StdAlgorithms elem_t) (tmp_values : List Int) (k : Nat)
    (largest sorted : Bool) : List elem_t :=
  let n := tmp_values.length
  let use_partial_sort := decide (k * 64 ≤ n)
  let queue := qtopk_queue tmp_values
  if use_partial_sort then
    if largest then A.partial_sort comp_largest k queue
    else A.partial_sort comp_smallest k queue
  else
    if largest then
      let queue1 := A.nth_element comp_largest (k - 1) queue
      if sorted then sort_range A comp_largest (k - 1) queue1 else queue1
    else
      let queue1 := A.nth_element comp_smallest (k - 1) queue
      if sorted then sort_range A comp_smallest (k - 1) queue1 else queue1

/-- The body `qtopk_kernel` runs on one slice (lines 467-519): the pair
`(mode_values, mode_indices)` written for the slice `tmp_values`. -/
def qtopk_kernel (A : StdAlgorithms elem_t) (tmp_values : List Int) (k : Nat)
    (largest sorted : Bool) : List Int × List Nat :=
  let queue := qtopk_select A tmp_values k largest sorted
  ((queue.take k).map Prod.fst, (queue.take k).map Prod.snd)

/-- The comparator `qtopk_kernel` passes to the standard algorithms for a value of
`largest`. -/
def qtopk_comp (largest : Bool) : elem_t → elem_t → Bool :=
  if largest then comp_largest else comp_smallest

/-- The `k` largest codes of a slice, in non-increasing order. -/
def k_largest (slice : List Int) (k : Nat) : List Int :=
  (slice.insertionSort (fun a b => b ≤ a)).take k

/-- The `k` smallest codes of a slice, in non-decreasing order. -/
def k_smallest (slice : List Int) (k : Nat) : List Int :=
  (slice.insertionSort (fun a b => a ≤ b)).take k

/-- A conforming `std::sort`: insertion sort by `!comp(b, a)`. -/
def ref_sort {α : Type} (comp : α → α → Bool) (l : List α) : List α :=
  l.insertionSort (fun a b => comp b a = false)

/-- A conforming `std::nth_element` that leaves the entries before `nth` out of order:
the sorted sequence with its first `nth` entries reversed. -/
def ref_nth_element {α : Type} (comp : α → α → Bool) (nth : Nat) (l : List α) : List α :=
  ((ref_sort comp l).take nth).reverse ++ (ref_sort comp l).drop nth

/-! ## Rounding and the base quantize primitives -/

/-- The function `std::nearbyint` in the default rounding mode, on exact values: the
nearest integer, a tie going to the even one. -/
def nearbyint (x : ℚ) : Int :=
  if x - ⌊x⌋ < 1 / 2 then ⌊x⌋
  else if 1 / 2 < x - ⌊x⌋ then ⌊x⌋ + 1
  else if ⌊x⌋ % 2 = 0 then ⌊x⌋ else ⌊x⌋ + 1

/-- The narrowing of a value to `int32_t`, and 32-bit accumulation: modulo `2^32` into
`[-2^31, 2^31)`. -/
def wrap_int32 (x : Int) : Int := (x + 2147483648) % 4294967296 - 2147483648

/-! ### Binary floating point

The values of `float` and `double` are rationals; an operation on them is the exact
operation followed by the rounding of its result into the format. -/

/-- Rounding into a binary floating-point format with `p` significand bits and least
normal exponent `emin`, in the default rounding mode: the magnitude goes to the nearest
multiple of the unit in the last place of its binade (of the least normal binade for a
subnormal magnitude), a tie to the even multiple, and the sign is kept. The exponent is
not bounded above. -/
def round_binary (p : Nat) (emin : Int) (x : ℚ) : ℚ :=
  let e := max (Int.log 2 |x|) emin
  let ulp : ℚ := (2 : ℚ) ^ (e - ((p : Int) - 1))
  let r : ℚ := (nearbyint (|x| / ulp) : ℚ) * ulp
  if x < 0 then -r else r

/-- Rounding to `float` (binary32: 24 significand bits, least normal exponent `-126`),
as the conversions `(float)` and the `float` operations round. The result is the one of
the machine where that is finite, which it is for every 64-bit integer. -/
def round_to_float (x : ℚ) : ℚ := round_binary 24 (-126) x

/-- Rounding to `double` (binary64: 53 significand bits, least normal exponent
`-1022`). -/
def round_to_double (x : ℚ) : ℚ := round_binary 53 (-1022) x

/-- A `float` result: the rounded value, or `none` where the format has no finite value
for it (from `2^128` on the result is an infinity). -/
def float_of (x : ℚ) : Option ℚ :=
  if |round_to_float x| < 2 ^ 128 then some (round_to_float x) else none

/-- A `double` result: the rounded value, or `none` where the format has no finite value
for it (from `2^1024` on the result is an infinity). -/
def double_of (x : ℚ) : Option ℚ :=
  if |round_to_double x| < 2 ^ 1024 then some (round_to_double x) else none

/-- A `double` division: `none` for a zero divisor, where the result is an infinity or
not a number. -/
def double_div (x y : ℚ) : Option ℚ :=
  if y = 0 then none else double_of (x / y)

/-- Modelled from the spec: `at::dequantize_val`, whose code (the base dequantize
primitive) is not among the sources: `real = scale * (code - zero_point)`. -/
def dequantize_val (scale : ℚ) (zero_point : Int) (code : Int) : ℚ :=
  scale * ((code : ℚ) - (zero_point : ℚ))

/-- Modelled from the spec: `at::quantize_val<T>`, whose code (the base quantize
primitive) is not among the sources:
`code = round_to_nearest(value / scale) + zero_point`, rounding half to even, clamped to
the representable range of the type. -/
def quantize_val (T : QType) (scale : ℚ) (zero_point : Int) (value : ℚ) : Int :=
  min (max (nearbyint (value / scale) + zero_point) T.lowest) T.highest

/-! ## Activation kernels -/

/-- The number of values of the underlying integer type. -/
def QType.modulus : QType → Int
  | .qint8 => 256
  | .quint8 => 256
  | .qint32 => 4294967296

/-- The conversion of a 64-bit value to the underlying integer type (the implicit
conversion of `zero_point` to `underlying_t` in `std::max<underlying_t>`): modulo the
number of values of the type, into its range. -/
def QType.narrow (T : QType) (x : Int) : Int :=
  (x - T.lowest) % T.modulus + T.lowest

/-- The scalar body of `qrelu_kernel` (lines 30-32):
`std::max<underlying_t>(value.val_, zero_point)`. -/
def qrelu_kernel (T : QType) (zero_point : Int) (value : Int) : Int :=
  max value (T.narrow zero_point)

/-- The scalar body of `qrelu6_kernel` (lines 48-58), with `six` as line 48 computes it
from the input's scale and zero point. -/
def qrelu6_kernel (T : QType) (scale : ℚ) (zero_point : Int) (value : Int) : Int :=
  let six := quantize_val T scale zero_point 6
  let relu_val := max value (T.narrow zero_point)
  min relu_val six

/-! ## Affine add -/

/-- The scalar body of `qadd_kernel<ReLUFused>` (lines 93-101) in exact arithmetic: the
sum of line 96 is not rounded (`qadd_kernel_float` rounds it). `scale`, `zero_point` are
the output's parameters. -/
def qadd_kernel (ReLUFused : Bool) (T : QType) (scale : ℚ) (zero_point : Int)
    (self_scale : ℚ) (self_zero_point : Int) (other_scale : ℚ) (other_zero_point : Int)
    (a b : Int) : Int :=
  let da := dequantize_val self_scale self_zero_point a
  let db := dequantize_val other_scale other_zero_point b
  let c := da + db
  let c := if ReLUFused then max c 0 else c
  quantize_val T scale zero_point c

/-- The scalar body of `qadd_kernel<ReLUFused>` (lines 93-101) with the sum of line 96,
`float c = da + db`, rounded to `float`; there is no result where the sum is not finite.
`scale`, `zero_point` are the output's parameters. -/
def qadd_kernel_float (ReLUFused : Bool) (T : QType) (scale : ℚ) (zero_point : Int)
    (self_scale : ℚ) (self_zero_point : Int) (other_scale : ℚ) (other_zero_point : Int)
    (a b : Int) : Option Int :=
  let da := dequantize_val self_scale self_zero_point a
  let db := dequantize_val other_scale other_zero_point b
  (float_of (da + db)).map (fun c =>
    let c := if ReLUFused then max c 0 else c
    quantize_val T scale zero_point c)

/-! ## Average pooling, channel-last -/

/-- The values a loop `for (ih = lo; ih < hi; ih++)` takes. -/
def int_range (lo hi : Int) : List Int :=
  (List.range (hi - lo).toNat).map (fun (i : Nat) => lo + (i : Int))

/-- The window of one output element of `qavg_pool2d_nhwc_kernel` after clipping, with
the accumulator offset size and the divisor (lines 382-404). -/
structure AvgWindow where
  hstart : Int
  hend : Int
  wstart : Int
  wend : Int
  size : Int
  divide_factor : Int
  deriving DecidableEq, Repr

/-- Lines 382-404 of `qavg_pool2d_nhwc_kernel`. -/
def qavg_window (inputWidth inputHeight kW kH dW dH padW padH : Int)
    (count_include_pad : Bool) (divisor_override : Option Int) (oh ow : Int) : AvgWindow :=
  let hstart := oh * dH - padH
  let wstart := ow * dW - padW
  let hend := min (hstart + kH) (inputHeight + padH)
  let wend := min (wstart + kW) (inputWidth + padW)
  let pool_size := (hend - hstart) * (wend - wstart)
  let hstart := max hstart 0
  let wstart := max wstart 0
  let hend := min hend inputHeight
  let wend := min wend inputWidth
  match divisor_override with
  | some d =>
    { hstart := hstart, hend := hend, wstart := wstart, wend := wend,
      size := (hend - hstart) * (wend - wstart), divide_factor := d }
  | none =>
    let divide_factor :=
      if count_include_pad then pool_size else (hend - hstart) * (wend - wstart)
    { hstart := hstart, hend := hend, wstart := wstart, wend := wend,
      size := divide_factor, divide_factor := divide_factor }

/-- The accumulation loops of the slow path (lines 429-437): the 32-bit accumulator
after adding the codes of channel `c` at the rows `[hstart, hend)` and columns
`[wstart, wend)` of the batch at `i_p`. -/
def avg_accumulate (i_p : Int → Int) (inputWidth nInputPlane c : Int)
    (hstart hend wstart wend : Int) (init : Int) : Int :=
  (int_range hstart hend).foldl
    (fun acc ih =>
      (int_range wstart wend).foldl
        (fun acc iw =>
          let tcntr := ih * inputWidth + iw
          let val := i_p (tcntr * nInputPlane + c)
          wrap_int32 (acc + val))
        acc)
    init

/-- The values of `int32_t`. -/
def Int32Range (x : Int) : Prop := -2147483648 ≤ x ∧ x ≤ 2147483647

instance (x : Int) : Decidable (Int32Range x) := by
  unfold Int32Range; infer_instance

/-- Line 410 of `qavg_pool2d_nhwc_kernel`,
`float multiplier = qx.q_scale() / qy.q_scale() / divide_factor`: the scales are
`double`s, both divisions are `double` divisions, the second one by `divide_factor`
converted to `double`, and the quotient is converted to `float`. There is no value where
a divisor is zero or a result is not finite. -/
def qavg_multiplier (scale_in scale_out : ℚ) (divide_factor : Int) : Option ℚ :=
  (double_div scale_in scale_out).bind (fun r =>
    (double_div r (round_to_double (divide_factor : ℚ))).bind float_of)

/-- Lines 438-444 of `qavg_pool2d_nhwc_kernel`, the requantization of the accumulator:
`acc_fp = acc_int32 * 1.0` is exact, `acc_fp * multiplier + qy.q_zero_point()` is a
`double` product and a `double` sum with the zero point converted to `double`,
`std::nearbyint` gives the nearest integer, a tie going to the even one, which is
converted to `int32_t` for `std::max<int32_t>` and clamped to the range of the
underlying type. The conversion is undefined for a value that is not a value of
`int32_t`: there is no result then, nor where a `double` result is not finite. -/
def qavg_requantize (T : QType) (multiplier : ℚ) (zero_point_out : Int)
    (acc_int32 : Int) : Option Int :=
  let minimum := T.lowest
  let maximum := T.highest
  let acc_fp : ℚ := (acc_int32 : ℚ) * 1
  (double_of (acc_fp * multiplier)).bind (fun t =>
    (double_of (t + round_to_double (zero_point_out : ℚ))).bind (fun u =>
      if Int32Range (nearbyint u) then some (min (max (nearbyint u) minimum) maximum)
      else none))

/-- The body of the remainder loop of `qavg_pool2d_nhwc_kernel` (lines 428-445) for the
channel `c`: the code written to `o_p[c]`, from the window `w` and the multiplier of line
410. The accumulator `acc_int32` is reduced modulo `2^32` at its initialisation and after
every addition. -/
def qavg_slow_path (T : QType) (i_p : Int → Int) (inputWidth nInputPlane : Int)
    (w : AvgWindow) (zero_point_in zero_point_out : Int) (multiplier : ℚ) (c : Int) :
    Option Int :=
  let acc_int32 := avg_accumulate i_p inputWidth nInputPlane c
    w.hstart w.hend w.wstart w.wend (wrap_int32 (-zero_point_in * w.size))
  qavg_requantize T multiplier zero_point_out acc_int32

/-- The slow path of `qavg_pool2d_nhwc_kernel` (lines 382-410 and 428-445): the code the
remainder loop writes to `o_p[c]` for the output element `(b, oh, ow)` and channel `c`.
The scales are the input's and the output's `q_scale()`, the zero points their
`q_zero_point()`. -/
def qavg_pool2d_nhwc_kernel (T : QType) (idata : Int → Int)
    (scale_in scale_out : ℚ) (zero_point_in zero_point_out : Int)
    (b nInputPlane inputWidth inputHeight : Int) (kW kH dW dH padW padH : Int)
    (count_include_pad : Bool) (divisor_override : Option Int) (oh ow c : Int) :
    Option Int :=
  let batch_size := nInputPlane * inputWidth * inputHeight
  let i_p : Int → Int := fun off => idata (b * batch_size + off)
  let w := qavg_window inputWidth inputHeight kW kH dW dH padW padH
    count_include_pad divisor_override oh ow
  (qavg_multiplier scale_in scale_out w.divide_factor).bind (fun multiplier =>
    qavg_slow_path T i_p inputWidth nInputPlane w zero_point_in zero_point_out
      multiplier c)

/-- Modelled from the spec: `vec256::QuantizeAvx2<T>`, the vectorized quantize primitive,
whose code is not among the sources. Lane by lane it is the base quantize primitive with
`1/scale = inverse_scale`: `round_to_nearest(value * inverse_scale) + zero_point`,
rounding half to even, clamped to the representable range of the type. -/
def QuantizeAvx2 (T : QType) (src : Nat → ℚ) (inverse_scale : ℚ) (zero_point : Int) :
    Vec256 :=
  fun l => min (max (nearbyint (src l * inverse_scale) + zero_point) T.lowest) T.highest

/-- The accumulation loops of `do_avg_pool_on_AVX2` (lines 253-261): the 32-bit lanes of
`acc` after adding, for every window coordinate, the codes
`vec256::convert_to_int32` loads from `i_p + tcntr * channel_multiplier + c * stride_D`,
lane `l` holding the code at that offset plus `l`. -/
def avx2_accumulate (i_p : Int → Int) (c channel_multiplier : Int)
    (hstart hend wstart wend stride_D stride_H stride_W : Int) (init : Int) : Vec256 :=
  (int_range hstart hend).foldl
    (fun acc ih =>
      (int_range wstart wend).foldl
        (fun acc iw =>
          let tcntr := ih * stride_H + iw * stride_W
          let vals := Vec256.loadu i_p (tcntr * channel_multiplier + c * stride_D)
          fun l => wrap_int32 (acc l + vals l))
        acc)
    (Vec256.splat init)

/-- One round of the channel loop of `do_avg_pool_on_AVX2` (lines 251-267) at channel
`c`: the accumulation, the conversion of the eight sums to `float` and the writes of
`vec256::QuantizeAvx2` to `o_p + c`. -/
def avx2_channel_group (T : QType) (i_p : Int → Int) (channel_multiplier : Int)
    (input_zero_point_m_size output_zero_point : Int) (multiplier : ℚ)
    (hstart hend wstart wend stride_D stride_H stride_W : Int) (c : Int) :
    List (Int × Int) :=
  let acc := avx2_accumulate i_p c channel_multiplier hstart hend wstart wend
    stride_D stride_H stride_W input_zero_point_m_size
  let acc_fp : Nat → ℚ := fun l => round_to_float (acc l : ℚ)
  Vec256.store 8 (QuantizeAvx2 T acc_fp multiplier output_zero_point) c

/-- The function `do_avg_pool_on_AVX2<T>` (lines 231-271): the value of `c` when it
returns and its writes, in order. `avx2` says whether the build defines `__AVX2__` (and
not `_MSC_VER`), `vec_size` is `Vec256<T>::size()`; the channel loop runs when
`vec_width = vec_size / 4` is `8`, while `c + vec_width <= channel_size`. -/
def do_avg_pool_on_AVX2 (avx2 : Bool) (vec_size : Nat) (fuel : Nat) (T : QType)
    (i_p : Int → Int) (c channel_size channel_multiplier : Int)
    (input_zero_point_m_size output_zero_point : Int) (multiplier : ℚ)
    (hstart hend wstart wend stride_D stride_H stride_W : Int) :
    Option (Int × List (Int × Int)) :=
  let vec_width := vec_size / 4
  if avx2 = true ∧ vec_width = 8 then
    channel_for (vec_width : Int) channel_size
      (fun c => some (avx2_channel_group T i_p channel_multiplier input_zero_point_m_size
        output_zero_point multiplier hstart hend wstart wend stride_D stride_H stride_W c))
      fuel c
  else some (c, [])

/-- The channels of one output element `(b, oh, ow)` of `qavg_pool2d_nhwc_kernel` (lines
382-445): the writes `o_p[offset] = code` of `do_avg_pool_on_AVX2` and of the remainder
loop, in order. The arguments `-qx.q_zero_point() * size` and `qy.q_zero_point()` are
converted to the `int32_t` parameters of `do_avg_pool_on_AVX2`. There is no result where
the multiplier is not finite. -/
def qavg_pool2d_nhwc_channels (avx2 : Bool) (vec_size : Nat) (fuel : Nat) (T : QType)
    (idata : Int → Int) (scale_in scale_out : ℚ) (zero_point_in zero_point_out : Int)
    (b nInputPlane inputWidth inputHeight : Int) (kW kH dW dH padW padH : Int)
    (count_include_pad : Bool) (divisor_override : Option Int) (oh ow : Int) :
    Option (List (Int × Int)) :=
  let batch_size := nInputPlane * inputWidth * inputHeight
  let i_p : Int → Int := fun off => idata (b * batch_size + off)
  let w := qavg_window inputWidth inputHeight kW kH dW dH padW padH
    count_include_pad divisor_override oh ow
  (qavg_multiplier scale_in scale_out w.divide_factor).bind (fun multiplier =>
    (do_avg_pool_on_AVX2 avx2 vec_size fuel T i_p 0 nInputPlane nInputPlane
        (wrap_int32 (-zero_point_in * w.size)) (wrap_int32 zero_point_out) multiplier
        w.hstart w.hend w.wstart w.wend 1 inputWidth 1).bind (fun r1 =>
      (channel_for 1 nInputPlane
          (fun c => (qavg_slow_path T i_p inputWidth nInputPlane w zero_point_in
            zero_point_out multiplier c).map (fun v => [(c, v)]))
          fuel r1.1).map (fun r2 => r1.2 ++ r2.2)))

/-- The codes two nested loops over `rows` and `cols` read, in the order they read
them. -/
def window_codes (f : Int → Int → Int) (rows cols : List Int) : List Int :=
  (rows.map (fun ih => cols.map (fun iw => f ih iw))).flatten

/-- The accumulator `acc_int32` of the slow path of `qavg_pool2d_nhwc_kernel` (lines
382-437) for the output element `(b, oh, ow)` and channel `c`, when the inner loops are
done. -/
def qavg_acc_int32 (idata : Int → Int) (zero_point_in : Int)
    (b nInputPlane inputWidth inputHeight : Int) (kW kH dW dH padW padH : Int)
    (count_include_pad : Bool) (divisor_override : Option Int) (oh ow c : Int) : Int :=
  let batch_size := nInputPlane * inputWidth * inputHeight
  let i_p : Int → Int := fun off => idata (b * batch_size + off)
  let w := qavg_window inputWidth inputHeight kW kH dW dH padW padH
    count_include_pad divisor_override oh ow
  avg_accumulate i_p inputWidth nInputPlane c
    w.hstart w.hend w.wstart w.wend (wrap_int32 (-zero_point_in * w.size))

/-- The codes the slow path of `qavg_pool2d_nhwc_kernel` adds to `acc_int32` for one
output element and channel, in order. -/
def qavg_window_codes (idata : Int → Int)
    (b nInputPlane inputWidth inputHeight : Int) (kW kH dW dH padW padH : Int)
    (count_include_pad : Bool) (divisor_override : Option Int) (oh ow c : Int) :
    List Int :=
  let w := qavg_window inputWidth inputHeight kW kH dW dH padW padH
    count_include_pad divisor_override oh ow
  window_codes
    (fun ih iw => idata (b * (nInputPlane * inputWidth * inputHeight)
      + ((ih * inputWidth + iw) * nInputPlane + c)))
    (int_range w.hstart w.hend) (int_range w.wstart w.wend)

/-- The in-bounds coordinates of the window of `kH` rows from `h0` and `kW` columns
from `w0`. -/
def clipped_window (h0 kH inputHeight w0 kW inputWidth : Int) : Finset (Int × Int) :=
  ((Finset.Ico h0 (h0 + kH)) ×ˢ (Finset.Ico w0 (w0 + kW))).filter
    (fun p => 0 ≤ p.1 ∧ p.1 < inputHeight ∧ 0 ≤ p.2 ∧ p.2 < inputWidth)

/-- The coordinates of the window of `kH` rows from `h0` and `kW` columns from `w0` that
lie inside the padded input, whose rows end at `hlimit = inputHeight + padH` and whose
columns end at `wlimit = inputWidth + padW`. -/
def padded_window (h0 kH hlimit w0 kW wlimit : Int) : Finset (Int × Int) :=
  ((Finset.Ico h0 (h0 + kH)) ×ˢ (Finset.Ico w0 (w0 + kW))).filter
    (fun p => p.1 < hlimit ∧ p.2 < wlimit)

/-- The sum over the coordinates `W` of `q - zero_point_in`, for the codes `q` of
channel `c` of the batch `b`. -/
def window_sum (idata : Int → Int) (zero_point_in : Int)
    (b nInputPlane inputHeight inputWidth : Int) (W : Finset (Int × Int)) (c : Int) : Int :=
  ∑ p in W, (nhwc_at idata nInputPlane inputHeight inputWidth b p.1 p.2 c - zero_point_in)

/-- The value the requantized average rounds, in the claim's words:
`(scale_in/scale_out) * (sum over W of (q - zero_point_in)) / |W|`. -/
def window_average (idata : Int → Int) (scale_in scale_out : ℚ) (zero_point_in : Int)
    (b nInputPlane inputHeight inputWidth : Int) (W : Finset (Int × Int)) (c : Int) : ℚ :=
  (scale_in / scale_out)
    * ((window_sum idata zero_point_in b nInputPlane inputHeight inputWidth W c : Int) : ℚ)
    / (W.card : ℚ)

/-- The channels `do_avg_pool_on_AVX2` writes for one output element: those below
`8 * (nInputPlane / 8)`, when the build has AVX2 and `Vec256<T>::size() / 4` is `8`. -/
def OnAvx2Path (avx2 : Bool) (vec_size : Nat) (nInputPlane c : Int) : Prop :=
  avx2 = true ∧ vec_size / 4 = 8 ∧ c < 8 * (nInputPlane / 8)

instance (avx2 : Bool) (vec_size : Nat) (nInputPlane c : Int) :
    Decidable (OnAvx2Path avx2 vec_size nInputPlane c) := by
  unfold OnAvx2Path; infer_instance

/-! ## Adaptive average pooling windows -/

/-- The window start as the spec words it, `floor(o * in_size / out_size)`, in exact
arithmetic. -/
def exact_start (o in_size out_size : Int) : Int :=
  ⌊((o * in_size : Int) : ℚ) / (out_size : ℚ)⌋

/-- The window end as the spec words it, `ceil((o + 1) * in_size / out_size)`, in exact
arithmetic. -/
def exact_end (o in_size out_size : Int) : Int :=
  ⌈(((o + 1) * in_size : Int) : ℚ) / (out_size : ℚ)⌉

/-- The window start of `qadaptive_avg_pool2d_nhwc_kernel` (lines 294, 300):
`(int)std::floor((float)(o * in_size) / out_size)`. The 64-bit product is converted to
`float`, `out_size` is converted to `float` for the division, and the `float` quotient is
rounded; the floor of a `float` is exact. The operands are taken as 64-bit values with
`out_size ≠ 0` and the result as a value of `int`. -/
def adaptive_start (o in_size out_size : Int) : Int :=
  ⌊round_to_float
    (round_to_float ((o * in_size : Int) : ℚ) / round_to_float (out_size : ℚ))⌋

/-- The window end of `qadaptive_avg_pool2d_nhwc_kernel` (lines 295, 301):
`(int)std::ceil((float)((o + 1) * in_size) / out_size)`, with the conversions and the
`float` division rounded as for the start. -/
def adaptive_end (o in_size out_size : Int) : Int :=
  ⌈round_to_float
    (round_to_float (((o + 1) * in_size : Int) : ℚ) / round_to_float (out_size : ℚ))⌉

/-- The sum over the output indices `o` in `[0, out_size)` of the window lengths
`end(o) - start(o)`. -/
def adaptive_total_length (in_size out_size : Int) : Int :=
  ((List.range out_size.toNat).map
    (fun (o : Nat) =>
      adaptive_end (o : Int) in_size out_size - adaptive_start (o : Int) in_size out_size)).sum

/-- The window of one output element of `qadaptive_avg_pool2d_nhwc_kernel` (lines
294-303): the start and the extent on each axis, and `size = kH * kW`. -/
structure AdaptiveWindow where
  istartH : Int
  kH : Int
  istartW : Int
  kW : Int
  size : Int
  deriving DecidableEq, Repr

/-- Lines 294-303 of `qadaptive_avg_pool2d_nhwc_kernel`. -/
def qadaptive_window (isizeH isizeW osizeH osizeW oh ow : Int) : AdaptiveWindow :=
  let istartH := adaptive_start oh isizeH osizeH
  let iendH := adaptive_end oh isizeH osizeH
  let kH := iendH - istartH
  let istartW := adaptive_start ow isizeW osizeW
  let iendW := adaptive_end ow isizeW osizeW
  let kW := iendW - istartW
  let size := kH * kW
  { istartH := istartH, kH := kH, istartW := istartW, kW := kW, size := size }

/-- The accumulation loops of the slow path of `qadaptive_avg_pool2d_nhwc_kernel` (lines
330-338): the 32-bit accumulator after adding the codes of channel `c` at the offsets
`ih * istrideH + iw * istrideW`, `0 ≤ ih < kH`, `0 ≤ iw < kW`, from `internal_i_p`. -/
def adaptive_accumulate (internal_i_p : Int → Int) (istrideD istrideH istrideW c : Int)
    (kH kW : Int) (init : Int) : Int :=
  (int_range 0 kH).foldl
    (fun acc ih =>
      (int_range 0 kW).foldl
        (fun acc iw =>
          let tcntr := ih * istrideH + iw * istrideW
          let val := internal_i_p (tcntr + c * istrideD)
          wrap_int32 (acc + val))
        acc)
    init

/-- The accumulator `acc_int32` of the slow path of `qadaptive_avg_pool2d_nhwc_kernel`
(lines 291-338) for the output element `(b, oh, ow)` and channel `c`, when the inner
loops are done. -/
def qadaptive_acc_int32 (idata : Int → Int) (zero_point_in : Int)
    (b isizeH isizeW osizeH osizeW istrideB istrideD istrideH istrideW : Int)
    (oh ow c : Int) : Int :=
  let i_p : Int → Int := fun off => idata (b * istrideB + off)
  let w := qadaptive_window isizeH isizeW osizeH osizeW oh ow
  let internal_i_p : Int → Int :=
    fun off => i_p (w.istartH * istrideH + w.istartW * istrideW + off)
  adaptive_accumulate internal_i_p istrideD istrideH istrideW c w.kH w.kW
    (wrap_int32 (-zero_point_in * w.size))

/-- The codes the slow path of `qadaptive_avg_pool2d_nhwc_kernel` adds to `acc_int32`
for one output element and channel, in order. -/
def qadaptive_window_codes (idata : Int → Int)
    (b isizeH isizeW osizeH osizeW istrideB istrideD istrideH istrideW : Int)
    (oh ow c : Int) : List Int :=
  let w := qadaptive_window isizeH isizeW osizeH osizeW oh ow
  window_codes
    (fun ih iw => idata (b * istrideB + (w.istartH * istrideH + w.istartW * istrideW
      + (ih * istrideH + iw * istrideW + c * istrideD))))
    (int_range 0 w.kH) (int_range 0 w.kW)

/-- The boundaries between consecutive windows at which the windows overlap: the output
indices `o` in `[0, out_size - 1)` for which `(o + 1) * in_size` is not a multiple of
`out_size`. -/
def adaptive_overlaps (in_size out_size : Int) : Finset Nat :=
  (Finset.range (out_size.toNat - 1)).filter
    (fun (o : Nat) => ¬ (out_size ∣ ((o : Int) + 1) * in_size))

/-! # Theorems -/

/-! ### Rounding -/

/-- The value `nearbyint x` is a nearest integer of `x`, and the even one at a tie. -/
theorem nearbyint_spec (x : ℚ) :
    |(nearbyint x : ℚ) - x| ≤ 1 / 2 ∧
      (|(nearbyint x : ℚ) - x| = 1 / 2 → Even (nearbyint x)) := by
  have h1 : (⌊x⌋ : ℚ) ≤ x := Int.floor_le x
  have h2 : x < (⌊x⌋ : ℚ) + 1 := Int.lt_floor_add_one x
  unfold nearbyint
  by_cases hlt : x - (⌊x⌋ : ℚ) < 1 / 2
  · rw [if_pos hlt]
    have habs : |(⌊x⌋ : ℚ) - x| = x - ⌊x⌋ := by
      rw [abs_sub_comm, abs_of_nonneg (by linarith)]
    rw [habs]
    exact ⟨le_of_lt hlt, fun h => absurd h (ne_of_lt hlt)⟩
  · rw [if_neg hlt]
    by_cases hgt : 1 / 2 < x - (⌊x⌋ : ℚ)
    · rw [if_pos hgt]
      have habs : |((⌊x⌋ + 1 : Int) : ℚ) - x| = (⌊x⌋ : ℚ) + 1 - x := by
        push_cast
        rw [abs_of_nonneg (by linarith)]
      rw [habs]
      exact ⟨by linarith, fun h => absurd h (by linarith)⟩
    · rw [if_neg hgt]
      have heq : x - (⌊x⌋ : ℚ) = 1 / 2 := le_antisymm (not_lt.mp hgt) (not_lt.mp hlt)
      by_cases heven : ⌊x⌋ % 2 = 0
      · rw [if_pos heven]
        have habs : |(⌊x⌋ : ℚ) - x| = x - ⌊x⌋ := by
          rw [abs_sub_comm, abs_of_nonneg (by linarith)]
        rw [habs]
        exact ⟨le_of_eq heq, fun _ => Int.even_iff.mpr heven⟩
      · rw [if_neg heven]
        have habs : |((⌊x⌋ + 1 : Int) : ℚ) - x| = (⌊x⌋ : ℚ) + 1 - x := by
          push_cast
          rw [abs_of_nonneg (by linarith)]
        rw [habs]
        refine ⟨by linarith, fun _ => ?_⟩
        rw [Int.even_iff]
        omega

theorem nearbyint_nonneg (x : ℚ) (hx : 0 ≤ x) : 0 ≤ nearbyint x := by
  have h0 : 0 ≤ ⌊x⌋ := Int.floor_nonneg.mpr hx
  unfold nearbyint
  split_ifs <;> omega

theorem nearbyint_intCast (n : Int) : nearbyint (n : ℚ) = n := by
  simp [nearbyint]

theorem nearbyint_mem (x : ℚ) : nearbyint x = ⌊x⌋ ∨ nearbyint x = ⌊x⌋ + 1 := by
  unfold nearbyint
  split_ifs <;> simp

theorem nearbyint_mono {x y : ℚ} (h : x ≤ y) : nearbyint x ≤ nearbyint y := by
  have hf : ⌊x⌋ ≤ ⌊y⌋ := Int.floor_le_floor h
  rcases lt_or_eq_of_le hf with hlt | heq
  · rcases nearbyint_mem x with hx | hx <;> rcases nearbyint_mem y with hy | hy <;> omega
  · unfold nearbyint
    rw [← heq]
    split_ifs <;> first | omega | (exfalso; linarith)

/-- The rounding of a magnitude: the unit in the last place of the binade of `a`. -/
theorem round_binary_of_nonneg (p : Nat) (emin : Int) (a : ℚ) (ha : 0 ≤ a) :
    round_binary p emin a
      = (nearbyint (a / (2 : ℚ) ^ (max (Int.log 2 a) emin - ((p : Int) - 1))) : ℚ)
        * (2 : ℚ) ^ (max (Int.log 2 a) emin - ((p : Int) - 1)) := by
  unfold round_binary
  simp only [abs_of_nonneg ha, if_neg (not_lt.mpr ha)]

theorem round_binary_neg (p : Nat) (emin : Int) (x : ℚ) :
    round_binary p emin (-x) = -round_binary p emin x := by
  unfold round_binary
  rcases lt_trichotomy x 0 with h | h | h
  · simp only [abs_neg, if_pos h, if_neg (not_lt.mpr (neg_nonneg.mpr h.le)), neg_neg]
  · subst h; simp [nearbyint]
  · simp only [abs_neg, if_neg (not_lt.mpr h.le), if_pos (neg_lt_zero.mpr h)]

theorem round_binary_nonneg (p : Nat) (emin : Int) (a : ℚ) (ha : 0 ≤ a) :
    0 ≤ round_binary p emin a := by
  rw [round_binary_of_nonneg p emin a ha]
  have hn : 0 ≤ nearbyint (a / (2 : ℚ) ^ (max (Int.log 2 a) emin - ((p : Int) - 1))) :=
    nearbyint_nonneg _ (div_nonneg ha (zpow_nonneg (by norm_num) _))
  exact mul_nonneg (by exact_mod_cast hn) (zpow_nonneg (by norm_num) _)

/-- The rounding error is at most half a unit in the last place. -/
theorem round_binary_error (p : Nat) (emin : Int) (x : ℚ) :
    |round_binary p emin x - x|
      ≤ (2 : ℚ) ^ (max (Int.log 2 |x|) emin - ((p : Int) - 1)) / 2 := by
  have key : ∀ a : ℚ, 0 ≤ a → |round_binary p emin a - a|
      ≤ (2 : ℚ) ^ (max (Int.log 2 |a|) emin - ((p : Int) - 1)) / 2 := by
    intro a ha
    rw [round_binary_of_nonneg p emin a ha, abs_of_nonneg ha]
    have hu : (0 : ℚ) < (2 : ℚ) ^ (max (Int.log 2 a) emin - ((p : Int) - 1)) :=
      zpow_pos (by norm_num) _
    have hs := (nearbyint_spec (a / (2 : ℚ) ^ (max (Int.log 2 a) emin - ((p : Int) - 1)))).1
    have e : (nearbyint (a / (2 : ℚ) ^ (max (Int.log 2 a) emin - ((p : Int) - 1))) : ℚ)
          * (2 : ℚ) ^ (max (Int.log 2 a) emin - ((p : Int) - 1)) - a
        = ((nearbyint (a / (2 : ℚ) ^ (max (Int.log 2 a) emin - ((p : Int) - 1))) : ℚ)
            - a / (2 : ℚ) ^ (max (Int.log 2 a) emin - ((p : Int) - 1)))
          * (2 : ℚ) ^ (max (Int.log 2 a) emin - ((p : Int) - 1)) := by
      field_simp
    rw [e, abs_mul, abs_of_pos hu]
    calc _ ≤ (1 / 2) * (2 : ℚ) ^ (max (Int.log 2 a) emin - ((p : Int) - 1)) :=
          mul_le_mul_of_nonneg_right hs hu.le
      _ = _ := by ring
  rcases le_total 0 x with h | h
  · exact key x h
  · have := key (-x) (neg_nonneg.mpr h)
    rw [round_binary_neg, abs_neg] at this
    have e : -round_binary p emin x - -x = -(round_binary p emin x - x) := by ring
    rw [e, abs_neg] at this
    exact this

/-- A value with a normal magnitude is rounded with a relative error of at most
`2^(-p)`. -/
theorem round_binary_relative_error (p : Nat) (emin : Int) (x : ℚ)
    (hx : (2 : ℚ) ^ emin ≤ |x|) :
    |round_binary p emin x - x| ≤ |x| * (2 : ℚ) ^ (-(p : Int)) := by
  have hpos : 0 < |x| := lt_of_lt_of_le (zpow_pos (by norm_num) _) hx
  have hlog : emin ≤ Int.log 2 |x| :=
    (Int.zpow_le_iff_le_log (by norm_num) hpos).mp (by exact_mod_cast hx)
  have h := round_binary_error p emin x
  rw [max_eq_left hlog] at h
  have hle : (2 : ℚ) ^ (Int.log 2 |x|) ≤ |x| := by
    have := Int.zpow_log_le_self (b := 2) (r := |x|) (by norm_num) hpos
    exact_mod_cast this
  have e : (2 : ℚ) ^ (Int.log 2 |x| - ((p : Int) - 1)) / 2
      = (2 : ℚ) ^ (Int.log 2 |x|) * (2 : ℚ) ^ (-(p : Int)) := by
    rw [← zpow_add₀ (by norm_num : (2 : ℚ) ≠ 0), div_eq_iff (by norm_num),
      ← zpow_add_one₀ (by norm_num : (2 : ℚ) ≠ 0)]
    congr 1
    ring
  rw [e] at h
  exact le_trans h (mul_le_mul_of_nonneg_right hle (zpow_nonneg (by norm_num) _))

/-- A value whose magnitude is a whole number of units in the last place of its binade
is its own rounding. -/
theorem round_binary_of_units (p : Nat) (emin : Int) (x : ℚ) (n : Int)
    (h : |x| = (n : ℚ) * (2 : ℚ) ^ (max (Int.log 2 |x|) emin - ((p : Int) - 1))) :
    round_binary p emin x = x := by
  have hu : (2 : ℚ) ^ (max (Int.log 2 |x|) emin - ((p : Int) - 1)) ≠ 0 :=
    ne_of_gt (zpow_pos (by norm_num) _)
  have hq : |x| / (2 : ℚ) ^ (max (Int.log 2 |x|) emin - ((p : Int) - 1)) = (n : ℚ) := by
    rw [div_eq_iff hu]
    exact h
  unfold round_binary
  simp only [hq, nearbyint_intCast, ← h]
  split_ifs with hneg
  · rw [abs_of_neg hneg, neg_neg]
  · rw [abs_of_nonneg (not_lt.mp hneg)]

/-- The values `m * 2^k` with `|m| < 2^p` and `k` not below the exponent of the least
subnormal are values of the format: they are their own rounding. -/
theorem round_binary_exact (p : Nat) (emin : Int) (x : ℚ) (m k : Int)
    (hx : x = (m : ℚ) * (2 : ℚ) ^ k) (hm : |m| < 2 ^ p) (hk : emin - ((p : Int) - 1) ≤ k) :
    round_binary p emin x = x := by
  have h2 : (2 : ℚ) ≠ 0 := by norm_num
  by_cases hx0 : x = 0
  · rw [hx0]
    exact round_binary_of_units p emin 0 0 (by simp)
  have habs : |x| = (|m| : ℚ) * (2 : ℚ) ^ k := by
    rw [hx, abs_mul, abs_of_pos (zpow_pos (by norm_num : (0 : ℚ) < 2) k)]
  have hpos : 0 < |x| := abs_pos.mpr hx0
  have hexp : max (Int.log 2 |x|) emin - ((p : Int) - 1) ≤ k := by
    rcases le_total (Int.log 2 |x|) emin with hle | hle
    · rw [max_eq_right hle]; exact hk
    · rw [max_eq_left hle]
      have h1 : (2 : ℚ) ^ (Int.log 2 |x|) ≤ |x| := by
        have := Int.zpow_log_le_self (b := 2) (r := |x|) (by norm_num) hpos
        exact_mod_cast this
      have hmq : (|m| : ℚ) < (2 : ℚ) ^ (p : Int) := by
        rw [zpow_natCast]
        exact_mod_cast hm
      have h3 : |x| < (2 : ℚ) ^ ((p : Int) + k) := by
        rw [habs, zpow_add₀ h2]
        exact mul_lt_mul_of_pos_right hmq (zpow_pos (by norm_num) k)
      have h4 : (2 : ℚ) ^ (Int.log 2 |x|) < (2 : ℚ) ^ ((p : Int) + k) :=
        lt_of_le_of_lt h1 h3
      have h5 := (zpow_lt_zpow_iff_right₀ (by norm_num : (1 : ℚ) < 2)).mp h4
      omega
  obtain ⟨j, hj⟩ : ∃ j : Nat,
      k = max (Int.log 2 |x|) emin - ((p : Int) - 1) + (j : Int) :=
    ⟨(k - (max (Int.log 2 |x|) emin - ((p : Int) - 1))).toNat, by omega⟩
  refine round_binary_of_units p emin x (|m| * 2 ^ j) ?_
  have e : (2 : ℚ) ^ k
      = (2 : ℚ) ^ (max (Int.log 2 |x|) emin - ((p : Int) - 1)) * (2 : ℚ) ^ j := by
    conv_lhs => rw [hj, zpow_add₀ h2, zpow_natCast]
  rw [e] at habs
  refine habs.trans ?_
  push_cast
  ring

theorem round_binary_intCast (p : Nat) (emin : Int) (n : Int) (hn : |n| < 2 ^ p)
    (hemin : emin ≤ (p : Int) - 1) : round_binary p emin (n : ℚ) = (n : ℚ) :=
  round_binary_exact p emin (n : ℚ) n 0 (by simp) hn (by omega)

/-- The rounding of a positive value lies between the ends of its binade: at most
`2^(e + 1)` for `e` the exponent used, and at least `2^e` when the value is normal. -/
theorem round_binary_binade (p : Nat) (hp : 1 ≤ p) (emin : Int) (a : ℚ) (ha : 0 < a) :
    round_binary p emin a ≤ (2 : ℚ) ^ (max (Int.log 2 a) emin + 1) ∧
      (emin ≤ Int.log 2 a → (2 : ℚ) ^ (Int.log 2 a) ≤ round_binary p emin a) := by
  have h2 : (2 : ℚ) ≠ 0 := by norm_num
  have hu : (0 : ℚ) < (2 : ℚ) ^ (max (Int.log 2 a) emin - ((p : Int) - 1)) :=
    zpow_pos (by norm_num) _
  have hlo : (2 : ℚ) ^ (Int.log 2 a) ≤ a := by
    have := Int.zpow_log_le_self (b := 2) (r := a) (by norm_num) ha
    exact_mod_cast this
  have hhi : a < (2 : ℚ) ^ (Int.log 2 a + 1) := by
    have := Int.lt_zpow_succ_log_self (b := 2) (by norm_num) a
    exact_mod_cast this
  rw [round_binary_of_nonneg p emin a ha.le]
  constructor
  · have e1 : (2 : ℚ) ^ (max (Int.log 2 a) emin + 1)
        = (((2 : Int) ^ p : Int) : ℚ)
          * (2 : ℚ) ^ (max (Int.log 2 a) emin - ((p : Int) - 1)) := by
      push_cast
      rw [← zpow_natCast, ← zpow_add₀ h2]
      congr 1
      ring
    have hle : a ≤ (2 : ℚ) ^ (max (Int.log 2 a) emin + 1) :=
      le_trans hhi.le (zpow_le_zpow_right₀ (by norm_num) (by omega))
    have hq : a / (2 : ℚ) ^ (max (Int.log 2 a) emin - ((p : Int) - 1))
        ≤ (((2 : Int) ^ p : Int) : ℚ) := by
      rw [div_le_iff₀ hu, ← e1]
      exact hle
    have hn := nearbyint_mono hq
    rw [nearbyint_intCast] at hn
    rw [e1]
    exact mul_le_mul_of_nonneg_right (by exact_mod_cast hn) hu.le
  · intro hnorm
    rw [max_eq_left hnorm] at hu ⊢
    have e1 : (2 : ℚ) ^ (Int.log 2 a)
        = (((2 : Int) ^ (p - 1) : Int) : ℚ) * (2 : ℚ) ^ (Int.log 2 a - ((p : Int) - 1)) := by
      push_cast
      rw [← zpow_natCast, ← zpow_add₀ h2]
      congr 1
      have : ((p - 1 : Nat) : Int) = (p : Int) - 1 := by omega
      rw [this]
      ring
    have hq : (((2 : Int) ^ (p - 1) : Int) : ℚ)
        ≤ a / (2 : ℚ) ^ (Int.log 2 a - ((p : Int) - 1)) := by
      rw [le_div_iff₀ hu, ← e1]
      exact hlo
    have hn := nearbyint_mono hq
    rw [nearbyint_intCast] at hn
    rw [e1]
    exact mul_le_mul_of_nonneg_right (by exact_mod_cast hn) hu.le

/-- Rounding is monotone. -/
theorem round_binary_mono (p : Nat) (hp : 1 ≤ p) (emin : Int) {x y : ℚ} (h : x ≤ y) :
    round_binary p emin x ≤ round_binary p emin y := by
  have key : ∀ a b : ℚ, 0 ≤ a → a ≤ b → round_binary p emin a ≤ round_binary p emin b := by
    intro a b ha hab
    rcases eq_or_lt_of_le ha with ha0 | ha0
    · rw [← ha0]
      have h0 : round_binary p emin 0 = 0 := round_binary_of_units p emin 0 0 (by simp)
      rw [h0]
      exact round_binary_nonneg p emin b (le_trans ha hab)
    · have hb0 : 0 < b := lt_of_lt_of_le ha0 hab
      have hlog : Int.log 2 a ≤ Int.log 2 b := Int.log_mono_right ha0 hab
      rcases eq_or_lt_of_le (max_le_max_right emin hlog) with he | he
      · rw [round_binary_of_nonneg p emin a ha, round_binary_of_nonneg p emin b hb0.le, he]
        have hu : (0 : ℚ) < (2 : ℚ) ^ (max (Int.log 2 b) emin - ((p : Int) - 1)) :=
          zpow_pos (by norm_num) _
        have hn := nearbyint_mono (div_le_div_of_nonneg_right hab hu.le)
        exact mul_le_mul_of_nonneg_right (by exact_mod_cast hn) hu.le
      · have hnorm : emin ≤ Int.log 2 b := by
          by_contra hcon
          rw [max_eq_right (le_of_lt (not_le.mp hcon))] at he
          have := le_max_right (Int.log 2 a) emin
          omega
        rw [max_eq_left hnorm] at he
        have h1 := (round_binary_binade p hp emin a ha0).1
        have h2 := (round_binary_binade p hp emin b hb0).2 hnorm
        have h3 : (2 : ℚ) ^ (max (Int.log 2 a) emin + 1) ≤ (2 : ℚ) ^ (Int.log 2 b) :=
          zpow_le_zpow_right₀ (by norm_num) (by omega)
        exact le_trans h1 (le_trans h3 h2)
  rcases le_total 0 x with hx | hx
  · exact key x y hx h
  · rcases le_total 0 y with hy | hy
    · have h1 := round_binary_nonneg p emin (-x) (neg_nonneg.mpr hx)
      rw [round_binary_neg] at h1
      have h2 := round_binary_nonneg p emin y hy
      linarith
    · have h1 := key (-y) (-x) (neg_nonneg.mpr hy) (neg_le_neg h)
      rw [round_binary_neg, round_binary_neg] at h1
      linarith

theorem round_to_float_intCast (n : Int) (hn : |n| < 2 ^ 24) :
    round_to_float (n : ℚ) = (n : ℚ) :=
  round_binary_intCast 24 (-126) n hn (by decide)

theorem round_to_float_mono {x y : ℚ} (h : x ≤ y) : round_to_float x ≤ round_to_float y :=
  round_binary_mono 24 (by decide) (-126) h

/-- The `float` quotient of a natural number below `2^24` by a positive integer `b`
below `2^24` is within less than `1/b` of the exact quotient. -/
theorem float_quotient_error (n b : Int) (hn0 : 0 ≤ n) (hn : n < 2 ^ 24) (hb : 1 ≤ b)
    (hb24 : b < 2 ^ 24) :
    |round_to_float ((n : ℚ) / (b : ℚ)) - (n : ℚ) / (b : ℚ)| < 1 / (b : ℚ) := by
  have hbq : (0 : ℚ) < (b : ℚ) := by exact_mod_cast (show (0 : Int) < b by omega)
  rcases eq_or_lt_of_le hn0 with h0 | h0
  · rw [← h0]
    have : round_to_float (((0 : Int) : ℚ) / (b : ℚ)) = 0 := by
      simp only [Int.cast_zero, zero_div]
      exact round_binary_of_units 24 (-126) 0 0 (by simp)
    rw [this]
    simp only [Int.cast_zero, zero_div, sub_zero, abs_zero]
    exact div_pos one_pos hbq
  · have hnq : (1 : ℚ) ≤ (n : ℚ) := by exact_mod_cast (show (1 : Int) ≤ n by omega)
    have hnq2 : (n : ℚ) < 2 ^ 24 := by exact_mod_cast hn
    have hbq2 : (b : ℚ) < 2 ^ 24 := by exact_mod_cast hb24
    have hx : (0 : ℚ) < (n : ℚ) / (b : ℚ) := div_pos (by linarith) hbq
    have hnormal : (2 : ℚ) ^ (-126 : Int) ≤ |(n : ℚ) / (b : ℚ)| := by
      rw [abs_of_pos hx, le_div_iff₀ hbq]
      have h1 : (2 : ℚ) ^ (-126 : Int) * (b : ℚ) ≤ (2 : ℚ) ^ (-126 : Int) * 2 ^ 24 :=
        mul_le_mul_of_nonneg_left hbq2.le (zpow_nonneg (by norm_num) _)
      have h2 : (2 : ℚ) ^ (-126 : Int) * 2 ^ 24 ≤ 1 := by
        rw [zpow_neg, zpow_ofNat]
        norm_num
      linarith
    have herr := round_binary_relative_error 24 (-126) _ hnormal
    rw [abs_of_pos hx] at herr
    have hlt : (n : ℚ) / (b : ℚ) * (2 : ℚ) ^ (-((24 : Nat) : Int)) < 1 / (b : ℚ) := by
      rw [div_mul_eq_mul_div, div_lt_div_iff_of_pos_right hbq]
      have : (2 : ℚ) ^ (-((24 : Nat) : Int)) = 1 / 2 ^ 24 := by
        rw [zpow_neg, zpow_natCast]
        norm_num
      rw [this, mul_one_div, div_lt_one (by norm_num)]
      exact hnq2
    exact lt_of_le_of_lt herr hlt

/-- Below `2^24` the `float` division of the adaptive window bounds has the floor and the
ceiling of the exact quotient. -/
theorem float_div_floor_ceil (n b : Int) (hn0 : 0 ≤ n) (hn : n < 2 ^ 24) (hb : 1 ≤ b)
    (hb24 : b < 2 ^ 24) :
    ⌊round_to_float (round_to_float (n : ℚ) / round_to_float (b : ℚ))⌋
        = ⌊(n : ℚ) / (b : ℚ)⌋ ∧
      ⌈round_to_float (round_to_float (n : ℚ) / round_to_float (b : ℚ))⌉
        = ⌈(n : ℚ) / (b : ℚ)⌉ := by
  have hbq : (0 : ℚ) < (b : ℚ) := by exact_mod_cast (show (0 : Int) < b by omega)
  have hnq : (0 : ℚ) ≤ (n : ℚ) := by exact_mod_cast hn0
  rw [round_to_float_intCast n (by rw [abs_of_nonneg hn0]; exact hn),
    round_to_float_intCast b (by rw [abs_of_nonneg (by omega)]; exact hb24)]
  have herr := abs_lt.mp (float_quotient_error n b hn0 hn hb hb24)
  have hx0 : (0 : ℚ) ≤ (n : ℚ) / (b : ℚ) := div_nonneg hnq hbq.le
  have hinv : (1 : ℚ) / (b : ℚ) * (b : ℚ) = 1 := by field_simp
  have hint : ∀ z : Int, (n : ℚ) / (b : ℚ) = (z : ℚ) →
      round_to_float ((n : ℚ) / (b : ℚ)) = (z : ℚ) := by
    intro z hz
    have hz0 : (0 : ℚ) ≤ (z : ℚ) := by rw [← hz]; exact hx0
    have hzn : (z : ℚ) * (b : ℚ) = (n : ℚ) := by rw [← hz]; field_simp
    have hz0i : 0 ≤ z := by exact_mod_cast hz0
    have hzni : z * b = n := by exact_mod_cast hzn
    have hzle : z ≤ n := by nlinarith
    rw [hz]
    exact round_to_float_intCast z (by rw [abs_of_nonneg hz0i]; omega)
  constructor
  · rw [Int.floor_eq_iff]
    have hk1 : ((⌊(n : ℚ) / (b : ℚ)⌋ : Int) : ℚ) ≤ (n : ℚ) / (b : ℚ) := Int.floor_le _
    have hk2 : (n : ℚ) / (b : ℚ) < ((⌊(n : ℚ) / (b : ℚ)⌋ : Int) : ℚ) + 1 :=
      Int.lt_floor_add_one _
    generalize ⌊(n : ℚ) / (b : ℚ)⌋ = k at hk1 hk2
    have hk1' : (k : ℚ) * (b : ℚ) ≤ (n : ℚ) := (le_div_iff₀ hbq).mp hk1
    have hk2' : (n : ℚ) < ((k : ℚ) + 1) * (b : ℚ) := (div_lt_iff₀ hbq).mp hk2
    have hk1i : k * b ≤ n := by exact_mod_cast hk1'
    have hk2i : n < (k + 1) * b := by exact_mod_cast hk2'
    constructor
    · rcases eq_or_lt_of_le hk1i with heq | hlt
      · have : (n : ℚ) / (b : ℚ) = (k : ℚ) := by
          rw [div_eq_iff (ne_of_gt hbq)]
          exact_mod_cast heq.symm
        rw [hint k this]
      · have h1 : (k : ℚ) * (b : ℚ) + 1 ≤ (n : ℚ) := by
          exact_mod_cast (show k * b + 1 ≤ n by omega)
        have h2 : (k : ℚ) + 1 / (b : ℚ) ≤ (n : ℚ) / (b : ℚ) := by
          rw [le_div_iff₀ hbq, add_mul, hinv]
          exact h1
        linarith [herr.1]
    · have h1 : (n : ℚ) + 1 ≤ ((k : ℚ) + 1) * (b : ℚ) := by
        exact_mod_cast (show n + 1 ≤ (k + 1) * b by omega)
      have h2 : (n : ℚ) / (b : ℚ) + 1 / (b : ℚ) ≤ (k : ℚ) + 1 := by
        rw [← add_div, div_le_iff₀ hbq]
        exact h1
      linarith [herr.2]
  · rw [Int.ceil_eq_iff]
    have hc1 : ((⌈(n : ℚ) / (b : ℚ)⌉ : Int) : ℚ) - 1 < (n : ℚ) / (b : ℚ) := by
      have := Int.ceil_lt_add_one ((n : ℚ) / (b : ℚ))
      linarith
    have hc2 : (n : ℚ) / (b : ℚ) ≤ ((⌈(n : ℚ) / (b : ℚ)⌉ : Int) : ℚ) := Int.le_ceil _
    generalize ⌈(n : ℚ) / (b : ℚ)⌉ = c at hc1 hc2
    have hc1' : ((c : ℚ) - 1) * (b : ℚ) < (n : ℚ) := (lt_div_iff₀ hbq).mp hc1
    have hc2' : (n : ℚ) ≤ (c : ℚ) * (b : ℚ) := (div_le_iff₀ hbq).mp hc2
    have hc1i : (c - 1) * b < n := by exact_mod_cast hc1'
    have hc2i : n ≤ c * b := by exact_mod_cast hc2'
    constructor
    · have h1 : ((c : ℚ) - 1) * (b : ℚ) + 1 ≤ (n : ℚ) := by
        exact_mod_cast (show (c - 1) * b + 1 ≤ n by omega)
      have h2 : (c : ℚ) - 1 + 1 / (b : ℚ) ≤ (n : ℚ) / (b : ℚ) := by
        rw [le_div_iff₀ hbq, add_mul, hinv]
        exact h1
      linarith [herr.1]
    · rcases eq_or_lt_of_le hc2i with heq | hlt
      · have : (n : ℚ) / (b : ℚ) = (c : ℚ) := by
          rw [div_eq_iff (ne_of_gt hbq)]
          exact_mod_cast heq
        rw [hint c this]
      · have h1 : (n : ℚ) + 1 ≤ (c : ℚ) * (b : ℚ) := by
          exact_mod_cast (show n + 1 ≤ c * b by omega)
        have h2 : (n : ℚ) / (b : ℚ) + 1 / (b : ℚ) ≤ (c : ℚ) := by
          rw [← add_div, div_le_iff₀ hbq]
          exact h1
        linarith [herr.2]

theorem int_log_eq (a : ℚ) (e : Int) (hlo : (2 : ℚ) ^ e ≤ a) (hhi : a < (2 : ℚ) ^ (e + 1)) :
    Int.log 2 a = e := by
  have hpos : 0 < a := lt_of_lt_of_le (zpow_pos (by norm_num) _) hlo
  have h1 : e ≤ Int.log 2 a :=
    (Int.zpow_le_iff_le_log (by norm_num) hpos).mp (by exact_mod_cast hlo)
  have h2 : Int.log 2 a < e + 1 :=
    (Int.lt_zpow_iff_log_lt (by norm_num) hpos).mp (by exact_mod_cast hhi)
  omega

/-- The `float` nearest to a non-negative value of the binade `[2^e, 2^(e+1))`. -/
theorem round_to_float_eval (x : ℚ) (e : Int) (hlo : (2 : ℚ) ^ e ≤ x)
    (hhi : x < (2 : ℚ) ^ (e + 1)) (he : -126 ≤ e) :
    round_to_float x = (nearbyint (x / (2 : ℚ) ^ (e - 23)) : ℚ) * (2 : ℚ) ^ (e - 23) := by
  have hpos : 0 < x := lt_of_lt_of_le (zpow_pos (by norm_num) _) hlo
  unfold round_to_float
  rw [round_binary_of_nonneg 24 (-126) x hpos.le, int_log_eq x e hlo hhi, max_eq_left he]
  norm_num

/-- The values `m * 2^k` with `|m| < 2^24` and `k ≥ -149` are values of `float`. -/
theorem round_to_float_exact (x : ℚ) (m k : Int) (hx : x = (m : ℚ) * (2 : ℚ) ^ k)
    (hm : |m| < 2 ^ 24) (hk : -149 ≤ k) : round_to_float x = x :=
  round_binary_exact 24 (-126) x m k hx hm (by norm_num; omega)

/-- The values `m * 2^k` with `|m| < 2^53` and `k ≥ -1074` are values of `double`. -/
theorem round_to_double_exact (x : ℚ) (m k : Int) (hx : x = (m : ℚ) * (2 : ℚ) ^ k)
    (hm : |m| < 2 ^ 53) (hk : -1074 ≤ k) : round_to_double x = x :=
  round_binary_exact 53 (-1022) x m k hx hm (by norm_num; omega)

theorem round_to_double_intCast (n : Int) (hn : |n| < 2 ^ 53) :
    round_to_double (n : ℚ) = (n : ℚ) :=
  round_binary_intCast 53 (-1022) n hn (by decide)

theorem float_of_exact (x : ℚ) (m k : Int) (hx : x = (m : ℚ) * (2 : ℚ) ^ k)
    (hm : |m| < 2 ^ 24) (hk : -149 ≤ k) (hfin : |x| < 2 ^ 128) : float_of x = some x := by
  rw [float_of, round_to_float_exact x m k hx hm hk, if_pos hfin]

theorem double_of_exact (x : ℚ) (m k : Int) (hx : x = (m : ℚ) * (2 : ℚ) ^ k)
    (hm : |m| < 2 ^ 53) (hk : -1074 ≤ k) (hfin : |x| < 2 ^ 1024) :
    double_of x = some x := by
  rw [double_of, round_to_double_exact x m k hx hm hk, if_pos hfin]

/-! ### Loop lemmas -/

theorem clip_start_spec (d : Int) (hd : 1 ≤ d) :
    ∀ (fuel : Nat) (s : Int), (-s).toNat + 1 ≤ fuel →
      ∃ n : Nat, clip_start fuel s d = some (s + n * d) ∧ 0 ≤ s + n * d ∧
        ∀ m : Nat, m < n → s + m * d < 0 := by
  intro fuel
  induction fuel with
  | zero => intro s h; omega
  | succ fuel ih =>
    intro s h
    by_cases hs : s < 0
    · have hfuel : (-(s + d)).toNat + 1 ≤ fuel := by omega
      obtain ⟨n, h1, h2, h3⟩ := ih (s + d) hfuel
      refine ⟨n + 1, ?_, ?_, ?_⟩
      · simp only [clip_start, hs, if_true, h1]
        congr 1
        push_cast
        ring
      · have : s + ((n + 1 : Nat) : Int) * d = s + d + n * d := by push_cast; ring
        rw [this]; exact h2
      · intro m hm
        cases m with
        | zero => simpa using hs
        | succ m =>
          have := h3 m (by omega)
          have e : s + ((m + 1 : Nat) : Int) * d = s + d + m * d := by push_cast; ring
          rw [e]; exact this
    · refine ⟨0, ?_, ?_, ?_⟩
      · simp [clip_start, hs]
      · simpa using hs
      · intro m hm; omega

theorem strided_for_max (stop d : Int) (hd : 1 ≤ d) (body : Int → Int → Option Int)
    (S : Int → Int → Prop)
    (hbody : ∀ acc y, ∃ v, body acc y = some v ∧ MaxStep (S y) acc v) :
    ∀ (fuel : Nat) (y acc : Int), (stop - y).toNat + 1 ≤ fuel →
      ∃ v, strided_for fuel y stop d body acc = some v ∧
        MaxStep (fun u => ∃ m : Nat, y + m * d < stop ∧ S (y + m * d) u) acc v := by
  intro fuel
  induction fuel with
  | zero => intro y acc h; omega
  | succ fuel ih =>
    intro y acc h
    by_cases hy : y < stop
    · obtain ⟨v1, hb, h1a, h1b, h1c⟩ := hbody acc y
      have hfuel : (stop - (y + d)).toNat + 1 ≤ fuel := by omega
      obtain ⟨v, hv, h2a, h2b, h2c⟩ := ih (y + d) v1 hfuel
      refine ⟨v, ?_, le_trans h1a h2a, ?_, ?_⟩
      · simp only [strided_for, hy, if_true, hb, hv]
      · rintro u ⟨m, hm, hS⟩
        cases m with
        | zero =>
          simp only [Nat.cast_zero, zero_mul, add_zero] at hS
          exact le_trans (h1b u hS) h2a
        | succ m =>
          apply h2b
          refine ⟨m, ?_, ?_⟩
          · have e : y + d + (m : Int) * d = y + ((m + 1 : Nat) : Int) * d := by
              push_cast; ring
            rw [e]; exact hm
          · have e : y + d + (m : Int) * d = y + ((m + 1 : Nat) : Int) * d := by
              push_cast; ring
            rw [e]; exact hS
      · rcases h2c with h2c | ⟨m, hm, hS⟩
        · rcases h1c with h1c | h1c
          · left; rw [h2c, h1c]
          · right
            refine ⟨0, by simpa using hy, ?_⟩
            rw [h2c]
            simpa using h1c
        · right
          refine ⟨m + 1, ?_, ?_⟩
          · have e : y + ((m + 1 : Nat) : Int) * d = y + d + (m : Int) * d := by
              push_cast; ring
            rw [e]; exact hm
          · have e : y + ((m + 1 : Nat) : Int) * d = y + d + (m : Int) * d := by
              push_cast; ring
            rw [e]; exact hS
    · refine ⟨acc, ?_, le_refl _, ?_, Or.inl rfl⟩
      · simp [strided_for, hy]
      · rintro u ⟨m, hm, -⟩
        have : (0 : Int) ≤ (m : Int) * d := by positivity
        omega

theorem max_body_step (g : Int → Int) (acc x : Int) :
    ∃ v, (fun (a : Int) (t : Int) => some (max a (g t))) acc x = some v ∧
      MaxStep (fun u => u = g x) acc v :=
  ⟨max acc (g x), rfl, le_max_left _ _, fun _ hu => hu ▸ le_max_right _ _,
    (max_choice acc (g x)).imp id id⟩

/-- A window index `i` with `start + i*d` below the unclipped end is below the kernel
size, and conversely. -/
theorem window_index_lt_iff {d : Int} (hd : 1 ≤ d) (start k i : Int) :
    start + i * d < start + (k - 1) * d + 1 ↔ i < k := by
  constructor
  · intro h
    by_contra hik
    have hik : k ≤ i := not_lt.mp hik
    have : k * d ≤ i * d := mul_le_mul_of_nonneg_right hik (by omega)
    nlinarith
  · intro h
    have : i * d ≤ (k - 1) * d := mul_le_mul_of_nonneg_right (by omega) (by omega)
    omega

/-- The coordinates one axis of the max-pool loops visits, starting from the clipped
start `start + n*d`, are exactly the in-bounds `start + i*d` with `0 ≤ i < k`. -/
theorem axis_visited_iff {d : Int} (hd : 1 ≤ d) (start k size : Int) (n : Nat)
    (hn0 : 0 ≤ start + n * d) (hmin : ∀ m : Nat, m < n → start + m * d < 0) (y : Int) :
    (∃ m : Nat, start + n * d + m * d < min (start + (k - 1) * d + 1) size ∧
        y = start + n * d + m * d) ↔
      (∃ i : Int, 0 ≤ i ∧ i < k ∧ y = start + i * d ∧ 0 ≤ y ∧ y < size) := by
  constructor
  · rintro ⟨m, hm, rfl⟩
    have e : start + n * d + m * d = start + ((n : Int) + m) * d := by ring
    have hmd : (0 : Int) ≤ (m : Int) * d := by positivity
    rw [lt_min_iff] at hm
    refine ⟨(n : Int) + m, by omega, ?_, e, by omega, hm.2⟩
    rw [e] at hm
    exact (window_index_lt_iff hd start k _).mp hm.1
  · rintro ⟨i, hi0, hik, rfl, hy0, hys⟩
    have hni : (n : Int) ≤ i := by
      by_contra hlt
      have hlt : i < n := not_le.mp hlt
      have := hmin i.toNat (by omega)
      rw [Int.toNat_of_nonneg hi0] at this
      omega
    refine ⟨(i - n).toNat, ?_, ?_⟩
    · rw [Int.toNat_of_nonneg (by omega)]
      have e : start + n * d + (i - n) * d = start + i * d := by ring
      rw [e, lt_min_iff]
      exact ⟨(window_index_lt_iff hd start k i).mpr hik, hys⟩
    · rw [Int.toNat_of_nonneg (by omega)]
      ring

/-- The values the two nested max-pool loops fold over are the codes at the window
coordinates of `InMaxWindow`. -/
theorem maxpool_visited_iff (idata : Int → Int)
    (iC iH iW kH kW sH sW pH pW dH dW b row col c : Int) (hdH : 1 ≤ dH) (hdW : 1 ≤ dW)
    (nh nw : Nat)
    (hh0 : 0 ≤ row * sH - pH + nh * dH)
    (hhmin : ∀ m : Nat, m < nh → row * sH - pH + m * dH < 0)
    (hw0 : 0 ≤ col * sW - pW + nw * dW)
    (hwmin : ∀ m : Nat, m < nw → col * sW - pW + m * dW < 0) (u : Int) :
    (∃ m : Nat, row * sH - pH + nh * dH + m * dH
          < min (row * sH - pH + (kH - 1) * dH + 1) iH ∧
        ∃ m1 : Nat, col * sW - pW + nw * dW + m1 * dW
            < min (col * sW - pW + (kW - 1) * dW + 1) iW ∧
          u = idata (b * iW * iH * iC +
            (((row * sH - pH + nh * dH + m * dH) * iW
              + (col * sW - pW + nw * dW + m1 * dW)) * iC + c))) ↔
      (∃ y x, InMaxWindow iH iW kH kW sH sW pH pW dH dW row col y x ∧
        u = nhwc_at idata iC iH iW b y x c) := by
  have idx : ∀ y x : Int, b * iW * iH * iC + ((y * iW + x) * iC + c)
      = ((b * iH + y) * iW + x) * iC + c := by intro y x; ring
  constructor
  · rintro ⟨m, hm, m1, hm1, rfl⟩
    obtain ⟨i, hi0, hik, hy, hy0, hys⟩ :=
      (axis_visited_iff hdH (row * sH - pH) kH iH nh hh0 hhmin _).mp ⟨m, hm, rfl⟩
    obtain ⟨j, hj0, hjk, hx, hx0, hxs⟩ :=
      (axis_visited_iff hdW (col * sW - pW) kW iW nw hw0 hwmin _).mp ⟨m1, hm1, rfl⟩
    refine ⟨_, _, ⟨i, j, hi0, hik, hj0, hjk, hy, hx, hy0, hys, hx0, hxs⟩, ?_⟩
    simp only [nhwc_at, idx]
  · rintro ⟨y, x, ⟨i, j, hi0, hik, hj0, hjk, hy, hx, hy0, hys, hx0, hxs⟩, rfl⟩
    obtain ⟨m, hm, hym⟩ :=
      (axis_visited_iff hdH (row * sH - pH) kH iH nh hh0 hhmin y).mpr
        ⟨i, hi0, hik, hy, hy0, hys⟩
    obtain ⟨m1, hm1, hxm⟩ :=
      (axis_visited_iff hdW (col * sW - pW) kW iW nw hw0 hwmin x).mpr
        ⟨j, hj0, hjk, hx, hx0, hxs⟩
    refine ⟨m, hm, m1, hm1, ?_⟩
    rw [← hym, ← hxm]
    simp only [nhwc_at, idx]

/-- C1. Max pooling (`qmaxpool_2d_nhwc_kernel`, scalar tier): for every geometry with
`dH ≥ 1` and `dW ≥ 1` and every output position `(b, row, col, c)`, with enough fuel the
kernel returns a code `v`; `v` is an upper bound of the input codes at the coordinates
`(row*sH - pH + i*dH, col*sW - pW + j*dW)`, `0 ≤ i < kH`, `0 ≤ j < kW`, that lie inside
the input, and `v` is attained at one of them, or no such coordinate exists and `v` is
the lowest value of the underlying type. Codes are values of the underlying type, so
none is below its lowest value. -/
theorem qmaxpool_window_max (T : QType) (idata : Int → Int)
    (iC iH iW kH kW sH sW pH pW dH dW b row col c : Int)
    (hdH : 1 ≤ dH) (hdW : 1 ≤ dW) (hcodes : ∀ off, T.lowest ≤ idata off)
    (fuel : Nat) (hfuel : qmaxpool_fuel iH iW sH sW pH pW row col ≤ fuel) :
    ∃ v, qmaxpool_2d_nhwc_kernel fuel T idata iC iH iW kH kW sH sW pH pW dH dW b row col c
        = some v ∧
      (∀ y x, InMaxWindow iH iW kH kW sH sW pH pW dH dW row col y x →
        nhwc_at idata iC iH iW b y x c ≤ v) ∧
      ((∃ y x, InMaxWindow iH iW kH kW sH sW pH pW dH dW row col y x ∧
          v = nhwc_at idata iC iH iW b y x c) ∨
        ((∀ y x, ¬ InMaxWindow iH iW kH kW sH sW pH pW dH dW row col y x) ∧
          v = T.lowest)) := by
  unfold qmaxpool_fuel at hfuel
  obtain ⟨nh, hclipH, hh0, hhmin⟩ :=
    clip_start_spec dH hdH fuel (row * sH - pH) (by omega)
  obtain ⟨nw, hclipW, hw0, hwmin⟩ :=
    clip_start_spec dW hdW fuel (col * sW - pW) (by omega)
  have hinner : ∀ (y acc : Int), ∃ v,
      strided_for fuel (col * sW - pW + nw * dW)
          (min (col * sW - pW + (kW - 1) * dW + 1) iW) dW
          (fun max_val x =>
            some (max max_val (idata (b * iW * iH * iC + ((y * iW + x) * iC + c))))) acc
        = some v ∧
      MaxStep (fun u => ∃ m1 : Nat, col * sW - pW + nw * dW + m1 * dW
            < min (col * sW - pW + (kW - 1) * dW + 1) iW ∧
          u = idata (b * iW * iH * iC +
            ((y * iW + (col * sW - pW + nw * dW + m1 * dW)) * iC + c))) acc v := by
    intro y acc
    have hle : min (col * sW - pW + (kW - 1) * dW + 1) iW ≤ iW := min_le_right _ _
    exact strided_for_max _ dW hdW _ (fun x u =>
        u = idata (b * iW * iH * iC + ((y * iW + x) * iC + c)))
      (fun a x => max_body_step
        (fun t => idata (b * iW * iH * iC + ((y * iW + t) * iC + c))) a x)
      fuel _ acc (by omega)
  have hle : min (row * sH - pH + (kH - 1) * dH + 1) iH ≤ iH := min_le_right _ _
  obtain ⟨v, hv, -, hub, hatt⟩ :=
    strided_for_max (min (row * sH - pH + (kH - 1) * dH + 1) iH) dH hdH _ _
      (fun acc y => hinner y acc) fuel
      (row * sH - pH + nh * dH) T.lowest (by omega)
  have key := maxpool_visited_iff idata iC iH iW kH kW sH sW pH pW dH dW b row col c
    hdH hdW nh nw hh0 hhmin hw0 hwmin
  refine ⟨v, ?_, ?_, ?_⟩
  · simp only [qmaxpool_2d_nhwc_kernel, hclipH, hclipW]
    exact hv
  · intro y x hwin
    exact hub _ ((key _).mpr ⟨y, x, hwin, rfl⟩)
  · by_cases hne : ∃ y x, InMaxWindow iH iW kH kW sH sW pH pW dH dW row col y x
    · left
      rcases hatt with hlow | hS
      · obtain ⟨y, x, hwin⟩ := hne
        refine ⟨y, x, hwin, ?_⟩
        have h1 := hub _ ((key _).mpr ⟨y, x, hwin, rfl⟩)
        have h2 := hcodes (((b * iH + y) * iW + x) * iC + c)
        simp only [nhwc_at] at h1 ⊢
        omega
      · exact (key v).mp hS
    · right
      refine ⟨fun y x hwin => hne ⟨y, x, hwin⟩, ?_⟩
      rcases hatt with hlow | hS
      · exact hlow
      · exact absurd ((key v).mp hS) (fun ⟨y, x, hwin, _⟩ => hne ⟨y, x, hwin⟩)

/-- The theorem `qmaxpool_window_max` at a 3x3 single-channel input with padding 1 and
dilation 2. -/
theorem qmaxpool_window_max_witness :
    (1 : Int) ≤ 2 ∧ (∀ off : Int, QType.quint8.lowest ≤ off % 10) ∧
      qmaxpool_fuel 3 3 1 1 1 1 0 0 ≤ 12 ∧
      ∃ v, qmaxpool_2d_nhwc_kernel 12 .quint8 (fun off => off % 10)
          1 3 3 2 2 1 1 1 1 2 2 0 0 0 0 = some v ∧
        (∀ y x, InMaxWindow 3 3 2 2 1 1 1 1 2 2 0 0 y x →
          nhwc_at (fun off => off % 10) 1 3 3 0 y x 0 ≤ v) ∧
        ((∃ y x, InMaxWindow 3 3 2 2 1 1 1 1 2 2 0 0 y x ∧
            v = nhwc_at (fun off => off % 10) 1 3 3 0 y x 0) ∨
          ((∀ y x, ¬ InMaxWindow 3 3 2 2 1 1 1 1 2 2 0 0 y x) ∧
            v = QType.quint8.lowest)) :=
  ⟨by decide, fun off => Int.emod_nonneg off (by decide), by decide,
    qmaxpool_window_max .quint8 (fun off => off % 10) 1 3 3 2 2 1 1 1 1 2 2 0 0 0 0
      (by decide) (by decide) (fun off => Int.emod_nonneg off (by decide)) 12 (by decide)⟩

/-- The kernel evaluated at that input: the only in-bounds window coordinate is `(1, 1)`,
whose code is `4`; with a window that lies in the padding only, the lowest value is
written. -/
theorem qmaxpool_eval_examples :
    qmaxpool_2d_nhwc_kernel 12 .quint8 (fun off => off % 10)
        1 3 3 2 2 1 1 1 1 2 2 0 0 0 0 = some 4 ∧
      qmaxpool_2d_nhwc_kernel 12 .qint8 (fun off => off % 10)
        1 3 3 1 1 1 1 1 1 1 1 0 0 0 0 = some (-128) := by
  constructor <;> rfl

/-! ### Comparators and the standard algorithms -/

theorem StrictWeakOrder.asymm {α : Type} {comp : α → α → Bool} (h : StrictWeakOrder comp)
    (a b : α) (hab : comp a b = true) : comp b a = false := by
  by_contra hba
  have hba : comp b a = true := by simpa using hba
  have := h.trans a b a hab hba
  rw [h.irrefl a] at this
  exact Bool.false_ne_true this

theorem StrictWeakOrder.not_trans {α : Type} {comp : α → α → Bool}
    (h : StrictWeakOrder comp) (a b c : α) (hba : comp b a = false)
    (hcb : comp c b = false) : comp c a = false := by
  by_contra hca
  have hca : comp c a = true := by simpa using hca
  have hab : comp a b = false := by
    by_contra hab
    have hab : comp a b = true := by simpa using hab
    have := h.trans c a b hca hab
    rw [hcb] at this
    exact Bool.false_ne_true this
  have hbc : comp b c = false := by
    by_contra hbc
    have hbc : comp b c = true := by simpa using hbc
    have := h.trans b c a hbc hca
    rw [hba] at this
    exact Bool.false_ne_true this
  have := (h.equiv_trans a b c hab hba hbc hcb).2
  rw [hca] at this
  exact Bool.false_ne_true this.symm

theorem comp_largest_strict_weak : StrictWeakOrder comp_largest where
  irrefl := by intro a; simp [comp_largest]
  trans := by
    intro a b c h1 h2
    simp only [comp_largest, decide_eq_true_eq] at *
    omega
  equiv_trans := by
    intro a b c h1 h2 h3 h4
    simp only [comp_largest, decide_eq_false_iff_not] at *
    omega

theorem comp_smallest_strict_weak : StrictWeakOrder comp_smallest where
  irrefl := by intro a; simp [comp_smallest]
  trans := by
    intro a b c h1 h2
    simp only [comp_smallest, decide_eq_true_eq] at *
    omega
  equiv_trans := by
    intro a b c h1 h2 h3 h4
    simp only [comp_smallest, decide_eq_false_iff_not] at *
    omega

theorem ref_sort_perm {α : Type} (comp : α → α → Bool) (l : List α) :
    (ref_sort comp l).Perm l :=
  List.perm_insertionSort _ l

theorem ref_sort_sorted {α : Type} (comp : α → α → Bool) (l : List α)
    (h : StrictWeakOrder comp) :
    (ref_sort comp l).Pairwise (fun a b => comp b a = false) := by
  haveI : IsTotal α (fun a b => comp b a = false) :=
    ⟨fun a b => by
      by_cases hba : comp b a = true
      · exact Or.inr (h.asymm b a hba)
      · exact Or.inl (by simpa using hba)⟩
  haveI : IsTrans α (fun a b => comp b a = false) :=
    ⟨fun a b c hab hbc => h.not_trans a b c hab hbc⟩
  exact List.sorted_insertionSort (fun a b => comp b a = false) l

theorem pairwise_take_drop {α : Type} {R : α → α → Prop} {l : List α}
    (h : l.Pairwise R) (m : Nat) : ∀ a ∈ l.take m, ∀ b ∈ l.drop m, R a b := by
  have h1 : (l.take m ++ l.drop m).Pairwise R := by rw [List.take_append_drop]; exact h
  exact (List.pairwise_append.mp h1).2.2

theorem split_at_index {α : Type} (q : List α) (m : Nat) (hm : m < q.length) :
    ∃ x, q[m]? = some x ∧ q.take (m + 1) = q.take m ++ [x] ∧
      q.drop m = x :: q.drop (m + 1) := by
  refine ⟨q[m], List.getElem?_eq_getElem hm, ?_, List.drop_eq_getElem_cons hm⟩
  rw [List.take_succ, List.getElem?_eq_getElem hm]
  rfl

theorem ref_nth_element_perm {α : Type} (comp : α → α → Bool) (nth : Nat) (l : List α) :
    (ref_nth_element comp nth l).Perm l := by
  unfold ref_nth_element
  refine List.Perm.trans ?_ (ref_sort_perm comp l)
  refine (List.Perm.append_right _ (List.reverse_perm _)).trans ?_
  rw [List.take_append_drop]

theorem ref_nth_element_take {α : Type} (comp : α → α → Bool) (nth : Nat) (l : List α)
    (hn : nth ≤ l.length) :
    (ref_nth_element comp nth l).take nth = ((ref_sort comp l).take nth).reverse ∧
      (ref_nth_element comp nth l).drop nth = (ref_sort comp l).drop nth := by
  have hlen : (((ref_sort comp l).take nth).reverse).length = nth := by
    rw [List.length_reverse, List.length_take, (ref_sort_perm comp l).length_eq]
    omega
  unfold ref_nth_element
  exact ⟨List.take_left' hlen, List.drop_left' hlen⟩

/-- A conforming implementation of the three standard algorithms: insertion sort for
`std::sort` and `std::partial_sort`, and `ref_nth_element`. -/
def ref_algorithms (α : Type) : StdAlgorithms α where
  sort := ref_sort
  partial_sort := fun comp _ l => ref_sort comp l
  nth_element := ref_nth_element
  sort_perm := fun comp l _ => ref_sort_perm comp l
  sort_sorted := fun comp l h => ref_sort_sorted comp l h
  partial_sort_perm := fun comp _ l _ _ => ref_sort_perm comp l
  partial_sort_sorted := fun comp middle l h _ =>
    (ref_sort_sorted comp l h).sublist (List.take_sublist middle _)
  partial_sort_least := fun comp middle l h _ =>
    pairwise_take_drop (ref_sort_sorted comp l h) middle
  nth_element_perm := fun comp nth l _ _ => ref_nth_element_perm comp nth l
  nth_element_before := by
    intro comp nth l h hn a ha b hb
    obtain ⟨e1, e2⟩ := ref_nth_element_take comp nth l (le_of_lt hn)
    rw [e1, List.mem_reverse] at ha
    rw [e2] at hb
    exact pairwise_take_drop (ref_sort_sorted comp l h) nth a ha b hb
  nth_element_after := by
    intro comp nth l h hn x hx b hb
    have hlen : nth < (ref_nth_element comp nth l).length := by
      rw [(ref_nth_element_perm comp nth l).length_eq]; exact hn
    have hs : nth < (ref_sort comp l).length := by
      rw [(ref_sort_perm comp l).length_eq]; exact hn
    obtain ⟨e1, e2⟩ := ref_nth_element_take comp nth l (le_of_lt hn)
    obtain ⟨y, hy, -, hdrop⟩ := split_at_index (ref_nth_element comp nth l) nth hlen
    obtain ⟨z, -, -, hdrop2⟩ := split_at_index (ref_sort comp l) nth hs
    rw [hy] at hx
    have hyx : y = x := Option.some.inj hx
    rw [hdrop, hdrop2] at e2
    have hyz : y = z := (List.cons.inj e2).1
    have htl : (ref_nth_element comp nth l).drop (nth + 1) = (ref_sort comp l).drop (nth + 1) :=
      (List.cons.inj e2).2
    rw [htl] at hb
    have hsorted := ref_sort_sorted comp l h
    have h2 : ((ref_sort comp l).drop nth).Pairwise (fun a b => comp b a = false) :=
      hsorted.sublist (List.drop_sublist nth _)
    rw [hdrop2, List.pairwise_cons] at h2
    rw [← hyx, hyz]
    exact h2.1 b hb

/-! ### The selection step of `qtopk_kernel` -/

theorem qtopk_comp_strict_weak (largest : Bool) : StrictWeakOrder (qtopk_comp largest) := by
  cases largest
  · exact comp_smallest_strict_weak
  · exact comp_largest_strict_weak

theorem qtopk_queue_length (tmp_values : List Int) :
    (qtopk_queue tmp_values).length = tmp_values.length := by
  simp [qtopk_queue]

theorem take_drop_append_cons {α : Type} (S B : List α) (x : α) (m : Nat)
    (h : S.length = m) :
    (S ++ x :: B).take (m + 1) = S ++ [x] ∧ (S ++ x :: B).drop (m + 1) = B := by
  subst h
  constructor
  · rw [List.take_append]; rfl
  · rw [List.drop_append]; rfl

/-- The selection path: `std::nth_element` at position `m`, then, when `sorted`,
`std::sort` of the first `m` entries. The first `m + 1` entries are a selection of the
least entries with respect to `comp`, in order when `sorted`. -/
theorem nth_path_spec {α : Type} (A : StdAlgorithms α) (comp : α → α → Bool)
    (hc : StrictWeakOrder comp) (m : Nat) (l : List α) (hm : m < l.length)
    (sorted : Bool) (q : List α)
    (hq : q = if sorted then sort_range A comp m (A.nth_element comp m l)
      else A.nth_element comp m l) :
    q.Perm l ∧ (∀ a ∈ q.take (m + 1), ∀ b ∈ q.drop (m + 1), comp b a = false) ∧
      (sorted = true → (q.take (m + 1)).Pairwise (fun a b => comp b a = false)) := by
  have hperm1 := A.nth_element_perm comp m l hc hm
  have hlen1 : m < (A.nth_element comp m l).length := by rw [hperm1.length_eq]; exact hm
  obtain ⟨x, hx, htake, hdrop⟩ := split_at_index (A.nth_element comp m l) m hlen1
  have hbefore := A.nth_element_before comp m l hc hm
  have hafter := A.nth_element_after comp m l hc hm x hx
  rw [hdrop] at hbefore
  cases sorted with
  | false =>
    simp only [Bool.false_eq_true, if_false] at hq
    subst hq
    refine ⟨hperm1, ?_, fun h => absurd h (by decide)⟩
    intro a ha b hb
    rw [htake, List.mem_append, List.mem_singleton] at ha
    rcases ha with ha | rfl
    · exact hbefore a ha b (List.mem_cons_of_mem _ hb)
    · exact hafter b hb
  | true =>
    simp only [if_true, sort_range] at hq
    have hSperm := A.sort_perm comp ((A.nth_element comp m l).take m) hc
    have hSsorted := A.sort_sorted comp ((A.nth_element comp m l).take m) hc
    have hSlen : (A.sort comp ((A.nth_element comp m l).take m)).length = m := by
      rw [hSperm.length_eq, List.length_take]; omega
    rw [hdrop] at hq
    have htakeq : q.take (m + 1) = A.sort comp ((A.nth_element comp m l).take m) ++ [x] := by
      rw [hq]
      exact (take_drop_append_cons _ _ x m hSlen).1
    have hdropq : q.drop (m + 1) = (A.nth_element comp m l).drop (m + 1) := by
      rw [hq]
      exact (take_drop_append_cons _ _ x m hSlen).2
    refine ⟨?_, ?_, ?_⟩
    · rw [hq, ← hdrop]
      refine (List.Perm.append_right _ hSperm).trans ?_
      rw [List.take_append_drop]
      exact hperm1
    · intro a ha b hb
      rw [htakeq, List.mem_append, List.mem_singleton] at ha
      rw [hdropq] at hb
      rcases ha with ha | rfl
      · exact hbefore a (hSperm.mem_iff.mp ha) b (List.mem_cons_of_mem _ hb)
      · exact hafter b hb
    · intro _
      rw [htakeq, List.pairwise_append]
      refine ⟨hSsorted, List.pairwise_singleton _ _, ?_⟩
      intro a ha b hb
      rw [List.mem_singleton] at hb
      subst hb
      exact hbefore a (hSperm.mem_iff.mp ha) b (List.mem_cons_self _ _)

/-- The queue after the selection step, for `1 ≤ k ≤ n`: a rearrangement of the queue
whose first `k` entries go before all the others in the comparator's order, and are in
that order when `sorted` is set. -/
theorem qtopk_select_spec (A : StdAlgorithms elem_t) (tmp_values : List Int) (k : Nat)
    (largest sorted : Bool) (hk1 : 1 ≤ k) (hkn : k ≤ tmp_values.length) :
    (qtopk_select A tmp_values k largest sorted).Perm (qtopk_queue tmp_values) ∧
      (∀ a ∈ (qtopk_select A tmp_values k largest sorted).take k,
        ∀ b ∈ (qtopk_select A tmp_values k largest sorted).drop k,
          qtopk_comp largest b a = false) ∧
      (sorted = true → ((qtopk_select A tmp_values k largest sorted).take k).Pairwise
        (fun a b => qtopk_comp largest b a = false)) := by
  have hc := qtopk_comp_strict_weak largest
  have hlen := qtopk_queue_length tmp_values
  by_cases hps : k * 64 ≤ tmp_values.length
  · have hsel : qtopk_select A tmp_values k largest sorted
        = A.partial_sort (qtopk_comp largest) k (qtopk_queue tmp_values) := by
      cases largest <;> simp [qtopk_select, qtopk_comp, hps]
    rw [hsel]
    have hk : k ≤ (qtopk_queue tmp_values).length := by rw [hlen]; exact hkn
    exact ⟨A.partial_sort_perm _ k _ hc hk, A.partial_sort_least _ k _ hc hk,
      fun _ => A.partial_sort_sorted _ k _ hc hk⟩
  · have hsel : qtopk_select A tmp_values k largest sorted
        = if sorted then sort_range A (qtopk_comp largest) (k - 1)
            (A.nth_element (qtopk_comp largest) (k - 1) (qtopk_queue tmp_values))
          else A.nth_element (qtopk_comp largest) (k - 1) (qtopk_queue tmp_values) := by
      cases largest <;> simp [qtopk_select, qtopk_comp, hps]
    have hm : k - 1 < (qtopk_queue tmp_values).length := by rw [hlen]; omega
    have key := nth_path_spec A (qtopk_comp largest) hc (k - 1) (qtopk_queue tmp_values) hm
      sorted _ hsel
    have hk : k - 1 + 1 = k := by omega
    rw [hk] at key
    exact key

/-! ### Values and indices written by `qtopk_kernel` -/

theorem qtopk_queue_fst (tmp_values : List Int) :
    (qtopk_queue tmp_values).map Prod.fst = tmp_values := by
  unfold qtopk_queue
  exact List.map_fst_zip _ _ (by simp)

theorem qtopk_queue_snd (tmp_values : List Int) :
    (qtopk_queue tmp_values).map Prod.snd = List.range tmp_values.length := by
  unfold qtopk_queue
  exact List.map_snd_zip _ _ (by simp)

theorem qtopk_queue_mem (tmp_values : List Int) (p : elem_t)
    (hp : p ∈ qtopk_queue tmp_values) :
    p.2 < tmp_values.length ∧ tmp_values[p.2]? = some p.1 := by
  obtain ⟨i, hi, rfl⟩ := List.mem_iff_getElem.mp hp
  have hi1 : i < tmp_values.length := by
    simpa [qtopk_queue] using hi
  simp only [qtopk_queue, List.getElem_zip, List.getElem_range]
  exact ⟨hi1, List.getElem?_eq_getElem hi1⟩

/-- Entries that a list split leaves on the left, each related to every entry on the
right, are the first entries of the sorted whole. -/
theorem perm_take_insertionSort (r : Int → Int → Prop) [DecidableRel r] [IsTotal Int r]
    [IsTrans Int r] [IsAntisymm Int r] (l1 r1 s : List Int) (hp : (l1 ++ r1).Perm s)
    (hdom : ∀ a ∈ l1, ∀ b ∈ r1, r a b) :
    l1.Perm ((s.insertionSort r).take l1.length) := by
  have hsorted : (l1.insertionSort r ++ r1.insertionSort r).Sorted r := by
    refine List.pairwise_append.mpr
      ⟨List.sorted_insertionSort r l1, List.sorted_insertionSort r r1, ?_⟩
    intro a ha b hb
    exact hdom a ((List.mem_insertionSort r).mp ha) b ((List.mem_insertionSort r).mp hb)
  have hperm : (l1.insertionSort r ++ r1.insertionSort r).Perm (s.insertionSort r) :=
    ((List.perm_insertionSort r l1).append (List.perm_insertionSort r r1)).trans
      (hp.trans (List.perm_insertionSort r s).symm)
  have heq := List.eq_of_perm_of_sorted hperm hsorted (List.sorted_insertionSort r s)
  rw [← heq, List.take_left' (List.length_insertionSort r l1)]
  exact (List.perm_insertionSort r l1).symm

theorem qtopk_values_eq (A : StdAlgorithms elem_t) (slice : List Int) (k : Nat)
    (largest sorted : Bool) :
    (qtopk_kernel A slice k largest sorted).1
      = ((qtopk_select A slice k largest sorted).take k).map Prod.fst := rfl

theorem qtopk_indices_eq (A : StdAlgorithms elem_t) (slice : List Int) (k : Nat)
    (largest sorted : Bool) :
    (qtopk_kernel A slice k largest sorted).2
      = ((qtopk_select A slice k largest sorted).take k).map Prod.snd := rfl

theorem qtopk_take_length (A : StdAlgorithms elem_t) (slice : List Int) (k : Nat)
    (largest sorted : Bool) (hk1 : 1 ≤ k) (hkn : k ≤ slice.length) :
    ((qtopk_select A slice k largest sorted).take k).length = k := by
  have hperm := (qtopk_select_spec A slice k largest sorted hk1 hkn).1
  rw [List.length_take, hperm.length_eq, qtopk_queue_length]
  omega

/-- The values written and the codes left out make up the slice, and each value written
goes before each code left out in the comparator's order. -/
theorem qtopk_values_split (A : StdAlgorithms elem_t) (slice : List Int) (k : Nat)
    (largest sorted : Bool) (hk1 : 1 ≤ k) (hkn : k ≤ slice.length) :
    ((qtopk_kernel A slice k largest sorted).1
        ++ ((qtopk_select A slice k largest sorted).drop k).map Prod.fst).Perm slice ∧
      ∀ v ∈ (qtopk_kernel A slice k largest sorted).1,
        ∀ u ∈ ((qtopk_select A slice k largest sorted).drop k).map Prod.fst,
          if largest then u ≤ v else v ≤ u := by
  obtain ⟨hperm, hdom, -⟩ := qtopk_select_spec A slice k largest sorted hk1 hkn
  constructor
  · rw [qtopk_values_eq, ← List.map_append, List.take_append_drop]
    have := hperm.map Prod.fst
    rwa [qtopk_queue_fst] at this
  · intro v hv u hu
    rw [qtopk_values_eq] at hv
    obtain ⟨a, ha, rfl⟩ := List.mem_map.mp hv
    obtain ⟨b, hb, rfl⟩ := List.mem_map.mp hu
    have h := hdom a ha b hb
    cases largest with
    | false =>
      simp only [qtopk_comp, comp_smallest, Bool.false_eq_true, if_false,
        decide_eq_false_iff_not, not_lt] at h ⊢
      exact h
    | true =>
      simp only [qtopk_comp, comp_largest, if_true, decide_eq_false_iff_not, not_lt,
        gt_iff_lt] at h ⊢
      exact h

theorem qtopk_values_length (A : StdAlgorithms elem_t) (slice : List Int) (k : Nat)
    (largest sorted : Bool) (hk1 : 1 ≤ k) (hkn : k ≤ slice.length) :
    (qtopk_kernel A slice k largest sorted).1.length = k := by
  rw [qtopk_values_eq, List.length_map]
  exact qtopk_take_length A slice k largest sorted hk1 hkn

/-- The values written are a rearrangement of the `k` largest (resp. smallest) codes. -/
theorem qtopk_values_perm (A : StdAlgorithms elem_t) (slice : List Int) (k : Nat)
    (largest sorted : Bool) (hk1 : 1 ≤ k) (hkn : k ≤ slice.length) :
    (qtopk_kernel A slice k largest sorted).1.Perm
      (if largest then k_largest slice k else k_smallest slice k) := by
  obtain ⟨hperm, hdom⟩ := qtopk_values_split A slice k largest sorted hk1 hkn
  have hlen := qtopk_values_length A slice k largest sorted hk1 hkn
  cases largest with
  | false =>
    haveI : IsTotal Int (fun a b => a ≤ b) := ⟨le_total⟩
    haveI : IsTrans Int (fun a b => a ≤ b) := ⟨fun _ _ _ => le_trans⟩
    haveI : IsAntisymm Int (fun a b => a ≤ b) := ⟨fun _ _ => le_antisymm⟩
    have h := perm_take_insertionSort (fun a b => a ≤ b) _ _ slice hperm
      (fun v hv u hu => by simpa using hdom v hv u hu)
    rw [hlen] at h
    simpa [k_smallest] using h
  | true =>
    haveI : IsTotal Int (fun a b => b ≤ a) := ⟨fun a b => le_total b a⟩
    haveI : IsTrans Int (fun a b => b ≤ a) := ⟨fun _ _ _ h1 h2 => le_trans h2 h1⟩
    haveI : IsAntisymm Int (fun a b => b ≤ a) := ⟨fun _ _ h1 h2 => le_antisymm h2 h1⟩
    have h := perm_take_insertionSort (fun a b => b ≤ a) _ _ slice hperm
      (fun v hv u hu => by simpa using hdom v hv u hu)
    rw [hlen] at h
    simpa [k_largest] using h

/-- With `sorted` set the values written are in the comparator's order. -/
theorem qtopk_values_sorted (A : StdAlgorithms elem_t) (slice : List Int) (k : Nat)
    (largest : Bool) (hk1 : 1 ≤ k) (hkn : k ≤ slice.length) :
    if largest then (qtopk_kernel A slice k largest true).1.Pairwise (fun a b => b ≤ a)
    else (qtopk_kernel A slice k largest true).1.Pairwise (fun a b => a ≤ b) := by
  have h := (qtopk_select_spec A slice k largest true hk1 hkn).2.2 rfl
  rw [qtopk_values_eq]
  cases largest with
  | false =>
    simp only [Bool.false_eq_true, if_false, List.pairwise_map]
    refine h.imp ?_
    intro a b hab
    simpa [qtopk_comp, comp_smallest] using hab
  | true =>
    simp only [if_true, List.pairwise_map]
    refine h.imp ?_
    intro a b hab
    simpa [qtopk_comp, comp_largest] using hab

/-- Each entry among the first `k` of the queue after selection is a code of the slice
with its position. -/
theorem qtopk_take_mem (A : StdAlgorithms elem_t) (slice : List Int) (k : Nat)
    (largest sorted : Bool) (hk1 : 1 ≤ k) (hkn : k ≤ slice.length) (p : elem_t)
    (hp : p ∈ (qtopk_select A slice k largest sorted).take k) :
    p.2 < slice.length ∧ slice[p.2]? = some p.1 :=
  qtopk_queue_mem slice p
    ((qtopk_select_spec A slice k largest sorted hk1 hkn).1.mem_iff.mp
      (List.mem_of_mem_take hp))

/-- C2. Top-K (`qtopk_kernel`): for every conforming implementation of the standard
algorithms, every slice of length `n`, every `k` with `1 ≤ k ≤ n` and both values of
`largest` and `sorted` (hence on the partial-sort path and on the nth-element path), the
`k` values written are, as a multiset, the `k` largest codes of the slice when `largest`
is set and the `k` smallest otherwise; together with the codes left out they make up the
slice, and every code left out is `≤` (resp. `≥`) every value written. -/
theorem qtopk_selects_extremes (A : StdAlgorithms elem_t) (slice : List Int) (k : Nat)
    (largest sorted : Bool) (hk1 : 1 ≤ k) (hkn : k ≤ slice.length) :
    (qtopk_kernel A slice k largest sorted).1.length = k ∧
      (qtopk_kernel A slice k largest sorted).1.Perm
        (if largest then k_largest slice k else k_smallest slice k) ∧
      ∃ rest : List Int,
        ((qtopk_kernel A slice k largest sorted).1 ++ rest).Perm slice ∧
          ∀ v ∈ (qtopk_kernel A slice k largest sorted).1, ∀ u ∈ rest,
            if largest then u ≤ v else v ≤ u :=
  ⟨qtopk_values_length A slice k largest sorted hk1 hkn,
    qtopk_values_perm A slice k largest sorted hk1 hkn, _,
    qtopk_values_split A slice k largest sorted hk1 hkn⟩

/-- The theorem `qtopk_selects_extremes` at the slice `[5, 1, 9, 3, 7]` with `k = 2`,
`largest = false`, `sorted = false`, for the reference algorithms. -/
theorem qtopk_selects_extremes_witness :
    1 ≤ 2 ∧ 2 ≤ [(5 : Int), 1, 9, 3, 7].length ∧
      (qtopk_kernel (ref_algorithms elem_t) [5, 1, 9, 3, 7] 2 false false).1.length = 2 ∧
      (qtopk_kernel (ref_algorithms elem_t) [5, 1, 9, 3, 7] 2 false false).1.Perm
        (if false then k_largest [5, 1, 9, 3, 7] 2 else k_smallest [5, 1, 9, 3, 7] 2) ∧
      ∃ rest : List Int,
        ((qtopk_kernel (ref_algorithms elem_t) [5, 1, 9, 3, 7] 2 false false).1
            ++ rest).Perm [5, 1, 9, 3, 7] ∧
          ∀ v ∈ (qtopk_kernel (ref_algorithms elem_t) [5, 1, 9, 3, 7] 2 false false).1,
            ∀ u ∈ rest, if false then u ≤ v else v ≤ u :=
  ⟨by decide, by decide,
    qtopk_selects_extremes (ref_algorithms elem_t) [5, 1, 9, 3, 7] 2 false false
      (by decide) (by decide)⟩

/-- The kernel evaluated with the reference algorithms on the slice `[5, 1, 9, 3, 7]`:
the two smallest codes, out of order without `sorted` (that `std::nth_element` leaves
them so) and in ascending order with it; and on a slice of 64 codes `0, …, 63` with
`k = 1`, where `k * 64 ≤ n` selects the partial-sort path. -/
theorem qtopk_eval_examples :
    qtopk_kernel (ref_algorithms elem_t) [5, 1, 9, 3, 7] 3 false false
        = ([3, 1, 5], [3, 1, 0]) ∧
      qtopk_kernel (ref_algorithms elem_t) [5, 1, 9, 3, 7] 2 false true
        = ([1, 3], [1, 3]) ∧
      qtopk_kernel (ref_algorithms elem_t) ((List.range 64).map Int.ofNat) 1 true false
        = ([63], [63]) := by
  refine ⟨by decide, by decide, by decide⟩

theorem example_slice_index (i : Nat) (v : Int)
    (h : [(5 : Int), 1, 9, 3, 7][i]? = some v) :
    (v = 9 → i = 2) ∧ (v = 7 → i = 4) ∧ (v = 5 → i = 0) := by
  rcases i with _ | _ | _ | _ | _ | i <;> simp at h <;> subst h <;> simp

/-- For every conforming implementation of the standard algorithms the slice
`[5, 1, 9, 3, 7]` with `largest`, `sorted` and `k = 3` gives `values = [9, 7, 5]` and
`indices = [2, 4, 0]`. -/
theorem qtopk_example_slice (A : StdAlgorithms elem_t) :
    qtopk_kernel A [5, 1, 9, 3, 7] 3 true true = ([9, 7, 5], [2, 4, 0]) := by
  have hk1 : 1 ≤ 3 := by decide
  have hkn : 3 ≤ [(5 : Int), 1, 9, 3, 7].length := by decide
  have hsorted := qtopk_values_sorted A [5, 1, 9, 3, 7] 3 true hk1 hkn
  have hperm := qtopk_values_perm A [5, 1, 9, 3, 7] 3 true true hk1 hkn
  have hmem := qtopk_take_mem A [5, 1, 9, 3, 7] 3 true true hk1 hkn
  simp only [if_true] at hsorted hperm
  haveI : IsAntisymm Int (fun a b => b ≤ a) := ⟨fun _ _ h1 h2 => le_antisymm h2 h1⟩
  have hlargest : (k_largest [5, 1, 9, 3, 7] 3).Pairwise (fun a b => b ≤ a) := by decide
  have hvalues : (qtopk_kernel A [5, 1, 9, 3, 7] 3 true true).1 = [9, 7, 5] := by
    rw [List.eq_of_perm_of_sorted hperm hsorted hlargest]
    decide
  have hfst := hvalues
  rw [qtopk_values_eq] at hfst
  have hsnd : (qtopk_kernel A [5, 1, 9, 3, 7] 3 true true).2 = [2, 4, 0] := by
    rw [qtopk_indices_eq]
    generalize (qtopk_select A [5, 1, 9, 3, 7] 3 true true).take 3 = t at hfst hmem
    rcases t with _ | ⟨a, _ | ⟨b, _ | ⟨c, _ | ⟨d, t⟩⟩⟩⟩ <;>
      simp only [List.map_nil, List.map_cons, List.cons.injEq, and_true, and_false,
        reduceCtorEq] at hfst
    obtain ⟨ha, hb, hc⟩ := hfst
    have h1 := (example_slice_index a.2 a.1 (hmem a (by simp)).2).1 ha
    have h2 := (example_slice_index b.2 b.1 (hmem b (by simp)).2).2.1 hb
    have h3 := (example_slice_index c.2 c.1 (hmem c (by simp)).2).2.2 hc
    simp [h1, h2, h3]
  exact Prod.ext hvalues hsnd

/-- C3. Top-K (`qtopk_kernel`) with `sorted = true`: for every conforming implementation
of the standard algorithms, every slice and every `k` with `1 ≤ k ≤ n`, the `k` values
written are in non-increasing order when `largest` is set and in non-decreasing order
otherwise, on both algorithm paths (on the nth-element path `std::sort` runs on the
first `k - 1` entries only, after `std::nth_element` at position `k - 1`); and for the
slice `[5, 1, 9, 3, 7]` with `largest` and `k = 3` the result is `values = [9, 7, 5]`,
`indices = [2, 4, 0]`. -/
theorem qtopk_sorted_order (A : StdAlgorithms elem_t) (slice : List Int) (k : Nat)
    (largest : Bool) (hk1 : 1 ≤ k) (hkn : k ≤ slice.length) :
    (if largest then (qtopk_kernel A slice k largest true).1.Pairwise (fun a b => b ≤ a)
      else (qtopk_kernel A slice k largest true).1.Pairwise (fun a b => a ≤ b)) ∧
      (qtopk_kernel A slice k largest true).1.length = k ∧
      qtopk_kernel A [5, 1, 9, 3, 7] 3 true true = ([9, 7, 5], [2, 4, 0]) :=
  ⟨qtopk_values_sorted A slice k largest hk1 hkn,
    qtopk_values_length A slice k largest true hk1 hkn, qtopk_example_slice A⟩

/-- The theorem `qtopk_sorted_order` at the slice `[4, 8, 4, 2, 8, 6]` (with ties) and
`k = 4`, `largest = true`, for the reference algorithms. -/
theorem qtopk_sorted_order_witness :
    1 ≤ 4 ∧ 4 ≤ [(4 : Int), 8, 4, 2, 8, 6].length ∧
      ((if true then
          (qtopk_kernel (ref_algorithms elem_t) [4, 8, 4, 2, 8, 6] 4 true true).1.Pairwise
            (fun a b => b ≤ a)
        else
          (qtopk_kernel (ref_algorithms elem_t) [4, 8, 4, 2, 8, 6] 4 true true).1.Pairwise
            (fun a b => a ≤ b)) ∧
        (qtopk_kernel (ref_algorithms elem_t) [4, 8, 4, 2, 8, 6] 4 true true).1.length = 4 ∧
        qtopk_kernel (ref_algorithms elem_t) [5, 1, 9, 3, 7] 3 true true
          = ([9, 7, 5], [2, 4, 0])) :=
  ⟨by decide, by decide,
    qtopk_sorted_order (ref_algorithms elem_t) [4, 8, 4, 2, 8, 6] 4 true
      (by decide) (by decide)⟩

/-- C4. Top-K (`qtopk_kernel`): for every conforming implementation of the standard
algorithms, every slice, every `k` with `1 ≤ k ≤ n` and every flag combination, `k`
indices and `k` values are written, each index `indices[j]` is below `n` (indices are
natural numbers, so `0 ≤ indices[j]`) with `slice[indices[j]] = values[j]`, and the
indices are pairwise distinct. -/
theorem qtopk_indices_valid (A : StdAlgorithms elem_t) (slice : List Int) (k : Nat)
    (largest sorted : Bool) (hk1 : 1 ≤ k) (hkn : k ≤ slice.length) :
    (qtopk_kernel A slice k largest sorted).2.length = k ∧
      (qtopk_kernel A slice k largest sorted).1.length = k ∧
      (∀ j, j < k → ∃ (i : Nat) (v : Int),
        (qtopk_kernel A slice k largest sorted).2[j]? = some i ∧
          (qtopk_kernel A slice k largest sorted).1[j]? = some v ∧
          i < slice.length ∧ slice[i]? = some v) ∧
      (qtopk_kernel A slice k largest sorted).2.Nodup := by
  have hlen := qtopk_take_length A slice k largest sorted hk1 hkn
  have hperm := (qtopk_select_spec A slice k largest sorted hk1 hkn).1
  refine ⟨?_, qtopk_values_length A slice k largest sorted hk1 hkn, ?_, ?_⟩
  · rw [qtopk_indices_eq, List.length_map, hlen]
  · intro j hj
    have hj1 : j < ((qtopk_select A slice k largest sorted).take k).length := by
      rw [hlen]; exact hj
    have hmem := qtopk_take_mem A slice k largest sorted hk1 hkn
      (((qtopk_select A slice k largest sorted).take k)[j]) (List.getElem_mem hj1)
    refine ⟨_, _, ?_, ?_, hmem.1, hmem.2⟩
    · rw [qtopk_indices_eq, List.getElem?_map, List.getElem?_eq_getElem hj1]
      rfl
    · rw [qtopk_values_eq, List.getElem?_map, List.getElem?_eq_getElem hj1]
      rfl
  · rw [qtopk_indices_eq]
    have hnodup : ((qtopk_select A slice k largest sorted).map Prod.snd).Nodup := by
      rw [(hperm.map Prod.snd).nodup_iff, qtopk_queue_snd]
      exact List.nodup_range _
    exact hnodup.sublist ((List.take_sublist k _).map Prod.snd)

/-- The theorem `qtopk_indices_valid` at the slice `[4, 8, 4, 2, 8, 6]` (with ties) and
`k = 3`, `largest = false`, `sorted = false`, for the reference algorithms. -/
theorem qtopk_indices_valid_witness :
    1 ≤ 3 ∧ 3 ≤ [(4 : Int), 8, 4, 2, 8, 6].length ∧
      ((qtopk_kernel (ref_algorithms elem_t) [4, 8, 4, 2, 8, 6] 3 false false).2.length = 3 ∧
        (qtopk_kernel (ref_algorithms elem_t) [4, 8, 4, 2, 8, 6] 3 false false).1.length = 3 ∧
        (∀ j, j < 3 → ∃ (i : Nat) (v : Int),
          (qtopk_kernel (ref_algorithms elem_t) [4, 8, 4, 2, 8, 6] 3 false false).2[j]?
              = some i ∧
            (qtopk_kernel (ref_algorithms elem_t) [4, 8, 4, 2, 8, 6] 3 false false).1[j]?
              = some v ∧
            i < [(4 : Int), 8, 4, 2, 8, 6].length ∧
            [(4 : Int), 8, 4, 2, 8, 6][i]? = some v) ∧
        (qtopk_kernel (ref_algorithms elem_t) [4, 8, 4, 2, 8, 6] 3 false false).2.Nodup) :=
  ⟨by decide, by decide,
    qtopk_indices_valid (ref_algorithms elem_t) [4, 8, 4, 2, 8, 6] 3 false false
      (by decide) (by decide)⟩

/-! ### Average pooling: the divisor -/

theorem clipped_window_eq (h0 kH inputHeight w0 kW inputWidth : Int) :
    clipped_window h0 kH inputHeight w0 kW inputWidth
      = (Finset.Ico (max h0 0) (min (h0 + kH) inputHeight)) ×ˢ
          (Finset.Ico (max w0 0) (min (w0 + kW) inputWidth)) := by
  ext ⟨a, b⟩
  simp only [clipped_window, Finset.mem_filter, Finset.mem_product, Finset.mem_Ico,
    max_le_iff, lt_min_iff]
  constructor
  · rintro ⟨⟨⟨h1, h2⟩, h3, h4⟩, h5, h6, h7, h8⟩
    exact ⟨⟨⟨h1, h5⟩, h2, h6⟩, ⟨h3, h7⟩, h4, h8⟩
  · rintro ⟨⟨⟨h1, h5⟩, h2, h6⟩, ⟨h3, h7⟩, h4, h8⟩
    exact ⟨⟨⟨h1, h2⟩, h3, h4⟩, h5, h6, h7, h8⟩

theorem card_Ico_product (a b c d : Int) (hab : a ≤ b) (hcd : c ≤ d) :
    (((Finset.Ico a b) ×ˢ (Finset.Ico c d)).card : Int) = (b - a) * (d - c) := by
  rw [Finset.card_product, Nat.cast_mul, Int.card_Ico_of_le a b hab, Int.card_Ico_of_le c d hcd]

/-- The clipped bounds `qavg_window` computes, for non-negative padding. -/
theorem qavg_window_bounds (inputWidth inputHeight kW kH dW dH padW padH : Int)
    (count_include_pad : Bool) (divisor_override : Option Int) (oh ow : Int)
    (hpadH : 0 ≤ padH) (hpadW : 0 ≤ padW) :
    (qavg_window inputWidth inputHeight kW kH dW dH padW padH count_include_pad
        divisor_override oh ow).hstart = max (oh * dH - padH) 0 ∧
      (qavg_window inputWidth inputHeight kW kH dW dH padW padH count_include_pad
        divisor_override oh ow).hend = min (oh * dH - padH + kH) inputHeight ∧
      (qavg_window inputWidth inputHeight kW kH dW dH padW padH count_include_pad
        divisor_override oh ow).wstart = max (ow * dW - padW) 0 ∧
      (qavg_window inputWidth inputHeight kW kH dW dH padW padH count_include_pad
        divisor_override oh ow).wend = min (ow * dW - padW + kW) inputWidth := by
  have e1 : min (min (oh * dH - padH + kH) (inputHeight + padH)) inputHeight
      = min (oh * dH - padH + kH) inputHeight := by
    rw [min_assoc, min_eq_right (show inputHeight ≤ inputHeight + padH by omega)]
  have e2 : min (min (ow * dW - padW + kW) (inputWidth + padW)) inputWidth
      = min (ow * dW - padW + kW) inputWidth := by
    rw [min_assoc, min_eq_right (show inputWidth ≤ inputWidth + padW by omega)]
  cases divisor_override <;> simp only [qavg_window, e1, e2, and_self]

/-- The divisor without an override and without `count_include_pad`: the product of the
clipped extents. -/
theorem qavg_divisor_exclude_pad (inputWidth inputHeight kW kH dW dH padW padH oh ow : Int)
    (hpadH : 0 ≤ padH) (hpadW : 0 ≤ padW) :
    (qavg_window inputWidth inputHeight kW kH dW dH padW padH false none oh ow).divide_factor
      = (min (oh * dH - padH + kH) inputHeight - max (oh * dH - padH) 0)
        * (min (ow * dW - padW + kW) inputWidth - max (ow * dW - padW) 0) := by
  obtain ⟨h1, h2, h3, h4⟩ := qavg_window_bounds inputWidth inputHeight kW kH dW dH padW padH
    false none oh ow hpadH hpadW
  rw [← h1, ← h2, ← h3, ← h4]
  simp [qavg_window]

/-- The divisor without an override and with `count_include_pad`: `pool_size`. -/
theorem qavg_divisor_include_pad (inputWidth inputHeight kW kH dW dH padW padH oh ow : Int) :
    (qavg_window inputWidth inputHeight kW kH dW dH padW padH true none oh ow).divide_factor
      = (min (oh * dH - padH + kH) (inputHeight + padH) - (oh * dH - padH))
        * (min (ow * dW - padW + kW) (inputWidth + padW) - (ow * dW - padW)) := by
  simp [qavg_window]

theorem padded_window_eq (h0 kH hlimit w0 kW wlimit : Int) :
    padded_window h0 kH hlimit w0 kW wlimit
      = (Finset.Ico h0 (min (h0 + kH) hlimit)) ×ˢ (Finset.Ico w0 (min (w0 + kW) wlimit)) := by
  ext ⟨a, b⟩
  simp only [padded_window, Finset.mem_filter, Finset.mem_product, Finset.mem_Ico,
    lt_min_iff]
  constructor
  · rintro ⟨⟨⟨h1, h2⟩, h3, h4⟩, h5, h6⟩
    exact ⟨⟨h1, h2, h5⟩, h3, h4, h6⟩
  · rintro ⟨⟨h1, h2, h5⟩, h3, h4, h6⟩
    exact ⟨⟨⟨h1, h2⟩, h3, h4⟩, h5, h6⟩

/-- C5, as amended. Average pooling (`qavg_pool2d_nhwc_kernel`), for non-negative padding
and a window that meets the input on both axes: the divisor of the multiplier is the
override value if `divisor_override` is supplied; otherwise, if `count_include_pad` is
false, the number of in-bounds window coordinates; otherwise the number of window
coordinates inside the padded input (rows below `inputHeight + padH`, columns below
`inputWidth + padW`), which is `kH * kW` when the window does not reach past the padded
input. -/
theorem qavg_divisor_cases (inputWidth inputHeight kW kH dW dH padW padH oh ow : Int)
    (hpadH : 0 ≤ padH) (hpadW : 0 ≤ padW)
    (hH : max (oh * dH - padH) 0 ≤ min (oh * dH - padH + kH) inputHeight)
    (hW : max (ow * dW - padW) 0 ≤ min (ow * dW - padW + kW) inputWidth) :
    (∀ (count_include_pad : Bool) (d : Int),
      (qavg_window inputWidth inputHeight kW kH dW dH padW padH count_include_pad
        (some d) oh ow).divide_factor = d) ∧
    ((qavg_window inputWidth inputHeight kW kH dW dH padW padH false none
        oh ow).divide_factor
      = ((clipped_window (oh * dH - padH) kH inputHeight
          (ow * dW - padW) kW inputWidth).card : Int)) ∧
    ((qavg_window inputWidth inputHeight kW kH dW dH padW padH true none
        oh ow).divide_factor
      = ((padded_window (oh * dH - padH) kH (inputHeight + padH)
          (ow * dW - padW) kW (inputWidth + padW)).card : Int)) ∧
    (oh * dH - padH + kH ≤ inputHeight + padH → ow * dW - padW + kW ≤ inputWidth + padW →
      (qavg_window inputWidth inputHeight kW kH dW dH padW padH true none
        oh ow).divide_factor = kH * kW) := by
  have hH1 := le_max_left (oh * dH - padH) 0
  have hH2 := min_le_left (oh * dH - padH + kH) inputHeight
  have hH3 := min_le_right (oh * dH - padH + kH) inputHeight
  have hW1 := le_max_left (ow * dW - padW) 0
  have hW2 := min_le_left (ow * dW - padW + kW) inputWidth
  have hW3 := min_le_right (ow * dW - padW + kW) inputWidth
  refine ⟨?_, ?_, ?_, ?_⟩
  · intro cip d
    simp [qavg_window]
  · rw [qavg_divisor_exclude_pad _ _ _ _ _ _ _ _ _ _ hpadH hpadW, clipped_window_eq,
      card_Ico_product _ _ _ _ hH hW]
  · rw [qavg_divisor_include_pad, padded_window_eq, card_Ico_product]
    · exact le_min (by omega) (by omega)
    · exact le_min (by omega) (by omega)
  · intro h1 h2
    rw [qavg_divisor_include_pad, min_eq_left h1, min_eq_left h2]
    ring

/-- The theorem `qavg_divisor_cases` at a 3x3 input, 2x2 kernel, stride 2, padding 1 and
the output element `(0, 0)`, whose window holds one in-bounds coordinate. -/
theorem qavg_divisor_cases_witness :
    (∀ (count_include_pad : Bool) (d : Int),
      (qavg_window 3 3 2 2 2 2 1 1 count_include_pad (some d) 0 0).divide_factor = d) ∧
    ((qavg_window 3 3 2 2 2 2 1 1 false none 0 0).divide_factor
      = ((clipped_window (0 * 2 - 1) 2 3 (0 * 2 - 1) 2 3).card : Int)) ∧
    ((qavg_window 3 3 2 2 2 2 1 1 true none 0 0).divide_factor
      = ((padded_window (0 * 2 - 1) 2 (3 + 1) (0 * 2 - 1) 2 (3 + 1)).card : Int)) ∧
    ((0 : Int) * 2 - 1 + 2 ≤ 3 + 1 → (0 : Int) * 2 - 1 + 2 ≤ 3 + 1 →
      (qavg_window 3 3 2 2 2 2 1 1 true none 0 0).divide_factor = 2 * 2) :=
  qavg_divisor_cases 3 3 2 2 2 2 1 1 0 0 (by decide) (by decide) (by decide) (by decide)

/-- C5 as stated fails: on a 3x3 input with a 2x2 kernel, stride 2, no padding,
`count_include_pad` and no override, the output element `(1, 0)` (present with
`ceil_mode`) has its window reach one row past the input; the divisor is `2`, not
`kH * kW = 4`. -/
theorem qavg_divisor_not_kernel_area :
    (qavg_window 3 3 2 2 2 2 0 0 true none 1 0).divide_factor = 2 ∧
      (qavg_window 3 3 2 2 2 2 0 0 true none 1 0).divide_factor ≠ 2 * 2 := by
  decide

/-! ### Average pooling: the accumulator -/

theorem wrap_int32_add (a b : Int) : wrap_int32 (wrap_int32 a + b) = wrap_int32 (a + b) := by
  unfold wrap_int32
  omega

theorem wrap_int32_of_range (a : Int) (h1 : -2147483648 ≤ a) (h2 : a ≤ 2147483647) :
    wrap_int32 a = a := by
  unfold wrap_int32
  omega

theorem foldl_wrap_int32 (f : Int → Int) (l : List Int) (init : Int) :
    l.foldl (fun acc x => wrap_int32 (acc + f x)) (wrap_int32 init)
      = wrap_int32 (init + (l.map f).sum) := by
  induction l generalizing init with
  | nil => simp
  | cons x l ih =>
    simp only [List.foldl_cons, List.map_cons, List.sum_cons]
    rw [wrap_int32_add, ih, ← add_assoc]

theorem foldl_foldl_wrap_int32 (f : Int → Int → Int) (rows cols : List Int) (init : Int) :
    rows.foldl (fun acc ih => cols.foldl (fun acc iw => wrap_int32 (acc + f ih iw)) acc)
        (wrap_int32 init)
      = wrap_int32 (init + (rows.map (fun ih => (cols.map (f ih)).sum)).sum) := by
  induction rows generalizing init with
  | nil => simp
  | cons r rows ih =>
    simp only [List.foldl_cons, List.map_cons, List.sum_cons]
    rw [foldl_wrap_int32, ih, ← add_assoc]

theorem sum_int_range (f : Int → Int) (lo hi : Int) :
    ((int_range lo hi).map f).sum = ∑ i in Finset.Ico lo hi, f i := by
  have key : ∀ (n : Nat) (lo : Int),
      (((List.range n).map (fun (i : Nat) => lo + (i : Int))).map f).sum
        = ∑ i in Finset.Ico lo (lo + n), f i := by
    intro n lo
    induction n with
    | zero => simp
    | succ n ih =>
      have hins : Finset.Ico lo (lo + ((n + 1 : Nat) : Int))
          = insert (lo + (n : Int)) (Finset.Ico lo (lo + n)) := by
        ext x
        simp only [Finset.mem_Ico, Finset.mem_insert]
        push_cast
        omega
      rw [hins, Finset.sum_insert (by simp), List.range_succ, List.map_append,
        List.map_append, List.sum_append, ih]
      simp [add_comm]
  by_cases h : lo ≤ hi
  · have := key (hi - lo).toNat lo
    rw [Int.toNat_of_nonneg (by omega)] at this
    rw [int_range, this]
    congr 2
    omega
  · have h0 : (hi - lo).toNat = 0 := by omega
    rw [int_range, h0, Finset.Ico_eq_empty (by omega)]
    simp

/-- The 32-bit accumulator of the slow path holds, modulo `2^32`, the initial value
plus the codes of the clipped window. -/
theorem avg_accumulate_eq (i_p : Int → Int) (inputWidth nInputPlane c : Int)
    (hstart hend wstart wend : Int) (init : Int) :
    avg_accumulate i_p inputWidth nInputPlane c hstart hend wstart wend (wrap_int32 init)
      = wrap_int32 (init + ∑ p in (Finset.Ico hstart hend) ×ˢ (Finset.Ico wstart wend),
          i_p ((p.1 * inputWidth + p.2) * nInputPlane + c)) := by
  unfold avg_accumulate
  rw [foldl_foldl_wrap_int32 (fun ih iw => i_p ((ih * inputWidth + iw) * nInputPlane + c)),
    sum_int_range, Finset.sum_product]
  simp only [sum_int_range]

/-- The window of `qavg_window` without padding, with `count_include_pad` and without
an override, for an output element whose window starts inside or below the input. -/
theorem qavg_window_zero_pad (inputWidth inputHeight kW kH dW dH oh ow : Int)
    (hoh : 0 ≤ oh * dH) (how : 0 ≤ ow * dW) :
    qavg_window inputWidth inputHeight kW kH dW dH 0 0 true none oh ow
      = { hstart := oh * dH, hend := min (oh * dH + kH) inputHeight,
          wstart := ow * dW, wend := min (ow * dW + kW) inputWidth,
          size := (min (oh * dH + kH) inputHeight - oh * dH)
            * (min (ow * dW + kW) inputWidth - ow * dW),
          divide_factor := (min (oh * dH + kH) inputHeight - oh * dH)
            * (min (ow * dW + kW) inputWidth - ow * dW) } := by
  simp only [qavg_window, sub_zero, add_zero, min_assoc, min_self, if_true,
    max_eq_left hoh, max_eq_left how]

theorem sum_sub_const_bounds (W : Finset (Int × Int)) (x : Int × Int → Int) (z lo hi : Int)
    (hx : ∀ p, lo ≤ x p ∧ x p ≤ hi) (hz : lo ≤ z ∧ z ≤ hi) :
    -((hi - lo) * (W.card : Int)) ≤ ∑ p in W, (x p - z) ∧
      ∑ p in W, (x p - z) ≤ (hi - lo) * (W.card : Int) := by
  constructor
  · have h := Finset.card_nsmul_le_sum W (fun p => x p - z) (-(hi - lo))
      (fun p _ => by have := hx p; simp only; omega)
    rw [nsmul_eq_mul] at h
    calc -((hi - lo) * (W.card : Int)) = (W.card : Int) * -(hi - lo) := by ring
      _ ≤ _ := h
  · have h := Finset.sum_le_card_nsmul W (fun p => x p - z) (hi - lo)
      (fun p _ => by have := hx p; simp only; omega)
    rw [nsmul_eq_mul] at h
    calc ∑ p in W, (x p - z) ≤ (W.card : Int) * (hi - lo) := h
      _ = _ := by ring

theorem eight_bit_span (T : QType) (hT : T ≠ .qint32) : T.highest - T.lowest = 255 := by
  cases T
  · rfl
  · rfl
  · exact absurd rfl hT

/-! ### Adaptive average pooling windows -/

theorem ceil_sub_floor_of_int (x : ℚ) (z : Int) (h : x = (z : ℚ)) : ⌈x⌉ - ⌊x⌋ = 0 := by
  rw [h, Int.ceil_intCast, Int.floor_intCast, sub_self]

theorem ceil_sub_floor_of_not_int (x : ℚ) (h : ∀ z : Int, x ≠ (z : ℚ)) : ⌈x⌉ - ⌊x⌋ = 1 := by
  have h1 : (⌊x⌋ : ℚ) ≤ x := Int.floor_le x
  have h2 : x < (⌊x⌋ : ℚ) + 1 := Int.lt_floor_add_one x
  have h3 : (⌊x⌋ : ℚ) < x := lt_of_le_of_ne h1 (fun e => h ⌊x⌋ e.symm)
  have h4 : ⌈x⌉ = ⌊x⌋ + 1 := by
    rw [Int.ceil_eq_iff]
    push_cast
    constructor
    · linarith
    · linarith
  rw [h4]
  ring

theorem int_div_is_int_iff (a n : Int) (hn : 0 < n) :
    (∃ z : Int, (a : ℚ) / (n : ℚ) = (z : ℚ)) ↔ n ∣ a := by
  have hn0 : (n : ℚ) ≠ 0 := by exact_mod_cast (ne_of_gt hn)
  constructor
  · rintro ⟨z, hz⟩
    refine ⟨z, ?_⟩
    have : (a : ℚ) = (n : ℚ) * (z : ℚ) := by
      rw [← hz]; field_simp
    exact_mod_cast this
  · rintro ⟨z, rfl⟩
    refine ⟨z, ?_⟩
    push_cast
    field_simp

/-- Consecutive exact windows: the end of window `o` is the start of window `o + 1`, or
one past it when `(o + 1) * in_size` is not a multiple of `out_size`. -/
theorem exact_end_sub_next_start (o in_size out_size : Int) (hout : 0 < out_size) :
    exact_end o in_size out_size - exact_start (o + 1) in_size out_size
      = if out_size ∣ (o + 1) * in_size then 0 else 1 := by
  unfold exact_end exact_start
  by_cases hd : out_size ∣ (o + 1) * in_size
  · rw [if_pos hd]
    obtain ⟨z, hz⟩ := (int_div_is_int_iff _ _ hout).mpr hd
    exact ceil_sub_floor_of_int _ z hz
  · rw [if_neg hd]
    refine ceil_sub_floor_of_not_int _ ?_
    intro z hz
    exact hd ((int_div_is_int_iff _ _ hout).mp ⟨z, hz⟩)

theorem exact_start_zero (in_size out_size : Int) :
    exact_start 0 in_size out_size = 0 := by
  simp [exact_start]

theorem exact_end_last (in_size out_size : Int) (hout : 0 < out_size) :
    exact_end (out_size - 1) in_size out_size = in_size := by
  have hn0 : (out_size : ℚ) ≠ 0 := by exact_mod_cast (ne_of_gt hout)
  unfold exact_end
  have e : (((out_size - 1 + 1) * in_size : Int) : ℚ) / (out_size : ℚ) = (in_size : ℚ) := by
    push_cast
    field_simp
  rw [e, Int.ceil_intCast]

/-- The lengths of the first `m + 1` exact windows add up to the end of window `m` plus
the number of overlapping boundaries before it. -/
theorem exact_partial_sum (in_size out_size : Int) (hout : 0 < out_size) (m : Nat) :
    ((List.range (m + 1)).map (fun (o : Nat) =>
        exact_end (o : Int) in_size out_size
          - exact_start (o : Int) in_size out_size)).sum
      = exact_end (m : Int) in_size out_size
        + (((Finset.range m).filter
            (fun (o : Nat) => ¬ (out_size ∣ ((o : Int) + 1) * in_size))).card : Int) := by
  induction m with
  | zero =>
    simp [List.range_succ, exact_start_zero]
  | succ m ih =>
    rw [List.range_succ, List.map_append, List.sum_append, ih, Finset.range_succ,
      Finset.filter_insert]
    have hb := exact_end_sub_next_start (m : Int) in_size out_size hout
    simp only [List.map_cons, List.map_nil, List.sum_cons, List.sum_nil, add_zero,
      Nat.cast_add, Nat.cast_one]
    by_cases hd : out_size ∣ ((m : Int) + 1) * in_size
    · rw [if_pos hd] at hb
      rw [if_neg (not_not.mpr hd)]
      omega
    · rw [if_neg hd] at hb
      rw [if_pos hd, Finset.card_insert_of_not_mem (by simp)]
      push_cast
      omega

/-- Where the product `o * in_size` and `out_size` are below `2^24`, the `float` start is
the exact floor. -/
theorem adaptive_start_eq_exact (o in_size out_size : Int) (hn0 : 0 ≤ o * in_size)
    (hn : o * in_size < 2 ^ 24) (hout : 1 ≤ out_size) (hout24 : out_size < 2 ^ 24) :
    adaptive_start o in_size out_size = exact_start o in_size out_size :=
  (float_div_floor_ceil (o * in_size) out_size hn0 hn hout hout24).1

/-- Where the product `(o + 1) * in_size` and `out_size` are below `2^24`, the `float` end
is the exact ceiling. -/
theorem adaptive_end_eq_exact (o in_size out_size : Int) (hn0 : 0 ≤ (o + 1) * in_size)
    (hn : (o + 1) * in_size < 2 ^ 24) (hout : 1 ≤ out_size) (hout24 : out_size < 2 ^ 24) :
    adaptive_end o in_size out_size = exact_end o in_size out_size :=
  (float_div_floor_ceil ((o + 1) * in_size) out_size hn0 hn hout hout24).2

/-- For `in_size * out_size < 2^24` every product the windows of the output indices
`[0, out_size)` convert is below `2^24`. -/
theorem adaptive_small_products (o in_size out_size : Int) (hin : 1 ≤ in_size)
    (hsmall : in_size * out_size < 2 ^ 24) (ho0 : 0 ≤ o) (ho : o < out_size) :
    0 ≤ o * in_size ∧ o * in_size < 2 ^ 24 ∧ 0 ≤ (o + 1) * in_size ∧
      (o + 1) * in_size < 2 ^ 24 ∧ out_size < 2 ^ 24 := by
  have h1 : 0 ≤ o * in_size := mul_nonneg ho0 (by omega)
  have h2 : (o + 1) * in_size ≤ out_size * in_size :=
    mul_le_mul_of_nonneg_right (by omega) (by omega)
  have h3 : o * in_size ≤ (o + 1) * in_size :=
    mul_le_mul_of_nonneg_right (by omega) (by omega)
  have h4 : out_size * 1 ≤ out_size * in_size := mul_le_mul_of_nonneg_left hin (by omega)
  have h5 : out_size * in_size = in_size * out_size := mul_comm _ _
  exact ⟨h1, by omega, by omega, by omega, by omega⟩

/-- For `in_size * out_size < 2^24` the sum of the window lengths is the input size plus
the number of overlapping boundaries. -/
theorem adaptive_total_length_eq (in_size out_size : Int) (hin : 1 ≤ in_size)
    (hout : 1 ≤ out_size) (hsmall : in_size * out_size < 2 ^ 24) :
    adaptive_total_length in_size out_size
      = in_size + ((adaptive_overlaps in_size out_size).card : Int) := by
  have hm : out_size.toNat = (out_size.toNat - 1) + 1 := by omega
  have hcast : ((out_size.toNat - 1 : Nat) : Int) = out_size - 1 := by omega
  have hterm : ∀ o ∈ List.range out_size.toNat,
      adaptive_end (o : Int) in_size out_size - adaptive_start (o : Int) in_size out_size
        = exact_end (o : Int) in_size out_size
          - exact_start (o : Int) in_size out_size := by
    intro o ho
    have ho1 : (o : Int) < out_size := by
      have := List.mem_range.mp ho
      omega
    obtain ⟨h1, h2, h3, h4, h5⟩ :=
      adaptive_small_products (o : Int) in_size out_size hin hsmall (Int.natCast_nonneg o) ho1
    rw [adaptive_start_eq_exact _ _ _ h1 h2 hout h5,
      adaptive_end_eq_exact _ _ _ h3 h4 hout h5]
  unfold adaptive_total_length adaptive_overlaps
  rw [List.map_congr_left hterm, hm, exact_partial_sum in_size out_size (by omega), hcast,
    exact_end_last in_size out_size (by omega)]
  simp

/-- C7, as amended. Adaptive average pooling windows for `in_size ≥ 1`, `out_size ≥ 1` and
`in_size * out_size < 2^24`: the start and the end `qadaptive_avg_pool2d_nhwc_kernel`
computes for an output index `o` in `[0, out_size)` are `floor(o*in_size/out_size)` and
`ceil((o+1)*in_size/out_size)`; the sum over `o` in `[0, out_size)` of the window lengths
`end(o) - start(o)` is at least `in_size`, and it equals `in_size` whenever `out_size`
divides `in_size`. -/
theorem adaptive_windows_sum (in_size out_size : Int) (hin : 1 ≤ in_size)
    (hout : 1 ≤ out_size) (hsmall : in_size * out_size < 2 ^ 24) :
    (∀ o : Int, 0 ≤ o → o < out_size →
        adaptive_start o in_size out_size = ⌊((o * in_size : Int) : ℚ) / (out_size : ℚ)⌋ ∧
        adaptive_end o in_size out_size
          = ⌈(((o + 1) * in_size : Int) : ℚ) / (out_size : ℚ)⌉) ∧
      in_size ≤ adaptive_total_length in_size out_size ∧
      (out_size ∣ in_size → adaptive_total_length in_size out_size = in_size) := by
  have heq := adaptive_total_length_eq in_size out_size hin hout hsmall
  refine ⟨?_, by omega, ?_⟩
  · intro o ho0 ho
    obtain ⟨h1, h2, h3, h4, h5⟩ :=
      adaptive_small_products o in_size out_size hin hsmall ho0 ho
    exact ⟨adaptive_start_eq_exact _ _ _ h1 h2 hout h5,
      adaptive_end_eq_exact _ _ _ h3 h4 hout h5⟩
  · intro h
    have hempty : adaptive_overlaps in_size out_size = ∅ := by
      rw [adaptive_overlaps, Finset.filter_eq_empty_iff]
      intro o _
      exact not_not.mpr (Dvd.dvd.mul_left h _)
    rw [heq, hempty]
    simp

/-- The theorem `adaptive_windows_sum` at `in_size = 6`, `out_size = 3`, whose windows are
`[0, 2)`, `[2, 4)` and `[4, 6)`. -/
theorem adaptive_windows_sum_witness :
    (1 : Int) ≤ 6 ∧ (1 : Int) ≤ 3 ∧ (6 : Int) * 3 < 2 ^ 24 ∧
      ((∀ o : Int, 0 ≤ o → o < 3 →
          adaptive_start o 6 3 = ⌊((o * 6 : Int) : ℚ) / ((3 : Int) : ℚ)⌋ ∧
          adaptive_end o 6 3 = ⌈(((o + 1) * 6 : Int) : ℚ) / ((3 : Int) : ℚ)⌉) ∧
        6 ≤ adaptive_total_length 6 3 ∧
        ((3 : Int) ∣ 6 → adaptive_total_length 6 3 = 6)) :=
  ⟨by decide, by decide, by decide,
    adaptive_windows_sum 6 3 (by decide) (by decide) (by decide)⟩

/-- C7 as stated fails: for `in_size = 3` and `out_size = 2` the windows the kernel
computes are `[0, 2)` and `[1, 3)`, of lengths `2` and `2`, whose sum is `4`, not `3`. -/
theorem adaptive_windows_overlap :
    (1 : Int) ≤ 3 ∧ (1 : Int) ≤ 2 ∧
      adaptive_start 0 3 2 = 0 ∧ adaptive_end 0 3 2 = 2 ∧
      adaptive_start 1 3 2 = 1 ∧ adaptive_end 1 3 2 = 3 ∧
      adaptive_total_length 3 2 = 4 ∧ adaptive_total_length 3 2 ≠ 3 := by
  have h : adaptive_total_length 3 2 = 4 := by
    rw [adaptive_total_length_eq 3 2 (by decide) (by decide) (by decide)]
    decide
  refine ⟨by decide, by decide, ?_, ?_, ?_, ?_, h, by rw [h]; decide⟩
  · rw [adaptive_start_eq_exact 0 3 2 (by decide) (by decide) (by decide) (by decide)]
    norm_num [exact_start]
  · rw [adaptive_end_eq_exact 0 3 2 (by decide) (by decide) (by decide) (by decide)]
    rw [exact_end, Int.ceil_eq_iff]; norm_num
  · rw [adaptive_start_eq_exact 1 3 2 (by decide) (by decide) (by decide) (by decide)]
    rw [exact_start, Int.floor_eq_iff]; norm_num
  · rw [adaptive_end_eq_exact 1 3 2 (by decide) (by decide) (by decide) (by decide)]
    norm_num [exact_end]

/-- Beyond `2^24` the `float` conversion of the product changes a window: for
`in_size = out_size = 4099` the window of the output index `4095` is `[4094, 4096)`,
while `out_size` divides `in_size` and the exact window is `[4095, 4096)`. -/
theorem adaptive_windows_float_example :
    adaptive_start 4095 4099 4099 = 4094 ∧ adaptive_end 4095 4099 4099 = 4096 ∧
      exact_start 4095 4099 4099 = 4095 ∧ exact_end 4095 4099 4099 = 4096 := by
  have h0 : round_to_float ((4099 : Int) : ℚ) = 4099 :=
    round_to_float_intCast 4099 (by norm_num)
  have h1 : round_to_float ((4095 * 4099 : Int) : ℚ) = 16785404 := by
    rw [round_to_float_eval _ 24 (by norm_num) (by norm_num) (by norm_num)]
    norm_num [nearbyint]
  have h2 : round_to_float ((16785404 : ℚ) / 4099) = 16773119 / 4096 := by
    rw [round_to_float_eval _ 11 (by norm_num) (by norm_num) (by norm_num)]
    norm_num [nearbyint]
  have h3 : round_to_float (((4095 + 1) * 4099 : Int) : ℚ) = 16789504 := by
    rw [round_to_float_eval _ 24 (by norm_num) (by norm_num) (by norm_num)]
    norm_num [nearbyint]
  have h4 : round_to_float ((16789504 : ℚ) / 4099) = 4096 := by
    rw [round_to_float_eval _ 12 (by norm_num) (by norm_num) (by norm_num)]
    norm_num [nearbyint]
  refine ⟨?_, ?_, ?_, ?_⟩
  · rw [adaptive_start, h0, h1, h2, Int.floor_eq_iff]
    norm_num
  · rw [adaptive_end, h0, h3, h4]
    norm_num
  · norm_num [exact_start]
  · norm_num [exact_end]

/-! ### Rounding, quantize and dequantize -/

/-- C8. Affine add (`qadd_kernel`, scalar body), quantize and dequantize being the base
primitives as specified: for all input codes `a`, `b` and all parameters the output code
is `clamp(r + zero_point_out, min, max)`, where `r` is the integer nearest to
`c / scale_out`, the even one at a tie, and
`c = scale_self*(a - zero_point_self) + scale_other*(b - zero_point_other)`, replaced by
`max(c, 0)` when `ReLUFused` is set. -/
theorem qadd_scalar_formula (ReLUFused : Bool) (T : QType) (scale : ℚ) (zero_point : Int)
    (self_scale : ℚ) (self_zero_point : Int) (other_scale : ℚ) (other_zero_point : Int)
    (a b : Int) :
    ∃ r : Int,
      |(r : ℚ) - (if ReLUFused then
          max (self_scale * ((a : ℚ) - (self_zero_point : ℚ))
            + other_scale * ((b : ℚ) - (other_zero_point : ℚ))) 0
        else self_scale * ((a : ℚ) - (self_zero_point : ℚ))
          + other_scale * ((b : ℚ) - (other_zero_point : ℚ))) / scale| ≤ 1 / 2 ∧
      (|(r : ℚ) - (if ReLUFused then
          max (self_scale * ((a : ℚ) - (self_zero_point : ℚ))
            + other_scale * ((b : ℚ) - (other_zero_point : ℚ))) 0
        else self_scale * ((a : ℚ) - (self_zero_point : ℚ))
          + other_scale * ((b : ℚ) - (other_zero_point : ℚ))) / scale| = 1 / 2 → Even r) ∧
      qadd_kernel ReLUFused T scale zero_point self_scale self_zero_point
          other_scale other_zero_point a b
        = min (max (r + zero_point) T.lowest) T.highest := by
  refine ⟨nearbyint ((if ReLUFused then
      max (self_scale * ((a : ℚ) - (self_zero_point : ℚ))
        + other_scale * ((b : ℚ) - (other_zero_point : ℚ))) 0
    else self_scale * ((a : ℚ) - (self_zero_point : ℚ))
      + other_scale * ((b : ℚ) - (other_zero_point : ℚ))) / scale),
    (nearbyint_spec _).1, (nearbyint_spec _).2, rfl⟩

/-- The four ties and near-ties of the rounding, and the add kernel on `quint8` codes:
`200 + 100` saturates at `255`, and with the fused clamp a negative sum gives the zero
point. -/
theorem qadd_eval_examples :
    nearbyint (5 / 2) = 2 ∧ nearbyint (7 / 2) = 4 ∧ nearbyint (-5 / 2) = -2 ∧
      nearbyint (13 / 5) = 3 ∧
      qadd_kernel false .quint8 1 0 1 0 1 0 200 100 = 255 ∧
      qadd_kernel false .quint8 (1 / 2) 10 (1 / 4) 3 (1 / 4) 5 13 10 = 18 ∧
      qadd_kernel true .qint8 1 7 1 0 1 0 (-5) 2 = 7 := by
  refine ⟨?_, ?_, ?_, ?_, ?_, ?_, ?_⟩ <;>
    norm_num [qadd_kernel, quantize_val, dequantize_val, nearbyint, QType.lowest,
      QType.highest]

theorem quantize_val_ge_zero_point (T : QType) (scale : ℚ) (zero_point : Int) (value : ℚ)
    (hscale : 0 < scale) (hzp : T.InRange zero_point) (hvalue : 0 ≤ value) :
    zero_point ≤ quantize_val T scale zero_point value := by
  have hr : 0 ≤ nearbyint (value / scale) := nearbyint_nonneg _ (div_nonneg hvalue hscale.le)
  unfold quantize_val
  refine le_min (le_trans ?_ (le_max_left _ _)) hzp.2
  omega

/-- C9. Affine add with the fused clamp (`qadd_kernel<true>`): for all input codes `a`,
`b`, a positive output scale and an output zero point within the type's range, the
output code is at least `zero_point_out`, so the dequantized output
`scale_out * (code_out - zero_point_out)` is not negative. -/
theorem qadd_relu_nonneg (T : QType) (scale : ℚ) (zero_point : Int)
    (self_scale : ℚ) (self_zero_point : Int) (other_scale : ℚ) (other_zero_point : Int)
    (a b : Int) (hscale : 0 < scale) (hzp : T.InRange zero_point) :
    zero_point ≤ qadd_kernel true T scale zero_point self_scale self_zero_point
        other_scale other_zero_point a b ∧
      0 ≤ dequantize_val scale zero_point
        (qadd_kernel true T scale zero_point self_scale self_zero_point
          other_scale other_zero_point a b) := by
  have h : zero_point ≤ qadd_kernel true T scale zero_point self_scale self_zero_point
      other_scale other_zero_point a b := by
    unfold qadd_kernel
    exact quantize_val_ge_zero_point T scale zero_point _ hscale hzp (le_max_right _ _)
  refine ⟨h, ?_⟩
  unfold dequantize_val
  have h1 : (zero_point : ℚ) ≤ ((qadd_kernel true T scale zero_point self_scale
      self_zero_point other_scale other_zero_point a b : Int) : ℚ) := by exact_mod_cast h
  exact mul_nonneg hscale.le (by linarith)

/-- The theorem `qadd_relu_nonneg` at `qint8` codes `-5` and `2` with unit scales, input
zero points `0` and output zero point `7`: the sum `-3` is clamped to `0`. -/
theorem qadd_relu_nonneg_witness :
    (0 : ℚ) < 1 ∧ QType.qint8.InRange 7 ∧
      (7 ≤ qadd_kernel true .qint8 1 7 1 0 1 0 (-5) 2 ∧
        0 ≤ dequantize_val 1 7 (qadd_kernel true .qint8 1 7 1 0 1 0 (-5) 2)) :=
  ⟨by norm_num, by decide,
    qadd_relu_nonneg .qint8 1 7 1 0 1 0 (-5) 2 (by norm_num) (by decide)⟩

theorem quantize_val_of_in_range (T : QType) (scale : ℚ) (zero_point : Int) (value : ℚ)
    (h : T.InRange (nearbyint (value / scale) + zero_point)) :
    quantize_val T scale zero_point value = nearbyint (value / scale) + zero_point := by
  unfold quantize_val
  rw [max_eq_left h.1, min_eq_left h.2]

theorem dequantize_quantize_error (T : QType) (scale : ℚ) (zero_point : Int) (value : ℚ)
    (hscale : 0 < scale) (h : T.InRange (nearbyint (value / scale) + zero_point)) :
    |dequantize_val scale zero_point (quantize_val T scale zero_point value) - value|
      ≤ scale / 2 := by
  rw [quantize_val_of_in_range T scale zero_point value h]
  unfold dequantize_val
  have hne : scale ≠ 0 := ne_of_gt hscale
  have e : scale * (((nearbyint (value / scale) + zero_point : Int) : ℚ) - (zero_point : ℚ))
      - value = scale * ((nearbyint (value / scale) : ℚ) - value / scale) := by
    push_cast
    field_simp
    ring
  rw [e, abs_mul, abs_of_pos hscale]
  have := (nearbyint_spec (value / scale)).1
  calc scale * |(nearbyint (value / scale) : ℚ) - value / scale|
      ≤ scale * (1 / 2) := mul_le_mul_of_nonneg_left this hscale.le
    _ = scale / 2 := by ring

theorem narrow_of_in_range (T : QType) (x : Int) (h : T.InRange x) : T.narrow x = x := by
  obtain ⟨h1, h2⟩ := h
  cases T <;> simp only [QType.lowest, QType.highest] at h1 h2 <;>
    simp only [QType.narrow, QType.lowest, QType.modulus] <;> omega

/-- C14. Lower-bounded activation (`qrelu_kernel`, scalar body): for every input code
`q` and every `zero_point` within the range of the underlying type the output code is
`max(q, zero_point)`, the narrowing of the 64-bit `zero_point` inside `std::max` losing
nothing; so the kernel is idempotent on codes. -/
theorem qrelu_is_max (T : QType) (zero_point q : Int) (hzp : T.InRange zero_point) :
    qrelu_kernel T zero_point q = max q zero_point ∧
      qrelu_kernel T zero_point (qrelu_kernel T zero_point q)
        = qrelu_kernel T zero_point q := by
  refine ⟨?_, ?_⟩
  · simp only [qrelu_kernel, narrow_of_in_range T zero_point hzp]
  · simp only [qrelu_kernel, narrow_of_in_range T zero_point hzp]
    rw [max_assoc, max_self]

/-- The theorem `qrelu_is_max` at the `qint8` code `-100` and zero point `-3`. -/
theorem qrelu_is_max_witness :
    QType.qint8.InRange (-3) ∧
      (qrelu_kernel .qint8 (-3) (-100) = max (-100) (-3) ∧
        qrelu_kernel .qint8 (-3) (qrelu_kernel .qint8 (-3) (-100))
          = qrelu_kernel .qint8 (-3) (-100)) :=
  ⟨by decide, qrelu_is_max .qint8 (-3) (-100) (by decide)⟩

/-- The lower-bounded kernel evaluated: codes below the zero point go to it, the others
stay; a zero point outside the type's range is narrowed first (`200` is `-56` as a
signed 8-bit value). -/
theorem qrelu_eval_examples :
    qrelu_kernel .quint8 128 5 = 128 ∧ qrelu_kernel .quint8 128 200 = 200 ∧
      qrelu_kernel .qint8 (-3) (-100) = -3 ∧ qrelu_kernel .qint8 200 (-100) = -56 := by
  decide

/-- C13. Double-bounded activation (`qrelu6_kernel`, scalar body): for every input code
`q`, every scale and every `zero_point` within the range of the underlying type, the
output code is `min(max(q, zero_point), six)` with
`six = quantize(6.0, scale, zero_point)`, the quantization of `6.0` under the input's
own parameters. -/
theorem qrelu6_is_clamp (T : QType) (scale : ℚ) (zero_point q : Int)
    (hzp : T.InRange zero_point) :
    qrelu6_kernel T scale zero_point q
      = min (max q zero_point) (quantize_val T scale zero_point 6) := by
  simp only [qrelu6_kernel, narrow_of_in_range T zero_point hzp]

/-- The theorem `qrelu6_is_clamp` at the `quint8` code `250` with scale `1/10` and zero
point `128`, where `six` is the code `188`. -/
theorem qrelu6_is_clamp_witness :
    QType.quint8.InRange 128 ∧
      qrelu6_kernel .quint8 (1 / 10) 128 250
        = min (max 250 128) (quantize_val .quint8 (1 / 10) 128 6) :=
  ⟨by decide, qrelu6_is_clamp .quint8 (1 / 10) 128 250 (by decide)⟩

/-- The double-bounded kernel evaluated with scale `1/10` and zero point `128`
(`six = 188`), and with scale `1/100`, where `six` saturates at `255`. -/
theorem qrelu6_eval_examples :
    quantize_val .quint8 (1 / 10) 128 6 = 188 ∧
      qrelu6_kernel .quint8 (1 / 10) 128 250 = 188 ∧
      qrelu6_kernel .quint8 (1 / 10) 128 5 = 128 ∧
      qrelu6_kernel .quint8 (1 / 10) 128 150 = 150 ∧
      qrelu6_kernel .quint8 (1 / 100) 128 250 = 250 := by
  refine ⟨?_, ?_, ?_, ?_, ?_⟩ <;>
    norm_num [qrelu6_kernel, quantize_val, nearbyint, QType.narrow, QType.modulus,
      QType.lowest, QType.highest]

/-- C20. Double-bounded activation output range: for every input code `q`, a positive
scale and a `zero_point` within the range of the underlying type,
`six = quantize(6.0, scale, zero_point)` is at least `zero_point`, the output of
`qrelu6_kernel` lies in the closed interval `[zero_point, six]`, and clamping below then
above gives the same code as clamping above then below. -/
theorem qrelu6_output_range (T : QType) (scale : ℚ) (zero_point q : Int)
    (hscale : 0 < scale) (hzp : T.InRange zero_point) :
    zero_point ≤ quantize_val T scale zero_point 6 ∧
      zero_point ≤ qrelu6_kernel T scale zero_point q ∧
      qrelu6_kernel T scale zero_point q ≤ quantize_val T scale zero_point 6 ∧
      qrelu6_kernel T scale zero_point q
        = max (min q (quantize_val T scale zero_point 6)) zero_point := by
  have hsix := quantize_val_ge_zero_point T scale zero_point 6 hscale hzp (by norm_num)
  simp only [qrelu6_kernel, narrow_of_in_range T zero_point hzp]
  refine ⟨hsix, le_min (le_max_right _ _) hsix, min_le_right _ _, ?_⟩
  rcases le_total q zero_point with h1 | h1 <;>
    rcases le_total q (quantize_val T scale zero_point 6) with h2 | h2 <;>
    simp [h1, h2, hsix]
  omega

/-- The theorem `qrelu6_output_range` at the `quint8` code `250` with scale `1/10` and
zero point `128`. -/
theorem qrelu6_output_range_witness :
    (0 : ℚ) < 1 / 10 ∧ QType.quint8.InRange 128 ∧
      (128 ≤ quantize_val .quint8 (1 / 10) 128 6 ∧
        128 ≤ qrelu6_kernel .quint8 (1 / 10) 128 250 ∧
        qrelu6_kernel .quint8 (1 / 10) 128 250 ≤ quantize_val .quint8 (1 / 10) 128 6 ∧
        qrelu6_kernel .quint8 (1 / 10) 128 250
          = max (min 250 (quantize_val .quint8 (1 / 10) 128 6)) 128) :=
  ⟨by norm_num, by decide,
    qrelu6_output_range .quint8 (1 / 10) 128 250 (by norm_num) (by decide)⟩

/-! ### Max pooling: the identity window -/

theorem clip_start_of_nonneg (fuel : Nat) (start d : Int) (h : 0 ≤ start) :
    clip_start (fuel + 1) start d = some start := by
  simp [clip_start, not_lt.mpr h]

/-- A strided loop over a range that holds one step runs its body once. -/
theorem strided_for_single {α : Type} (fuel : Nat) (y d : Int) (hd : 1 ≤ d)
    (body : α → Int → Option α) (acc : α) :
    strided_for (fuel + 2) y (y + 1) d body acc = body acc y := by
  have h1 : y < y + 1 := by omega
  have h2 : ¬ (y + d < y + 1) := by omega
  simp only [strided_for, h1, h2, if_true, if_false]
  cases body acc y <;> rfl

/-- C15. Max pooling identity window (`qmaxpool_2d_nhwc_kernel`): with `kH = kW = 1`,
`sH = sW = 1`, zero padding, `oH = iH`, `oW = iW` and any dilation `≥ 1`, the code written
at an output position `(b, row, col, c)`, `0 ≤ row < iH`, `0 ≤ col < iW`, is the input
code at the same position (a value of the underlying type, so not below its lowest
value). Two units of fuel suffice for every loop. -/
theorem qmaxpool_identity_window (T : QType) (idata : Int → Int)
    (iC iH iW dH dW b row col c : Int) (hdH : 1 ≤ dH) (hdW : 1 ≤ dW)
    (hrow : 0 ≤ row) (hrowH : row < iH) (hcol : 0 ≤ col) (hcolW : col < iW)
    (hcode : T.lowest ≤ nhwc_at idata iC iH iW b row col c)
    (fuel : Nat) (hfuel : 2 ≤ fuel) :
    qmaxpool_2d_nhwc_kernel fuel T idata iC iH iW 1 1 1 1 0 0 dH dW b row col c
      = some (nhwc_at idata iC iH iW b row col c) := by
  obtain ⟨n, rfl⟩ : ∃ n, fuel = n + 2 := ⟨fuel - 2, by omega⟩
  have hr : row * 1 - 0 = row := by ring
  have hc : col * 1 - 0 = col := by ring
  have he : ∀ (y d size : Int), y < size → min (y + (1 - 1) * d + 1) size = y + 1 := by
    intro y d size hy
    rw [sub_self, zero_mul, add_zero]
    exact min_eq_left (by omega)
  have hidx : b * iW * iH * iC + ((row * iW + col) * iC + c)
      = ((b * iH + row) * iW + col) * iC + c := by ring
  simp only [qmaxpool_2d_nhwc_kernel, hr, hc, he row dH iH hrowH, he col dW iW hcolW,
    clip_start_of_nonneg (n + 1) row dH hrow, clip_start_of_nonneg (n + 1) col dW hcol,
    strided_for_single n row dH hdH, strided_for_single n col dW hdW, hidx]
  unfold nhwc_at at hcode ⊢
  rw [max_eq_right hcode]

/-- The theorem `qmaxpool_identity_window` at a 3x3 two-channel `quint8` input with
codes `off % 10`, dilation `(2, 3)` and the position `(0, 2, 1, 1)`. -/
theorem qmaxpool_identity_window_witness :
    (1 : Int) ≤ 2 ∧ (1 : Int) ≤ 3 ∧ (0 : Int) ≤ 2 ∧ (2 : Int) < 3 ∧ (0 : Int) ≤ 1 ∧
      (1 : Int) < 3 ∧
      QType.quint8.lowest ≤ nhwc_at (fun off => off % 10) 2 3 3 0 2 1 1 ∧
      qmaxpool_2d_nhwc_kernel 2 .quint8 (fun off => off % 10) 2 3 3 1 1 1 1 0 0 2 3
          0 2 1 1
        = some (nhwc_at (fun off => off % 10) 2 3 3 0 2 1 1) :=
  ⟨by decide, by decide, by decide, by decide, by decide, by decide, by decide,
    qmaxpool_identity_window .quint8 (fun off => off % 10) 2 3 3 2 3 0 2 1 1
      (by decide) (by decide) (by decide) (by decide) (by decide) (by decide) (by decide)
      2 (by decide)⟩

/-! ### Adaptive average pooling: well-formed windows and coverage -/

/-- One axis of an exact window: it starts at or after `0`, is not empty and ends at or
before the input size. -/
theorem exact_axis_bounds (o in_size out_size : Int) (hin : 1 ≤ in_size)
    (hout : 1 ≤ out_size) (ho0 : 0 ≤ o) (hon : o < out_size) :
    0 ≤ exact_start o in_size out_size ∧
      exact_start o in_size out_size < exact_end o in_size out_size ∧
      exact_end o in_size out_size ≤ in_size := by
  have hn : (0 : ℚ) < (out_size : ℚ) := by exact_mod_cast (show (0 : Int) < out_size by omega)
  have hi : (1 : ℚ) ≤ (in_size : ℚ) := by exact_mod_cast hin
  have ho : (0 : ℚ) ≤ (o : ℚ) := by exact_mod_cast ho0
  have ho1 : (o : ℚ) + 1 ≤ (out_size : ℚ) := by exact_mod_cast (show o + 1 ≤ out_size by omega)
  unfold exact_start exact_end
  refine ⟨?_, ?_, ?_⟩
  · rw [Int.floor_nonneg]
    push_cast
    exact div_nonneg (mul_nonneg ho (by linarith)) hn.le
  · apply Int.floor_lt_ceil_of_lt
    push_cast
    rw [div_lt_div_iff_of_pos_right hn]
    nlinarith
  · rw [Int.ceil_le]
    push_cast
    rw [div_le_iff₀ hn]
    nlinarith

/-- One axis of the window the kernel computes, for `in_size * out_size < 2^24`. -/
theorem adaptive_axis_bounds (o in_size out_size : Int) (hin : 1 ≤ in_size)
    (hout : 1 ≤ out_size) (hsmall : in_size * out_size < 2 ^ 24) (ho0 : 0 ≤ o)
    (hon : o < out_size) :
    0 ≤ adaptive_start o in_size out_size ∧
      adaptive_start o in_size out_size < adaptive_end o in_size out_size ∧
      adaptive_end o in_size out_size ≤ in_size := by
  obtain ⟨h1, h2, h3, h4, h5⟩ :=
    adaptive_small_products o in_size out_size hin hsmall ho0 hon
  rw [adaptive_start_eq_exact _ _ _ h1 h2 hout h5, adaptive_end_eq_exact _ _ _ h3 h4 hout h5]
  exact exact_axis_bounds o in_size out_size hin hout ho0 hon

/-- Adaptive average pooling windows are well-formed where the products stay below
`2^24`: for input sizes `≥ 1`, output sizes `≥ 1` with `isizeH * osizeH < 2^24` and
`isizeW * osizeW < 2^24`, and an output element `(oh, ow)` with `0 ≤ oh < osizeH`,
`0 ≤ ow < osizeW`, each axis of the window `qadaptive_avg_pool2d_nhwc_kernel` computes
satisfies `0 ≤ start < end ≤ in_size`; so the window area `size = kH * kW` is at least
`1` and every coordinate the accumulation loops read, `(istartH + ih, istartW + iw)` with
`0 ≤ ih < kH` and `0 ≤ iw < kW`, lies inside the input. -/
theorem adaptive_small_window_well_formed (isizeH isizeW osizeH osizeW oh ow : Int)
    (hiH : 1 ≤ isizeH) (hiW : 1 ≤ isizeW) (hoH : 1 ≤ osizeH) (hoW : 1 ≤ osizeW)
    (hsmallH : isizeH * osizeH < 2 ^ 24) (hsmallW : isizeW * osizeW < 2 ^ 24)
    (hoh0 : 0 ≤ oh) (hoh : oh < osizeH) (how0 : 0 ≤ ow) (how : ow < osizeW) :
    (0 ≤ adaptive_start oh isizeH osizeH ∧
        adaptive_start oh isizeH osizeH < adaptive_end oh isizeH osizeH ∧
        adaptive_end oh isizeH osizeH ≤ isizeH) ∧
      (0 ≤ adaptive_start ow isizeW osizeW ∧
        adaptive_start ow isizeW osizeW < adaptive_end ow isizeW osizeW ∧
        adaptive_end ow isizeW osizeW ≤ isizeW) ∧
      1 ≤ (qadaptive_window isizeH isizeW osizeH osizeW oh ow).size ∧
      ∀ ih iw : Int,
        0 ≤ ih → ih < (qadaptive_window isizeH isizeW osizeH osizeW oh ow).kH →
        0 ≤ iw → iw < (qadaptive_window isizeH isizeW osizeH osizeW oh ow).kW →
        (0 ≤ (qadaptive_window isizeH isizeW osizeH osizeW oh ow).istartH + ih ∧
          (qadaptive_window isizeH isizeW osizeH osizeW oh ow).istartH + ih < isizeH) ∧
        (0 ≤ (qadaptive_window isizeH isizeW osizeH osizeW oh ow).istartW + iw ∧
          (qadaptive_window isizeH isizeW osizeH osizeW oh ow).istartW + iw < isizeW) := by
  have hH := adaptive_axis_bounds oh isizeH osizeH hiH hoH hsmallH hoh0 hoh
  have hW := adaptive_axis_bounds ow isizeW osizeW hiW hoW hsmallW how0 how
  refine ⟨hH, hW, ?_, ?_⟩
  · simp only [qadaptive_window]
    have h1 : 1 ≤ adaptive_end oh isizeH osizeH - adaptive_start oh isizeH osizeH := by
      omega
    have h2 : 1 ≤ adaptive_end ow isizeW osizeW - adaptive_start ow isizeW osizeW := by
      omega
    nlinarith
  · intro ih iw hih0 hih hiw0 hiw
    simp only [qadaptive_window] at hih hiw ⊢
    omega

/-- The theorem `adaptive_small_window_well_formed` at a 5x7 input, a 3x2 output and the
output element `(1, 1)`, whose window is rows `[1, 4)` and columns `[3, 7)`. -/
theorem adaptive_small_window_well_formed_witness :
    (qadaptive_window 5 7 3 2 1 1).istartH = 1 ∧ (qadaptive_window 5 7 3 2 1 1).kH = 3 ∧
      (qadaptive_window 5 7 3 2 1 1).istartW = 3 ∧ (qadaptive_window 5 7 3 2 1 1).kW = 4 ∧
      1 ≤ (qadaptive_window 5 7 3 2 1 1).size ∧
      adaptive_end 1 5 3 ≤ 5 ∧ adaptive_end 1 7 2 ≤ 7 := by
  have h := adaptive_small_window_well_formed 5 7 3 2 1 1 (by decide) (by decide)
    (by decide) (by decide) (by decide) (by decide) (by decide) (by decide) (by decide)
    (by decide)
  have s1 : adaptive_start 1 5 3 = 1 := by
    rw [adaptive_start_eq_exact 1 5 3 (by decide) (by decide) (by decide) (by decide),
      exact_start, Int.floor_eq_iff]
    norm_num
  have e1 : adaptive_end 1 5 3 = 4 := by
    rw [adaptive_end_eq_exact 1 5 3 (by decide) (by decide) (by decide) (by decide),
      exact_end, Int.ceil_eq_iff]
    norm_num
  have s2 : adaptive_start 1 7 2 = 3 := by
    rw [adaptive_start_eq_exact 1 7 2 (by decide) (by decide) (by decide) (by decide),
      exact_start, Int.floor_eq_iff]
    norm_num
  have e2 : adaptive_end 1 7 2 = 7 := by
    rw [adaptive_end_eq_exact 1 7 2 (by decide) (by decide) (by decide) (by decide),
      exact_end, Int.ceil_eq_iff]
    norm_num
  refine ⟨?_, ?_, ?_, ?_, h.2.2.1, h.1.2.2, h.2.1.2.2⟩ <;>
    simp [qadaptive_window, s1, e1, s2, e2]

/-- The window of the output row `4094` for `isizeH = 4101` and `osizeH = 4095`: the
product `4095 * 4101 = 16793595` is converted to the `float` `16793596`, whose `float`
quotient by `4095` is `8398849/2048`, above `4101`. -/
theorem adaptive_window_4094 :
    adaptive_start 4094 4101 4095 = 4099 ∧ adaptive_end 4094 4101 4095 = 4102 := by
  have h0 : round_to_float ((4095 : Int) : ℚ) = 4095 :=
    round_to_float_intCast 4095 (by norm_num)
  have h1 : round_to_float ((4094 * 4101 : Int) : ℚ) = 16789494 := by
    rw [round_to_float_eval _ 24 (by norm_num) (by norm_num) (by norm_num)]
    norm_num [nearbyint]
  have h2 : round_to_float ((16789494 : ℚ) / 4095) = 8396797 / 2048 := by
    rw [round_to_float_eval _ 12 (by norm_num) (by norm_num) (by norm_num)]
    norm_num [nearbyint]
  have h3 : round_to_float (((4094 + 1) * 4101 : Int) : ℚ) = 16793596 := by
    rw [round_to_float_eval _ 24 (by norm_num) (by norm_num) (by norm_num)]
    norm_num [nearbyint]
  have h4 : round_to_float ((16793596 : ℚ) / 4095) = 8398849 / 2048 := by
    rw [round_to_float_eval _ 12 (by norm_num) (by norm_num) (by norm_num)]
    norm_num [nearbyint]
  constructor
  · rw [adaptive_start, h0, h1, h2, Int.floor_eq_iff]
    norm_num
  · rw [adaptive_end, h0, h3, h4, Int.ceil_eq_iff]
    norm_num

/-- C18 fails on the code beyond `2^24`. For a one-channel input of `4101` rows and `1`
column pooled to `4095` rows, the window of the output row `4094` (the last) is rows
`[4099, 4102)`: its end `4102` is past `isizeH = 4101`, and the accumulation loops read
the offsets `4099`, `4100` and `4101` of an input whose last offset is `4100`. In exact
arithmetic the window is `[4099, 4101)`. -/
theorem adaptive_window_past_input :
    (1 : Int) ≤ 4101 ∧ (1 : Int) ≤ 4095 ∧ (0 : Int) ≤ 4094 ∧ (4094 : Int) < 4095 ∧
      adaptive_start 4094 4101 4095 = 4099 ∧ adaptive_end 4094 4101 4095 = 4102 ∧
      ¬ (adaptive_end 4094 4101 4095 ≤ 4101) ∧
      (qadaptive_window 4101 1 4095 1 4094 0).istartH = 4099 ∧
      (qadaptive_window 4101 1 4095 1 4094 0).kH = 3 ∧
      (qadaptive_window 4101 1 4095 1 4094 0).istartW = 0 ∧
      (qadaptive_window 4101 1 4095 1 4094 0).kW = 1 ∧
      qadaptive_window_codes (fun off => off) 0 4101 1 4095 1 4101 1 1 1 4094 0 0
        = [4099, 4100, 4101] ∧
      exact_start 4094 4101 4095 = 4099 ∧ exact_end 4094 4101 4095 = 4101 := by
  obtain ⟨hs, he⟩ := adaptive_window_4094
  have hsW : adaptive_start 0 1 1 = 0 := by
    rw [adaptive_start_eq_exact 0 1 1 (by decide) (by decide) (by decide) (by decide)]
    exact exact_start_zero 1 1
  have heW : adaptive_end 0 1 1 = 1 := by
    rw [adaptive_end_eq_exact 0 1 1 (by decide) (by decide) (by decide) (by decide)]
    exact exact_end_last 1 1 (by decide)
  have hw : qadaptive_window 4101 1 4095 1 4094 0
      = { istartH := 4099, kH := 3, istartW := 0, kW := 1, size := 3 } := by
    simp only [qadaptive_window, hs, he, hsW, heW]
    decide
  refine ⟨by decide, by decide, by decide, by decide, hs, he, by rw [he]; decide,
    by rw [hw], by rw [hw], by rw [hw], by rw [hw], ?_, ?_, ?_⟩
  · simp only [qadaptive_window_codes, hw]
    decide
  · rw [exact_start, Int.floor_eq_iff]; norm_num
  · rw [exact_end, Int.ceil_eq_iff]; norm_num

/-- Every input index lies in the exact window of the output index
`i * out_size / in_size`. -/
theorem exact_index_covered (i in_size out_size : Int) (hout : 1 ≤ out_size)
    (hi0 : 0 ≤ i) (hi : i < in_size) :
    0 ≤ i * out_size / in_size ∧ i * out_size / in_size < out_size ∧
      exact_start (i * out_size / in_size) in_size out_size ≤ i ∧
      i < exact_end (i * out_size / in_size) in_size out_size := by
  have hin : 0 < in_size := by omega
  have hn : (0 : ℚ) < (out_size : ℚ) := by exact_mod_cast (show (0 : Int) < out_size by omega)
  have hlo : i * out_size / in_size * in_size ≤ i * out_size :=
    Int.ediv_mul_le _ (ne_of_gt hin)
  have hhi : i * out_size < (i * out_size / in_size + 1) * in_size :=
    Int.lt_ediv_add_one_mul_self _ hin
  have hloQ : ((i * out_size / in_size : Int) : ℚ) * (in_size : ℚ)
      ≤ (i : ℚ) * (out_size : ℚ) := by exact_mod_cast hlo
  have hhiQ : (i : ℚ) * (out_size : ℚ)
      < (((i * out_size / in_size : Int) : ℚ) + 1) * (in_size : ℚ) := by exact_mod_cast hhi
  refine ⟨Int.ediv_nonneg (mul_nonneg hi0 (by omega)) hin.le,
    Int.ediv_lt_of_lt_mul hin (by nlinarith), ?_, ?_⟩
  · unfold exact_start
    have h1 : (⌊(((i * out_size / in_size * in_size : Int) : ℚ)) / (out_size : ℚ)⌋ : ℚ)
        ≤ (i : ℚ) := by
      refine le_trans (Int.floor_le _) ?_
      rw [div_le_iff₀ hn]
      push_cast
      exact hloQ
    exact_mod_cast h1
  · unfold exact_end
    rw [Int.lt_ceil, lt_div_iff₀ hn]
    push_cast
    exact hhiQ

/-- Adaptive average pooling coverage where the products stay below `2^24`: for
`in_size ≥ 1`, `out_size ≥ 1` and `in_size * out_size < 2^24`, every input index `i` in
`[0, in_size)` lies in the window `[start(o), end(o))` of some output index `o` in
`[0, out_size)`; the first window starts at `0`, the last ends at `in_size`, and
consecutive windows leave no gap, `start(o + 1) ≤ end(o)`. -/
theorem adaptive_small_windows_cover (in_size out_size : Int) (hin : 1 ≤ in_size)
    (hout : 1 ≤ out_size) (hsmall : in_size * out_size < 2 ^ 24) :
    (∀ i : Int, 0 ≤ i → i < in_size →
      ∃ o : Int, 0 ≤ o ∧ o < out_size ∧
        adaptive_start o in_size out_size ≤ i ∧ i < adaptive_end o in_size out_size) ∧
      adaptive_start 0 in_size out_size = 0 ∧
      adaptive_end (out_size - 1) in_size out_size = in_size ∧
      ∀ o : Int, 0 ≤ o → o + 1 < out_size →
        adaptive_start (o + 1) in_size out_size ≤ adaptive_end o in_size out_size := by
  have hbridge : ∀ o : Int, 0 ≤ o → o < out_size →
      adaptive_start o in_size out_size = exact_start o in_size out_size ∧
        adaptive_end o in_size out_size = exact_end o in_size out_size := by
    intro o ho0 ho
    obtain ⟨h1, h2, h3, h4, h5⟩ :=
      adaptive_small_products o in_size out_size hin hsmall ho0 ho
    exact ⟨adaptive_start_eq_exact _ _ _ h1 h2 hout h5,
      adaptive_end_eq_exact _ _ _ h3 h4 hout h5⟩
  refine ⟨?_, ?_, ?_, ?_⟩
  · intro i hi0 hi
    obtain ⟨h1, h2, h3, h4⟩ := exact_index_covered i in_size out_size hout hi0 hi
    obtain ⟨hs, he⟩ := hbridge _ h1 h2
    exact ⟨i * out_size / in_size, h1, h2, by rw [hs]; exact h3, by rw [he]; exact h4⟩
  · rw [(hbridge 0 (le_refl 0) (by omega)).1]
    exact exact_start_zero in_size out_size
  · rw [(hbridge (out_size - 1) (by omega) (by omega)).2]
    exact exact_end_last in_size out_size (by omega)
  · intro o ho0 ho
    rw [(hbridge (o + 1) (by omega) ho).1, (hbridge o ho0 (by omega)).2]
    have h := exact_end_sub_next_start o in_size out_size (by omega)
    split_ifs at h <;> omega

/-- The theorem `adaptive_small_windows_cover` at `in_size = 5`, `out_size = 3`, whose
windows are `[0, 2)`, `[1, 4)` and `[3, 5)`. -/
theorem adaptive_small_windows_cover_witness :
    (1 : Int) ≤ 5 ∧ (1 : Int) ≤ 3 ∧ (5 : Int) * 3 < 2 ^ 24 ∧
      ((∀ i : Int, 0 ≤ i → i < 5 →
        ∃ o : Int, 0 ≤ o ∧ o < 3 ∧ adaptive_start o 5 3 ≤ i ∧ i < adaptive_end o 5 3) ∧
        adaptive_start 0 5 3 = 0 ∧ adaptive_end (3 - 1) 5 3 = 5 ∧
        ∀ o : Int, 0 ≤ o → o + 1 < 3 → adaptive_start (o + 1) 5 3 ≤ adaptive_end o 5 3) :=
  ⟨by decide, by decide, by decide,
    adaptive_small_windows_cover 5 3 (by decide) (by decide) (by decide)⟩

/-- C19 fails on the code beyond `2^24`. For `in_size = 4101` and `out_size = 4095` the
last window, of the output index `4094`, ends at `4102`, not at `in_size`. For
`in_size = 16777217 = 2^24 + 1` and `out_size = 1` the only window is `[0, 16777216)`,
since the `float` nearest to `16777217` is `16777216`: the input index `16777216` lies
in no window. -/
theorem adaptive_windows_miss_index :
    (1 : Int) ≤ 4101 ∧ (1 : Int) ≤ 4095 ∧
      adaptive_end (4095 - 1) 4101 4095 = 4102 ∧
      adaptive_end (4095 - 1) 4101 4095 ≠ 4101 ∧
      (1 : Int) ≤ 16777217 ∧ (1 : Int) ≤ 1 ∧
      adaptive_start 0 16777217 1 = 0 ∧ adaptive_end 0 16777217 1 = 16777216 ∧
      adaptive_end (1 - 1) 16777217 1 ≠ 16777217 ∧
      (0 : Int) ≤ 16777216 ∧ (16777216 : Int) < 16777217 ∧
      ¬ ∃ o : Int, 0 ≤ o ∧ o < 1 ∧
        adaptive_start o 16777217 1 ≤ 16777216 ∧ 16777216 < adaptive_end o 16777217 1 := by
  have he : adaptive_end (4095 - 1) 4101 4095 = 4102 := adaptive_window_4094.2
  have h1 : round_to_float ((1 : Int) : ℚ) = 1 := round_to_float_intCast 1 (by norm_num)
  have h2 : round_to_float (((0 + 1) * 16777217 : Int) : ℚ) = 16777216 := by
    rw [round_to_float_eval _ 24 (by norm_num) (by norm_num) (by norm_num)]
    norm_num [nearbyint]
  have h3 : round_to_float ((16777216 : ℚ) / 1) = 16777216 := by
    rw [round_to_float_eval _ 24 (by norm_num) (by norm_num) (by norm_num)]
    norm_num [nearbyint]
  have hs0 : adaptive_start 0 16777217 1 = 0 := by
    rw [adaptive_start_eq_exact 0 16777217 1 (by decide) (by decide) (by decide)
      (by decide)]
    exact exact_start_zero _ _
  have he0 : adaptive_end 0 16777217 1 = 16777216 := by
    rw [adaptive_end, h1, h2, h3]
    norm_num
  refine ⟨by decide, by decide, he, by rw [he]; decide, by decide, by decide, hs0, he0,
    by rw [show ((1 : Int) - 1) = 0 by decide, he0]; decide, by decide, by decide, ?_⟩
  rintro ⟨o, ho0, ho1, -, hlt⟩
  have ho : o = 0 := by omega
  rw [ho, he0] at hlt
  exact absurd hlt (by decide)

/-! ### Average pooling: the width of the accumulator -/

theorem qavg_kernel_uses_acc (T : QType) (idata : Int → Int)
    (scale_in scale_out : ℚ) (zero_point_in zero_point_out : Int)
    (b nInputPlane inputWidth inputHeight : Int) (kW kH dW dH padW padH : Int)
    (count_include_pad : Bool) (divisor_override : Option Int) (oh ow c : Int) :
    qavg_pool2d_nhwc_kernel T idata scale_in scale_out zero_point_in zero_point_out
        b nInputPlane inputWidth inputHeight kW kH dW dH padW padH
        count_include_pad divisor_override oh ow c
      = (qavg_multiplier scale_in scale_out
          (qavg_window inputWidth inputHeight kW kH dW dH padW padH count_include_pad
            divisor_override oh ow).divide_factor).bind
        (fun multiplier => qavg_requantize T multiplier zero_point_out
          (qavg_acc_int32 idata zero_point_in b nInputPlane inputWidth inputHeight
            kW kH dW dH padW padH count_include_pad divisor_override oh ow c)) := rfl

/-- The multiplier of line 410 where its three operations are exact. -/
theorem qavg_multiplier_exact (scale_in scale_out : ℚ) (n : Int) (hs : scale_out ≠ 0)
    (hn0 : n ≠ 0) (hn : |n| < 2 ^ 53)
    (h1 : double_of (scale_in / scale_out) = some (scale_in / scale_out))
    (h2 : double_of (scale_in / scale_out / (n : ℚ)) = some (scale_in / scale_out / (n : ℚ)))
    (h3 : float_of (scale_in / scale_out / (n : ℚ)) = some (scale_in / scale_out / (n : ℚ))) :
    qavg_multiplier scale_in scale_out n = some (scale_in / scale_out / (n : ℚ)) := by
  have hn0q : (n : ℚ) ≠ 0 := by exact_mod_cast hn0
  simp only [qavg_multiplier, double_div, if_neg hs, h1, Option.some_bind,
    round_to_double_intCast n hn, if_neg hn0q, h2, h3]

/-- The requantization of lines 438-444 where its two `double` operations are exact and
the rounded value is a value of `int32_t`. -/
theorem qavg_requantize_exact (T : QType) (m : ℚ) (zero_point_out acc : Int)
    (hzp : |zero_point_out| < 2 ^ 53)
    (h4 : double_of ((acc : ℚ) * m) = some ((acc : ℚ) * m))
    (h5 : double_of ((acc : ℚ) * m + (zero_point_out : ℚ))
      = some ((acc : ℚ) * m + (zero_point_out : ℚ)))
    (hr : Int32Range (nearbyint ((acc : ℚ) * m + (zero_point_out : ℚ)))) :
    qavg_requantize T m zero_point_out acc
      = some (min (max (nearbyint ((acc : ℚ) * m + (zero_point_out : ℚ))) T.lowest)
          T.highest) := by
  simp only [qavg_requantize, mul_one, h4, Option.some_bind,
    round_to_double_intCast zero_point_out hzp, h5, if_pos hr]

theorem window_codes_sum (f : Int → Int → Int) (rows cols : List Int) :
    (window_codes f rows cols).sum = (rows.map (fun ih => (cols.map (f ih)).sum)).sum := by
  rw [window_codes, List.sum_flatten, List.map_map]
  rfl

theorem window_codes_length (f : Int → Int → Int) (rows cols : List Int) :
    (window_codes f rows cols).length = rows.length * cols.length := by
  rw [window_codes, List.length_flatten, List.map_map]
  induction rows with
  | nil => simp
  | cons r rows ih =>
    simp only [List.map_cons, List.sum_cons, List.length_cons, ih, Function.comp,
      List.length_map]
    ring

theorem wrap_int32_eq_self_iff (x : Int) : wrap_int32 x = x ↔ Int32Range x := by
  unfold wrap_int32 Int32Range
  omega

theorem int_range_length (lo hi : Int) : (int_range lo hi).length = (hi - lo).toNat := by
  simp [int_range]

/-- The accumulator of the fixed-window slow path is the offset plus the window's codes,
reduced to 32 bits. -/
theorem qavg_acc_int32_eq (idata : Int → Int) (zero_point_in : Int)
    (b nInputPlane inputWidth inputHeight : Int) (kW kH dW dH padW padH : Int)
    (count_include_pad : Bool) (divisor_override : Option Int) (oh ow c : Int) :
    qavg_acc_int32 idata zero_point_in b nInputPlane inputWidth inputHeight
        kW kH dW dH padW padH count_include_pad divisor_override oh ow c
      = wrap_int32 (-zero_point_in * (qavg_window inputWidth inputHeight kW kH dW dH
            padW padH count_include_pad divisor_override oh ow).size
          + (qavg_window_codes idata b nInputPlane inputWidth inputHeight
            kW kH dW dH padW padH count_include_pad divisor_override oh ow c).sum) := by
  simp only [qavg_acc_int32, qavg_window_codes, avg_accumulate, window_codes_sum]
  exact foldl_foldl_wrap_int32
    (fun ih iw => idata (b * (nInputPlane * inputWidth * inputHeight)
      + ((ih * inputWidth + iw) * nInputPlane + c))) _ _ _

/-- The accumulator of the adaptive slow path is the offset plus the window's codes,
reduced to 32 bits. -/
theorem qadaptive_acc_int32_eq (idata : Int → Int) (zero_point_in : Int)
    (b isizeH isizeW osizeH osizeW istrideB istrideD istrideH istrideW : Int)
    (oh ow c : Int) :
    qadaptive_acc_int32 idata zero_point_in b isizeH isizeW osizeH osizeW
        istrideB istrideD istrideH istrideW oh ow c
      = wrap_int32 (-zero_point_in * (qadaptive_window isizeH isizeW osizeH osizeW
            oh ow).size
          + (qadaptive_window_codes idata b isizeH isizeW osizeH osizeW
            istrideB istrideD istrideH istrideW oh ow c).sum) := by
  simp only [qadaptive_acc_int32, qadaptive_window_codes, adaptive_accumulate,
    window_codes_sum]
  exact foldl_foldl_wrap_int32
    (fun ih iw => idata (b * istrideB
      + ((qadaptive_window isizeH isizeW osizeH osizeW oh ow).istartH * istrideH
        + (qadaptive_window isizeH isizeW osizeH osizeW oh ow).istartW * istrideW
        + (ih * istrideH + iw * istrideW + c * istrideD)))) _ _ _

/-- C12, as amended. Average pooling accumulator width: on the slow path of
`qavg_pool2d_nhwc_kernel` and of `qadaptive_avg_pool2d_nhwc_kernel` the accumulator is a
32-bit integer for every element type; `acc_int32` is the exact integer
`-zero_point_in*size + sum of the window's codes` reduced modulo `2^32` into
`[-2^31, 2^31)`, and it equals that exact integer if and only if the exact integer is a
value of `int32_t`. -/
theorem acc_int32_modulo (idata : Int → Int) (zero_point_in : Int)
    (b nInputPlane inputWidth inputHeight : Int) (kW kH dW dH padW padH : Int)
    (count_include_pad : Bool) (divisor_override : Option Int)
    (isizeH isizeW osizeH osizeW istrideB istrideD istrideH istrideW : Int)
    (oh ow c : Int) :
    (qavg_acc_int32 idata zero_point_in b nInputPlane inputWidth inputHeight
        kW kH dW dH padW padH count_include_pad divisor_override oh ow c
      = wrap_int32 (-zero_point_in * (qavg_window inputWidth inputHeight kW kH dW dH
            padW padH count_include_pad divisor_override oh ow).size
          + (qavg_window_codes idata b nInputPlane inputWidth inputHeight
            kW kH dW dH padW padH count_include_pad divisor_override oh ow c).sum)) ∧
    (qavg_acc_int32 idata zero_point_in b nInputPlane inputWidth inputHeight
        kW kH dW dH padW padH count_include_pad divisor_override oh ow c
      = -zero_point_in * (qavg_window inputWidth inputHeight kW kH dW dH
            padW padH count_include_pad divisor_override oh ow).size
          + (qavg_window_codes idata b nInputPlane inputWidth inputHeight
            kW kH dW dH padW padH count_include_pad divisor_override oh ow c).sum
      ↔ Int32Range (-zero_point_in * (qavg_window inputWidth inputHeight kW kH dW dH
            padW padH count_include_pad divisor_override oh ow).size
          + (qavg_window_codes idata b nInputPlane inputWidth inputHeight
            kW kH dW dH padW padH count_include_pad divisor_override oh ow c).sum)) ∧
    (qadaptive_acc_int32 idata zero_point_in b isizeH isizeW osizeH osizeW
        istrideB istrideD istrideH istrideW oh ow c
      = wrap_int32 (-zero_point_in * (qadaptive_window isizeH isizeW osizeH osizeW
            oh ow).size
          + (qadaptive_window_codes idata b isizeH isizeW osizeH osizeW
            istrideB istrideD istrideH istrideW oh ow c).sum)) ∧
    (qadaptive_acc_int32 idata zero_point_in b isizeH isizeW osizeH osizeW
        istrideB istrideD istrideH istrideW oh ow c
      = -zero_point_in * (qadaptive_window isizeH isizeW osizeH osizeW oh ow).size
          + (qadaptive_window_codes idata b isizeH isizeW osizeH osizeW
            istrideB istrideD istrideH istrideW oh ow c).sum
      ↔ Int32Range (-zero_point_in * (qadaptive_window isizeH isizeW osizeH osizeW
            oh ow).size
          + (qadaptive_window_codes idata b isizeH isizeW osizeH osizeW
            istrideB istrideD istrideH istrideW oh ow c).sum)) := by
  refine ⟨qavg_acc_int32_eq _ _ _ _ _ _ _ _ _ _ _ _ _ _ _ _ _, ?_,
    qadaptive_acc_int32_eq _ _ _ _ _ _ _ _ _ _ _ _ _ _, ?_⟩
  · rw [qavg_acc_int32_eq]
    exact wrap_int32_eq_self_iff _
  · rw [qadaptive_acc_int32_eq]
    exact wrap_int32_eq_self_iff _

theorem qadaptive_window_single (isizeH isizeW : Int) (hH0 : 0 ≤ isizeH)
    (hH : isizeH < 2 ^ 24) (hW0 : 0 ≤ isizeW) (hW : isizeW < 2 ^ 24) :
    qadaptive_window isizeH isizeW 1 1 0 0
      = { istartH := 0, kH := isizeH, istartW := 0, kW := isizeW,
          size := isizeH * isizeW } := by
  have sH : adaptive_start 0 isizeH 1 = 0 := by
    rw [adaptive_start_eq_exact 0 isizeH 1 (by omega) (by omega) (by decide) (by decide)]
    exact exact_start_zero _ _
  have sW : adaptive_start 0 isizeW 1 = 0 := by
    rw [adaptive_start_eq_exact 0 isizeW 1 (by omega) (by omega) (by decide) (by decide)]
    exact exact_start_zero _ _
  have eH : adaptive_end 0 isizeH 1 = isizeH := by
    rw [adaptive_end_eq_exact 0 isizeH 1 (by omega) (by omega) (by decide) (by decide)]
    exact exact_end_last isizeH 1 (by decide)
  have eW : adaptive_end 0 isizeW 1 = isizeW := by
    rw [adaptive_end_eq_exact 0 isizeW 1 (by omega) (by omega) (by decide) (by decide)]
    exact exact_end_last isizeW 1 (by decide)
  simp only [qadaptive_window, sH, sW, eH, eW, sub_zero]

/-- C12 as stated fails for 32-bit codes: for one row of the two `qint32` codes
`2147483647` with zero point `0`, a window that holds both, the exact sum is
`4294967294` and `acc_int32` is `-2`, in the fixed-window kernel and in the adaptive
kernel alike. -/
theorem acc_int32_overflows_qint32 :
    QType.qint32.InRange 2147483647 ∧
      (qavg_window 2 1 2 1 1 1 0 0 false none 0 0).size = 2 ∧
      qavg_window_codes (fun _ => 2147483647) 0 1 2 1 2 1 1 1 0 0 false none 0 0 0
        = [2147483647, 2147483647] ∧
      qavg_acc_int32 (fun _ => 2147483647) 0 0 1 2 1 2 1 1 1 0 0 false none 0 0 0 = -2 ∧
      qavg_acc_int32 (fun _ => 2147483647) 0 0 1 2 1 2 1 1 1 0 0 false none 0 0 0
        ≠ -0 * 2 + (2147483647 + 2147483647) ∧
      qadaptive_acc_int32 (fun _ => 2147483647) 0 0 1 2 1 1 2 1 2 1 0 0 0 = -2 := by
  refine ⟨by decide, by decide, by decide, by decide, by decide, ?_⟩
  simp only [qadaptive_acc_int32,
    qadaptive_window_single 1 2 (by decide) (by decide) (by decide) (by decide)]
  decide

/-! ### Average pooling: 8-bit accumulation -/

/-- For 8-bit codes, a window size that bounds the number of codes added and
`255 * size ≤ 2^31 - 1`, the offset plus any leading part of the codes is a value of
`int32_t`. -/
theorem partial_sums_in_range (T : QType) (hT : T ≠ .qint32) (codes : List Int)
    (hcodes : ∀ q ∈ codes, T.InRange q) (zero_point : Int) (hzp : T.InRange zero_point)
    (size : Int) (hlen : (codes.length : Int) ≤ size) (hsize : 255 * size ≤ 2147483647)
    (j : Nat) : Int32Range (-zero_point * size + (codes.take j).sum) := by
  have hsize0 : 0 ≤ size := le_trans (Int.natCast_nonneg _) hlen
  have hmem : ∀ q ∈ codes.take j, T.InRange q := fun q hq =>
    hcodes q (List.mem_of_mem_take hq)
  have hlenj : ((codes.take j).length : Int) ≤ size := by
    have : (codes.take j).length ≤ codes.length := by
      rw [List.length_take]; exact min_le_right _ _
    omega
  have hlo := List.card_nsmul_le_sum (codes.take j) T.lowest (fun q hq => (hmem q hq).1)
  have hhi := List.sum_le_card_nsmul (codes.take j) T.highest (fun q hq => (hmem q hq).2)
  have hz1 : T.lowest * size ≤ zero_point * size := mul_le_mul_of_nonneg_right hzp.1 hsize0
  have hz2 : zero_point * size ≤ T.highest * size := mul_le_mul_of_nonneg_right hzp.2 hsize0
  rw [nsmul_eq_mul] at hlo hhi
  rw [neg_mul]
  unfold Int32Range
  cases T with
  | qint8 =>
    simp only [QType.lowest, QType.highest] at hlo hhi hz1 hz2
    omega
  | quint8 =>
    simp only [QType.lowest, QType.highest] at hlo hhi hz1 hz2
    omega
  | qint32 => exact absurd rfl hT

/-- The fixed-window kernel adds no more codes than the window size it offsets by, when
the clipped window has non-negative extents. -/
theorem qavg_codes_length_le_size (idata : Int → Int)
    (b nInputPlane inputWidth inputHeight : Int) (kW kH dW dH padW padH : Int)
    (count_include_pad : Bool) (divisor_override : Option Int) (oh ow c : Int)
    (hH : (qavg_window inputWidth inputHeight kW kH dW dH padW padH count_include_pad
        divisor_override oh ow).hstart
      ≤ (qavg_window inputWidth inputHeight kW kH dW dH padW padH count_include_pad
        divisor_override oh ow).hend)
    (hW : (qavg_window inputWidth inputHeight kW kH dW dH padW padH count_include_pad
        divisor_override oh ow).wstart
      ≤ (qavg_window inputWidth inputHeight kW kH dW dH padW padH count_include_pad
        divisor_override oh ow).wend) :
    ((qavg_window_codes idata b nInputPlane inputWidth inputHeight kW kH dW dH padW padH
        count_include_pad divisor_override oh ow c).length : Int)
      ≤ (qavg_window inputWidth inputHeight kW kH dW dH padW padH count_include_pad
        divisor_override oh ow).size := by
  have hlen : ((qavg_window_codes idata b nInputPlane inputWidth inputHeight kW kH dW dH
        padW padH count_include_pad divisor_override oh ow c).length : Int)
      = ((qavg_window inputWidth inputHeight kW kH dW dH padW padH count_include_pad
          divisor_override oh ow).hend
        - (qavg_window inputWidth inputHeight kW kH dW dH padW padH count_include_pad
          divisor_override oh ow).hstart)
      * ((qavg_window inputWidth inputHeight kW kH dW dH padW padH count_include_pad
          divisor_override oh ow).wend
        - (qavg_window inputWidth inputHeight kW kH dW dH padW padH count_include_pad
          divisor_override oh ow).wstart) := by
    simp only [qavg_window_codes, window_codes_length, int_range_length, Nat.cast_mul]
    rw [Int.toNat_of_nonneg (by omega), Int.toNat_of_nonneg (by omega)]
  rw [hlen]
  cases divisor_override with
  | some d => simp only [qavg_window, le_refl]
  | none =>
    cases count_include_pad with
    | false => simp only [qavg_window, Bool.false_eq_true, if_false, le_refl]
    | true =>
      simp only [qavg_window, if_true] at hH hW ⊢
      have h1 := le_max_left (oh * dH - padH) 0
      have h2 := min_le_left (min (oh * dH - padH + kH) (inputHeight + padH)) inputHeight
      have h3 := le_max_left (ow * dW - padW) 0
      have h4 := min_le_left (min (ow * dW - padW + kW) (inputWidth + padW)) inputWidth
      exact mul_le_mul (by omega) (by omega) (by omega) (by omega)

theorem adaptive_extent_nonneg (o in_size out_size : Int) (hin : 0 ≤ in_size)
    (hout : 1 ≤ out_size) :
    adaptive_start o in_size out_size ≤ adaptive_end o in_size out_size := by
  have hprod : (((o * in_size : Int) : ℚ)) ≤ ((((o + 1) * in_size : Int) : ℚ)) := by
    exact_mod_cast (show o * in_size ≤ (o + 1) * in_size by nlinarith)
  have h1 : (1 : ℚ) ≤ round_to_float (out_size : ℚ) := by
    have := round_to_float_mono (show ((1 : Int) : ℚ) ≤ (out_size : ℚ) by exact_mod_cast hout)
    rwa [round_to_float_intCast 1 (by norm_num), Int.cast_one] at this
  have h2 : round_to_float ((o * in_size : Int) : ℚ) / round_to_float (out_size : ℚ)
      ≤ round_to_float (((o + 1) * in_size : Int) : ℚ) / round_to_float (out_size : ℚ) :=
    div_le_div_of_nonneg_right (round_to_float_mono hprod) (by linarith)
  have h3 := round_to_float_mono h2
  unfold adaptive_start adaptive_end
  have h4 : ((⌊round_to_float (round_to_float ((o * in_size : Int) : ℚ)
        / round_to_float (out_size : ℚ))⌋ : Int) : ℚ)
      ≤ ((⌈round_to_float (round_to_float (((o + 1) * in_size : Int) : ℚ)
        / round_to_float (out_size : ℚ))⌉ : Int) : ℚ) :=
    le_trans (Int.floor_le _) (le_trans h3 (Int.le_ceil _))
  exact_mod_cast h4

/-- The adaptive kernel adds exactly `size = kH * kW` codes. -/
theorem qadaptive_codes_length (idata : Int → Int)
    (b isizeH isizeW osizeH osizeW istrideB istrideD istrideH istrideW : Int)
    (oh ow c : Int) (hiH : 0 ≤ isizeH) (hiW : 0 ≤ isizeW) (hoH : 1 ≤ osizeH)
    (hoW : 1 ≤ osizeW) :
    ((qadaptive_window_codes idata b isizeH isizeW osizeH osizeW
        istrideB istrideD istrideH istrideW oh ow c).length : Int)
      = (qadaptive_window isizeH isizeW osizeH osizeW oh ow).size := by
  have hH := adaptive_extent_nonneg oh isizeH osizeH hiH hoH
  have hW := adaptive_extent_nonneg ow isizeW osizeW hiW hoW
  simp only [qadaptive_window_codes, window_codes_length, int_range_length, Nat.cast_mul,
    qadaptive_window, sub_zero]
  rw [Int.toNat_of_nonneg (by omega), Int.toNat_of_nonneg (by omega)]

theorem window_codes_mem (f : Int → Int → Int) (rows cols : List Int) (q : Int)
    (hq : q ∈ window_codes f rows cols) : ∃ ih iw, q = f ih iw := by
  simp only [window_codes, List.mem_flatten, List.mem_map] at hq
  obtain ⟨l, ⟨ih, _, rfl⟩, hq⟩ := hq
  obtain ⟨iw, _, rfl⟩ := List.mem_map.mp hq
  exact ⟨ih, iw, rfl⟩

/-- The accumulation of 8-bit codes whose number is at most `size`, with
`255 * size ≤ 2^31 - 1`: the initial value and every partial sum are values of
`int32_t`, and the 32-bit result is the exact sum. -/
theorem accumulate_8bit_exact (T : QType) (hT : T ≠ .qint32) (codes : List Int)
    (hcodes : ∀ q ∈ codes, T.InRange q) (zero_point : Int) (hzp : T.InRange zero_point)
    (size : Int) (hlen : (codes.length : Int) ≤ size) (hsize : 255 * size ≤ 2147483647)
    (acc : Int) (hacc : acc = wrap_int32 (-zero_point * size + codes.sum)) :
    Int32Range (-zero_point * size) ∧
      (∀ j : Nat, Int32Range (-zero_point * size + (codes.take j).sum)) ∧
      acc = -zero_point * size + codes.sum := by
  have hall := partial_sums_in_range T hT codes hcodes zero_point hzp size hlen hsize
  refine ⟨by simpa using hall 0, hall, ?_⟩
  have hfull := hall codes.length
  rw [List.take_length] at hfull
  rw [hacc]
  exact (wrap_int32_eq_self_iff _).mpr hfull

/-- C17. Average pooling 8-bit accumulation (`qavg_pool2d_nhwc_kernel`,
`qadaptive_avg_pool2d_nhwc_kernel`): for signed or unsigned 8-bit codes with
`zero_point_in` in range, if `255 * size ≤ 2^31 - 1`, `size` being the window size used
for the zero-point offset, then the initial value `-zero_point_in * size` and every
partial sum of the accumulator are values of `int32_t`, and the accumulated value is the
exact integer sum. The window is well formed: the clipped extents of the fixed window
are not negative, the adaptive input sizes are not negative and its output sizes are at
least `1`. -/
theorem acc_int32_exact_8bit (T : QType) (hT : T ≠ .qint32) (idata : Int → Int)
    (hcodes : ∀ off, T.InRange (idata off)) (zero_point_in : Int)
    (hzp : T.InRange zero_point_in)
    (b nInputPlane inputWidth inputHeight : Int) (kW kH dW dH padW padH : Int)
    (count_include_pad : Bool) (divisor_override : Option Int)
    (isizeH isizeW osizeH osizeW istrideB istrideD istrideH istrideW : Int)
    (oh ow c : Int)
    (hH : (qavg_window inputWidth inputHeight kW kH dW dH padW padH count_include_pad
        divisor_override oh ow).hstart
      ≤ (qavg_window inputWidth inputHeight kW kH dW dH padW padH count_include_pad
        divisor_override oh ow).hend)
    (hW : (qavg_window inputWidth inputHeight kW kH dW dH padW padH count_include_pad
        divisor_override oh ow).wstart
      ≤ (qavg_window inputWidth inputHeight kW kH dW dH padW padH count_include_pad
        divisor_override oh ow).wend)
    (hsizeA : 255 * (qavg_window inputWidth inputHeight kW kH dW dH padW padH
      count_include_pad divisor_override oh ow).size ≤ 2147483647)
    (hiH : 0 ≤ isizeH) (hiW : 0 ≤ isizeW) (hoH : 1 ≤ osizeH) (hoW : 1 ≤ osizeW)
    (hsizeB : 255 * (qadaptive_window isizeH isizeW osizeH osizeW oh ow).size
      ≤ 2147483647) :
    (Int32Range (-zero_point_in * (qavg_window inputWidth inputHeight kW kH dW dH
        padW padH count_include_pad divisor_override oh ow).size) ∧
      (∀ j : Nat, Int32Range (-zero_point_in * (qavg_window inputWidth inputHeight
          kW kH dW dH padW padH count_include_pad divisor_override oh ow).size
        + ((qavg_window_codes idata b nInputPlane inputWidth inputHeight
          kW kH dW dH padW padH count_include_pad divisor_override oh ow c).take j).sum)) ∧
      qavg_acc_int32 idata zero_point_in b nInputPlane inputWidth inputHeight
          kW kH dW dH padW padH count_include_pad divisor_override oh ow c
        = -zero_point_in * (qavg_window inputWidth inputHeight kW kH dW dH
            padW padH count_include_pad divisor_override oh ow).size
          + (qavg_window_codes idata b nInputPlane inputWidth inputHeight
            kW kH dW dH padW padH count_include_pad divisor_override oh ow c).sum) ∧
    (Int32Range (-zero_point_in
        * (qadaptive_window isizeH isizeW osizeH osizeW oh ow).size) ∧
      (∀ j : Nat, Int32Range (-zero_point_in
          * (qadaptive_window isizeH isizeW osizeH osizeW oh ow).size
        + ((qadaptive_window_codes idata b isizeH isizeW osizeH osizeW
          istrideB istrideD istrideH istrideW oh ow c).take j).sum)) ∧
      qadaptive_acc_int32 idata zero_point_in b isizeH isizeW osizeH osizeW
          istrideB istrideD istrideH istrideW oh ow c
        = -zero_point_in * (qadaptive_window isizeH isizeW osizeH osizeW oh ow).size
          + (qadaptive_window_codes idata b isizeH isizeW osizeH osizeW
            istrideB istrideD istrideH istrideW oh ow c).sum) := by
  constructor
  · refine accumulate_8bit_exact T hT _ ?_ zero_point_in hzp _
      (qavg_codes_length_le_size idata b nInputPlane inputWidth inputHeight kW kH dW dH
        padW padH count_include_pad divisor_override oh ow c hH hW)
      hsizeA _ (qavg_acc_int32_eq _ _ _ _ _ _ _ _ _ _ _ _ _ _ _ _ _)
    intro q hq
    obtain ⟨ih, iw, rfl⟩ := window_codes_mem _ _ _ q hq
    exact hcodes _
  · refine accumulate_8bit_exact T hT _ ?_ zero_point_in hzp _
      (le_of_eq (qadaptive_codes_length idata b isizeH isizeW osizeH osizeW
        istrideB istrideD istrideH istrideW oh ow c hiH hiW hoH hoW))
      hsizeB _ (qadaptive_acc_int32_eq _ _ _ _ _ _ _ _ _ _ _ _ _ _)
    intro q hq
    obtain ⟨ih, iw, rfl⟩ := window_codes_mem _ _ _ q hq
    exact hcodes _

/-- The theorem `acc_int32_exact_8bit` for `quint8` codes `off % 10` and zero point `3`:
a 3x3 input with a 2x2 kernel, stride 2, padding 1 and `count_include_pad` at the output
element `(0, 0)` (offset size `4`, one code added), and the adaptive kernel on a 5x7 input
with a 1x1 output (size `35`). -/
theorem acc_int32_exact_8bit_witness :
    qavg_acc_int32 (fun off => off % 10) 3 0 1 3 3 2 2 2 2 1 1 true none 0 0 0
        = -3 * (qavg_window 3 3 2 2 2 2 1 1 true none 0 0).size
          + (qavg_window_codes (fun off => off % 10) 0 1 3 3 2 2 2 2 1 1 true none
            0 0 0).sum ∧
      qadaptive_acc_int32 (fun off => off % 10) 3 0 5 7 1 1 35 1 7 1 0 0 0
        = -3 * (qadaptive_window 5 7 1 1 0 0).size
          + (qadaptive_window_codes (fun off => off % 10) 0 5 7 1 1 35 1 7 1
            0 0 0).sum :=
  have hcodes : ∀ off : Int, QType.quint8.InRange (off % 10) := fun off =>
    ⟨Int.emod_nonneg off (by decide),
      le_of_lt (lt_trans (Int.emod_lt_of_pos off (by decide)) (by decide))⟩
  have h := acc_int32_exact_8bit .quint8 (by decide) (fun off => off % 10) hcodes 3
    (by decide) 0 1 3 3 2 2 2 2 1 1 true none 5 7 1 1 35 1 7 1 0 0 0
    (by decide) (by decide) (by decide) (by decide) (by decide) (by decide) (by decide)
    (by rw [qadaptive_window_single 5 7 (by decide) (by decide) (by decide) (by decide)]
        decide)
  ⟨h.1.2.2, h.2.2.2⟩

/-! ### Average pooling: the zero-point offset -/

/-- Where the offset size is the number of codes added (with a divisor override, or
without `count_include_pad`, for a clipped window of non-negative extents), the
accumulator is the 32-bit sum of `q - zero_point_in` over the codes of the window. -/
theorem qavg_acc_offset_of_counted (idata : Int → Int) (zero_point_in : Int)
    (b nInputPlane inputWidth inputHeight : Int) (kW kH dW dH padW padH : Int)
    (count_include_pad : Bool) (divisor_override : Option Int) (oh ow c : Int)
    (hbranch : divisor_override.isSome = true ∨ count_include_pad = false)
    (hH : (qavg_window inputWidth inputHeight kW kH dW dH padW padH count_include_pad
        divisor_override oh ow).hstart
      ≤ (qavg_window inputWidth inputHeight kW kH dW dH padW padH count_include_pad
        divisor_override oh ow).hend)
    (hW : (qavg_window inputWidth inputHeight kW kH dW dH padW padH count_include_pad
        divisor_override oh ow).wstart
      ≤ (qavg_window inputWidth inputHeight kW kH dW dH padW padH count_include_pad
        divisor_override oh ow).wend) :
    qavg_acc_int32 idata zero_point_in b nInputPlane inputWidth inputHeight
        kW kH dW dH padW padH count_include_pad divisor_override oh ow c
      = wrap_int32 (((qavg_window_codes idata b nInputPlane inputWidth inputHeight
          kW kH dW dH padW padH count_include_pad divisor_override oh ow c).map
            (fun q => q - zero_point_in)).sum) := by
  have hsize : (qavg_window inputWidth inputHeight kW kH dW dH padW padH count_include_pad
        divisor_override oh ow).size
      = ((qavg_window_codes idata b nInputPlane inputWidth inputHeight kW kH dW dH
        padW padH count_include_pad divisor_override oh ow c).length : Int) := by
    simp only [qavg_window_codes, window_codes_length, int_range_length, Nat.cast_mul]
    rw [Int.toNat_of_nonneg (by omega), Int.toNat_of_nonneg (by omega)]
    cases divisor_override with
    | some d => simp only [qavg_window]
    | none =>
      cases count_include_pad with
      | false => simp only [qavg_window, Bool.false_eq_true, if_false]
      | true => simp at hbranch
  have hsum : ∀ (l : List Int) (z : Int),
      (l.map (fun q => q - z)).sum = -z * (l.length : Int) + l.sum := by
    intro l z
    induction l with
    | nil => simp
    | cons x l ih =>
      simp only [List.map_cons, List.sum_cons, List.length_cons, ih]
      push_cast
      ring
  rw [qavg_acc_int32_eq, hsize, hsum]

/-- The theorem `qavg_acc_offset_of_counted` at a 3x3 input with codes `off % 10`, zero
point `3`, a 2x2 kernel, stride 2, padding 1, `count_include_pad` and the divisor
override `4`, at the output element `(1, 1)`. -/
theorem qavg_acc_offset_of_counted_witness :
    qavg_acc_int32 (fun off => off % 10) 3 0 1 3 3 2 2 2 2 1 1 true (some 4) 1 1 0
      = wrap_int32 (((qavg_window_codes (fun off => off % 10) 0 1 3 3 2 2 2 2 1 1 true
          (some 4) 1 1 0).map (fun q => q - 3)).sum) :=
  qavg_acc_offset_of_counted (fun off => off % 10) 3 0 1 3 3 2 2 2 2 1 1 true (some 4)
    1 1 0 (Or.inl rfl) (by decide) (by decide)

/-- C16 fails on the code for `count_include_pad = true` without an override where the
window overlaps the padding. On a 3x3 `quint8` input whose codes all equal the zero
point `10` (real value `0` everywhere), with a 2x2 kernel, stride 2 and padding 1, the
window of the output element `(0, 0)` holds one in-bounds coordinate; the sum of
`q - zero_point_in` over it is `0`, but the offset is taken for `pool_size = 4` positions
and the accumulator is `-30`, so the code written (equal scales, output zero point `10`)
is `2`, not `10`. With `divisor_override = 4` the offset is taken for the one in-bounds
position, the accumulator is `0` and the code written is `10`. -/
theorem qavg_offset_counts_padding :
    (qavg_window 3 3 2 2 2 2 1 1 true none 0 0).size = 4 ∧
      qavg_window_codes (fun _ => 10) 0 1 3 3 2 2 2 2 1 1 true none 0 0 0 = [10] ∧
      (∑ p in clipped_window (0 * 2 - 1) 2 3 (0 * 2 - 1) 2 3,
        (nhwc_at (fun _ => 10) 1 3 3 0 p.1 p.2 0 - 10)) = 0 ∧
      qavg_acc_int32 (fun _ => 10) 10 0 1 3 3 2 2 2 2 1 1 true none 0 0 0 = -30 ∧
      qavg_acc_int32 (fun _ => 10) 10 0 1 3 3 2 2 2 2 1 1 true (some 4) 0 0 0 = 0 ∧
      qavg_pool2d_nhwc_kernel .quint8 (fun _ => 10) 1 1 10 10
        0 1 3 3 2 2 2 2 1 1 true none 0 0 0 = some 2 ∧
      qavg_pool2d_nhwc_kernel .quint8 (fun _ => 10) 1 1 10 10
        0 1 3 3 2 2 2 2 1 1 true (some 4) 0 0 0 = some 10 := by
  have h1 : qavg_acc_int32 (fun _ => 10) 10 0 1 3 3 2 2 2 2 1 1 true none 0 0 0 = -30 := by
    decide
  have h2 : qavg_acc_int32 (fun _ => 10) 10 0 1 3 3 2 2 2 2 1 1 true (some 4) 0 0 0
      = 0 := by decide
  have hw1 : (qavg_window 3 3 2 2 2 2 1 1 true none 0 0).divide_factor = 4 := by decide
  have hw2 : (qavg_window 3 3 2 2 2 2 1 1 true (some 4) 0 0).divide_factor = 4 := by decide
  have hm : qavg_multiplier 1 1 4 = some (1 / 4) := by
    have h := qavg_multiplier_exact 1 1 4 (by norm_num) (by norm_num) (by norm_num)
      (double_of_exact _ 1 0 (by norm_num) (by norm_num) (by norm_num)
        (abs_lt.mpr ⟨by norm_num, by norm_num⟩))
      (double_of_exact _ 1 (-2) (by norm_num) (by norm_num) (by norm_num)
        (abs_lt.mpr ⟨by norm_num, by norm_num⟩))
      (float_of_exact _ 1 (-2) (by norm_num) (by norm_num) (by norm_num)
        (abs_lt.mpr ⟨by norm_num, by norm_num⟩))
    norm_num at h
    exact h
  have hr1 : qavg_requantize .quint8 (1 / 4) 10 (-30) = some 2 := by
    have h := qavg_requantize_exact .quint8 (1 / 4) 10 (-30) (by norm_num)
      (double_of_exact _ (-15) (-1) (by norm_num) (by norm_num) (by norm_num)
        (abs_lt.mpr ⟨by norm_num, by norm_num⟩))
      (double_of_exact _ 5 (-1) (by norm_num) (by norm_num) (by norm_num)
        (abs_lt.mpr ⟨by norm_num, by norm_num⟩))
      (by norm_num [Int32Range, nearbyint])
    norm_num [nearbyint, QType.lowest, QType.highest] at h
    exact h
  have hr2 : qavg_requantize .quint8 (1 / 4) 10 0 = some 10 := by
    have h := qavg_requantize_exact .quint8 (1 / 4) 10 0 (by norm_num)
      (double_of_exact _ 0 0 (by norm_num) (by norm_num) (by norm_num)
        (abs_lt.mpr ⟨by norm_num, by norm_num⟩))
      (double_of_exact _ 10 0 (by norm_num) (by norm_num) (by norm_num)
        (abs_lt.mpr ⟨by norm_num, by norm_num⟩))
      (by norm_num [Int32Range, nearbyint])
    norm_num [nearbyint, QType.lowest, QType.highest] at h
    exact h
  refine ⟨by decide, by decide, by decide, h1, h2, ?_, ?_⟩
  · rw [qavg_kernel_uses_acc, h1, hw1, hm, Option.some_bind, hr1]
  · rw [qavg_kernel_uses_acc, h2, hw2, hm, Option.some_bind, hr2]

/-! ### Max pooling: the channel tiers -/

/-- A strided loop commutes with a projection of its accumulator that its body
commutes with. -/
theorem strided_for_map {α β : Type} (proj : α → β) (bodyA : α → Int → Option α)
    (bodyB : β → Int → Option β)
    (h : ∀ a y, (bodyA a y).map proj = bodyB (proj a) y) (stop d : Int) :
    ∀ (fuel : Nat) (y : Int) (a : α),
      (strided_for fuel y stop d bodyA a).map proj
        = strided_for fuel y stop d bodyB (proj a) := by
  intro fuel
  induction fuel with
  | zero => intro y a; rfl
  | succ fuel ih =>
    intro y a
    by_cases hy : y < stop
    · have hb := h a y
      cases hA : bodyA a y with
      | none =>
        rw [hA] at hb
        simp only [strided_for, hy, if_true, hA, ← hb, Option.map_none']
      | some a1 =>
        rw [hA] at hb
        simp only [strided_for, hy, if_true, hA, ← hb, Option.map_some']
        exact ih (y + d) a1
    · simp only [strided_for, hy, if_false, Option.map_some']

/-- A strided loop with a positive step and a body that always returns does return,
given fuel for every step. -/
theorem strided_for_total {α : Type} (stop d : Int) (hd : 1 ≤ d)
    (body : α → Int → Option α) (hbody : ∀ a y, ∃ a1, body a y = some a1) :
    ∀ (fuel : Nat) (y : Int) (a : α), (stop - y).toNat + 1 ≤ fuel →
      ∃ r, strided_for fuel y stop d body a = some r := by
  intro fuel
  induction fuel with
  | zero => intro y a h; omega
  | succ fuel ih =>
    intro y a h
    by_cases hy : y < stop
    · obtain ⟨a1, ha1⟩ := hbody a y
      obtain ⟨r, hr⟩ := ih (y + d) a1 (by omega)
      exact ⟨r, by simp only [strided_for, hy, if_true, ha1, hr]⟩
    · exact ⟨a, by simp only [strided_for, hy, if_false]⟩

/-- The scalar scan returns, given fuel for the rows and for the columns. -/
theorem qmaxpool_scan_scalar_total (fuel : Nat) (T : QType) (i_p : Int → Int)
    (iC iW h_start h_end w_start w_end dH dW c : Int) (hdH : 1 ≤ dH) (hdW : 1 ≤ dW)
    (hfH : (h_end - h_start).toNat + 1 ≤ fuel) (hfW : (w_end - w_start).toNat + 1 ≤ fuel) :
    ∃ v, qmaxpool_scan_scalar fuel T i_p iC iW h_start h_end w_start w_end dH dW c
      = some v := by
  unfold qmaxpool_scan_scalar
  refine strided_for_total h_end dH hdH _ ?_ fuel h_start T.lowest hfH
  intro a y
  exact strided_for_total w_end dW hdW _ (fun a1 x => ⟨_, rfl⟩) fuel w_start a hfW

/-- Lane `l` of the single-vector scan from channel `c` is the scalar scan of channel
`c + l`. -/
theorem qmaxpool_scan_vec_lane (fuel : Nat) (T : QType) (i_p : Int → Int)
    (iC iW h_start h_end w_start w_end dH dW c : Int) (l : Nat) :
    (qmaxpool_scan_vec fuel T i_p iC iW h_start h_end w_start w_end dH dW c).map
        (fun acc => acc l)
      = qmaxpool_scan_scalar fuel T i_p iC iW h_start h_end w_start w_end dH dW
          (c + (l : Int)) := by
  unfold qmaxpool_scan_vec qmaxpool_scan_scalar
  refine strided_for_map (fun (acc : Vec256) => acc l) _ _ ?_ h_end dH fuel h_start _
  intro a y
  refine strided_for_map (fun (acc : Vec256) => acc l) _ _ ?_ w_end dW fuel w_start a
  intro a1 x
  simp only [Option.map_some', Vec256.maximum, Vec256.loadu, add_assoc]

theorem vec4_body_lane (accs : Nat → Vec256) (p : Int → Int) (off : Int) (vec_width : Nat)
    (i l : Nat) (hi : i < 4) :
    ([0, 1, 2, 3].foldl
        (fun accs (k : Nat) =>
          Function.update accs k
            (Vec256.maximum (accs k) (Vec256.loadu p (off + (vec_width : Int) * (k : Int)))))
        accs) i l
      = max (accs i l) (p (off + (vec_width : Int) * (i : Int) + (l : Int))) := by
  interval_cases i <;>
    simp [List.foldl, Function.update, Vec256.maximum, Vec256.loadu]

/-- Lane `l` of accumulator `i` of the interleaved scan from channel `c` is the scalar
scan of channel `c + vec_width * i + l`. -/
theorem qmaxpool_scan_vec4_lane (fuel : Nat) (T : QType) (vec_width : Nat)
    (i_p : Int → Int) (iC iW h_start h_end w_start w_end dH dW c : Int) (i l : Nat)
    (hi : i < 4) :
    (qmaxpool_scan_vec4 fuel T vec_width i_p iC iW h_start h_end w_start w_end dH dW c).map
        (fun accs => accs i l)
      = qmaxpool_scan_scalar fuel T i_p iC iW h_start h_end w_start w_end dH dW
          (c + (vec_width : Int) * (i : Int) + (l : Int)) := by
  unfold qmaxpool_scan_vec4 qmaxpool_scan_scalar
  refine strided_for_map (fun (accs : Nat → Vec256) => accs i l) _ _ ?_ h_end dH fuel
    h_start _
  intro a y
  refine strided_for_map (fun (accs : Nat → Vec256) => accs i l) _ _ ?_ w_end dW fuel
    w_start a
  intro a1 x
  simp only [Option.map_some']
  rw [vec4_body_lane a1 i_p ((y * iW + x) * iC + c) vec_width i l hi]
  simp only [add_assoc]

theorem int_range_nat (c : Int) (n : Nat) :
    int_range c (c + (n : Int)) = (List.range n).map (fun (l : Nat) => c + (l : Int)) := by
  have h : (c + (n : Int) - c).toNat = n := by omega
  rw [int_range, h]

theorem int_range_append (a b c : Int) (hab : a ≤ b) (hbc : b ≤ c) :
    int_range a b ++ int_range b c = int_range a c := by
  have h : (c - a).toNat = (b - a).toNat + (c - b).toNat := by omega
  simp only [int_range]
  rw [h, List.range_add, List.map_append, List.map_map]
  congr 1
  apply List.map_congr_left
  intro i _
  simp only [Function.comp]
  push_cast
  omega

theorem int_range_self (c : Int) : int_range c c = [] := by
  simp [int_range]

theorem store_fst (vec_width : Nat) (v : Vec256) (c : Int) :
    (Vec256.store vec_width v c).map Prod.fst = int_range c (c + (vec_width : Int)) := by
  rw [int_range_nat, Vec256.store, List.map_map]
  rfl

theorem store_mem (vec_width : Nat) (v : Vec256) (c : Int) (p : Int × Int)
    (hp : p ∈ Vec256.store vec_width v c) : ∃ l : Nat, p = (c + (l : Int), v l) := by
  simp only [Vec256.store, List.mem_map] at hp
  obtain ⟨l, _, rfl⟩ := hp
  exact ⟨l, rfl⟩

/-- A channel loop whose body at `c` writes the offsets `c, …, c + step - 1`, each with
a code satisfying `P`, writes the offsets from its first `c` to its last, in order, each
once, with codes satisfying `P`; it ends at the first `c` with `iC < c + step`. -/
theorem channel_for_spec (step iC : Int) (hstep : 1 ≤ step)
    (body : Int → Option (List (Int × Int))) (P : Int × Int → Prop)
    (hbody : ∀ c, ∃ w, body c = some w ∧ w.map Prod.fst = int_range c (c + step) ∧
      ∀ p ∈ w, P p) :
    ∀ (fuel : Nat) (c : Int), (iC - c).toNat + 1 ≤ fuel →
      ∃ c1 ws, channel_for step iC body fuel c = some (c1, ws) ∧
        ws.map Prod.fst = int_range c c1 ∧ (∀ p ∈ ws, P p) ∧ c ≤ c1 ∧ iC < c1 + step ∧
        (c1 = c ∨ c1 ≤ iC) := by
  intro fuel
  induction fuel with
  | zero => intro c h; omega
  | succ fuel ih =>
    intro c h
    by_cases hc : c + step ≤ iC
    · obtain ⟨w, hw, hfst, hP⟩ := hbody c
      obtain ⟨c1, ws, hrec, hfst1, hP1, hle, hend, hor⟩ := ih (c + step) (by omega)
      refine ⟨c1, w ++ ws, ?_, ?_, ?_, by omega, hend, Or.inr (by omega)⟩
      · simp only [channel_for, hc, if_true, hw, hrec]
      · rw [List.map_append, hfst, hfst1, int_range_append c (c + step) c1 (by omega) hle]
      · intro p hp
        rcases List.mem_append.mp hp with hp | hp
        · exact hP p hp
        · exact hP1 p hp
    · refine ⟨c, [], ?_, ?_, ?_, le_refl c, by omega, Or.inl rfl⟩
      · simp only [channel_for, hc, if_false]
      · rw [int_range_self]; rfl
      · intro p hp; exact absurd hp (List.not_mem_nil p)

theorem scalar_tier_body (fuel : Nat) (T : QType) (i_p : Int → Int)
    (iC iW h_start h_end w_start w_end dH dW : Int)
    (htot : ∀ c, ∃ v, qmaxpool_scan_scalar fuel T i_p iC iW h_start h_end w_start w_end
      dH dW c = some v) (c : Int) :
    ∃ w, scalar_tier fuel T i_p iC iW h_start h_end w_start w_end dH dW c = some w ∧
      w.map Prod.fst = int_range c (c + 1) ∧
      ∀ p ∈ w, qmaxpool_scan_scalar fuel T i_p iC iW h_start h_end w_start w_end dH dW p.1
        = some p.2 := by
  obtain ⟨v, hv⟩ := htot c
  refine ⟨[(c, v)], by rw [scalar_tier, hv], ?_, ?_⟩
  · have := int_range_nat c 1
    simp only [Nat.cast_one] at this
    rw [this]
    simp [List.range_succ]
  · intro p hp
    rw [List.mem_singleton] at hp
    rw [hp]
    exact hv

theorem vector_tier_body (fuel : Nat) (T : QType) (vec_width : Nat) (i_p : Int → Int)
    (iC iW h_start h_end w_start w_end dH dW : Int)
    (htot : ∀ c, ∃ v, qmaxpool_scan_scalar fuel T i_p iC iW h_start h_end w_start w_end
      dH dW c = some v) (c : Int) :
    ∃ w, vector_tier fuel T vec_width i_p iC iW h_start h_end w_start w_end dH dW c
        = some w ∧
      w.map Prod.fst = int_range c (c + (vec_width : Int)) ∧
      ∀ p ∈ w, qmaxpool_scan_scalar fuel T i_p iC iW h_start h_end w_start w_end dH dW p.1
        = some p.2 := by
  have hlane := qmaxpool_scan_vec_lane fuel T i_p iC iW h_start h_end w_start w_end dH dW c
  unfold vector_tier
  cases hacc : qmaxpool_scan_vec fuel T i_p iC iW h_start h_end w_start w_end dH dW c with
  | none =>
    obtain ⟨v, hv⟩ := htot (c + ((0 : Nat) : Int))
    have h0 := hlane 0
    rw [hacc, hv] at h0
    exact absurd h0 (by simp)
  | some acc =>
    refine ⟨Vec256.store vec_width acc c, rfl, store_fst vec_width acc c, ?_⟩
    intro p hp
    obtain ⟨l, rfl⟩ := store_mem vec_width acc c p hp
    have hl := hlane l
    rw [hacc] at hl
    exact hl.symm

theorem interleaved_tier_body (fuel : Nat) (T : QType) (vec_width : Nat) (i_p : Int → Int)
    (iC iW h_start h_end w_start w_end dH dW : Int)
    (htot : ∀ c, ∃ v, qmaxpool_scan_scalar fuel T i_p iC iW h_start h_end w_start w_end
      dH dW c = some v) (c : Int) :
    ∃ w, interleaved_tier fuel T vec_width i_p iC iW h_start h_end w_start w_end dH dW c
        = some w ∧
      w.map Prod.fst = int_range c (c + 4 * (vec_width : Int)) ∧
      ∀ p ∈ w, qmaxpool_scan_scalar fuel T i_p iC iW h_start h_end w_start w_end dH dW p.1
        = some p.2 := by
  have hlane := qmaxpool_scan_vec4_lane fuel T vec_width i_p iC iW h_start h_end
    w_start w_end dH dW c
  unfold interleaved_tier
  cases haccs : qmaxpool_scan_vec4 fuel T vec_width i_p iC iW h_start h_end w_start w_end
      dH dW c with
  | none =>
    obtain ⟨v, hv⟩ := htot (c + (vec_width : Int) * ((0 : Nat) : Int) + ((0 : Nat) : Int))
    have h0 := hlane 0 0 (by decide)
    rw [haccs, hv] at h0
    exact absurd h0 (by simp)
  | some accs =>
    refine ⟨_, rfl, ?_, ?_⟩
    · have hvw : (0 : Int) ≤ (vec_width : Int) := Int.natCast_nonneg _
      simp only [List.flatMap_cons, List.flatMap_nil, List.append_nil, List.map_append,
        store_fst]
      have e0 : c + (vec_width : Int) * ((0 : Nat) : Int) = c := by simp
      have e1 : c + (vec_width : Int) * ((1 : Nat) : Int) + (vec_width : Int)
          = c + (vec_width : Int) * ((2 : Nat) : Int) := by push_cast; ring
      have e2 : c + (vec_width : Int) * ((2 : Nat) : Int) + (vec_width : Int)
          = c + (vec_width : Int) * ((3 : Nat) : Int) := by push_cast; ring
      have e3 : c + (vec_width : Int) * ((3 : Nat) : Int) + (vec_width : Int)
          = c + 4 * (vec_width : Int) := by push_cast; ring
      have e4 : c + (vec_width : Int) = c + (vec_width : Int) * ((1 : Nat) : Int) := by simp
      rw [e0, e1, e2, e3, e4,
        int_range_append _ _ _ (by push_cast; omega) (by push_cast; omega),
        int_range_append _ _ _ (by push_cast; omega) (by push_cast; omega),
        int_range_append _ _ _ (by push_cast; omega) (by push_cast; omega)]
    · intro p hp
      simp only [List.mem_flatMap] at hp
      obtain ⟨i, hi, hp⟩ := hp
      have hi4 : i < 4 := by
        simp only [List.mem_cons, List.mem_singleton, List.not_mem_nil, or_false] at hi
        omega
      obtain ⟨l, rfl⟩ := store_mem vec_width (accs i) _ p hp
      have hl := hlane i l hi4
      rw [haccs] at hl
      exact hl.symm

/-- C11. Max pooling channel tiers (`qmaxpool_2d_nhwc_kernel`): for every channel count
`iC` and every vector width `≥ 1` (and `dH, dW ≥ 1`, with enough fuel), the 4x-interleaved
vector tier, the single-vector tier and the scalar remainder tier together write the
channels `0, 1, …, iC - 1`, each exactly once, and the code written for a channel is the
one the scan of the scalar tier returns for that channel; the vector maximum is
lane-wise. -/
theorem qmaxpool_tiers_refine (T : QType) (vec_width : Nat) (hvw : 1 ≤ vec_width)
    (idata : Int → Int) (iC iH iW kH kW sH sW pH pW dH dW b row col : Int)
    (hdH : 1 ≤ dH) (hdW : 1 ≤ dW) (fuel : Nat)
    (hfuel : qmaxpool_tiers_fuel iC iH iW sH sW pH pW row col ≤ fuel) :
    ∃ writes,
      qmaxpool_2d_nhwc_tiers fuel T vec_width idata iC iH iW kH kW sH sW pH pW dH dW
          b row col = some writes ∧
        writes.map Prod.fst = int_range 0 iC ∧
        ∀ p ∈ writes,
          qmaxpool_2d_nhwc_kernel fuel T idata iC iH iW kH kW sH sW pH pW dH dW
            b row col p.1 = some p.2 := by
  unfold qmaxpool_tiers_fuel qmaxpool_fuel at hfuel
  obtain ⟨nh, hclipH, hh0, -⟩ := clip_start_spec dH hdH fuel (row * sH - pH) (by omega)
  obtain ⟨nw, hclipW, hw0, -⟩ := clip_start_spec dW hdW fuel (col * sW - pW) (by omega)
  have hleH : min (row * sH - pH + (kH - 1) * dH + 1) iH ≤ iH := min_le_right _ _
  have hleW : min (col * sW - pW + (kW - 1) * dW + 1) iW ≤ iW := min_le_right _ _
  have htot : ∀ c, ∃ v, qmaxpool_scan_scalar fuel T
      (fun off => idata (b * iW * iH * iC + off)) iC iW
      (row * sH - pH + nh * dH) (min (row * sH - pH + (kH - 1) * dH + 1) iH)
      (col * sW - pW + nw * dW) (min (col * sW - pW + (kW - 1) * dW + 1) iW)
      dH dW c = some v := fun c =>
    qmaxpool_scan_scalar_total fuel T (fun off => idata (b * iW * iH * iC + off)) iC iW
      (row * sH - pH + nh * dH) (min (row * sH - pH + (kH - 1) * dH + 1) iH)
      (col * sW - pW + nw * dW) (min (col * sW - pW + (kW - 1) * dW + 1) iW)
      dH dW c hdH hdW (by omega) (by omega)
  have hkernel : ∀ c, qmaxpool_2d_nhwc_kernel fuel T idata iC iH iW kH kW sH sW pH pW
      dH dW b row col c
      = qmaxpool_scan_scalar fuel T (fun off => idata (b * iW * iH * iC + off)) iC iW
        (row * sH - pH + nh * dH) (min (row * sH - pH + (kH - 1) * dH + 1) iH)
        (col * sW - pW + nw * dW) (min (col * sW - pW + (kW - 1) * dW + 1) iW)
        dH dW c := by
    intro c
    simp only [qmaxpool_2d_nhwc_kernel, hclipH, hclipW, qmaxpool_scan_scalar]
  have hvwI : (1 : Int) ≤ (vec_width : Int) := by exact_mod_cast hvw
  have hb1 := interleaved_tier_body fuel T vec_width
    (fun off => idata (b * iW * iH * iC + off))
    iC iW (row * sH - pH + nh * dH) (min (row * sH - pH + (kH - 1) * dH + 1) iH)
    (col * sW - pW + nw * dW) (min (col * sW - pW + (kW - 1) * dW + 1) iW) dH dW htot
  have hb2 := vector_tier_body fuel T vec_width
    (fun off => idata (b * iW * iH * iC + off))
    iC iW (row * sH - pH + nh * dH) (min (row * sH - pH + (kH - 1) * dH + 1) iH)
    (col * sW - pW + nw * dW) (min (col * sW - pW + (kW - 1) * dW + 1) iW) dH dW htot
  have hb3 := scalar_tier_body fuel T
    (fun off => idata (b * iW * iH * iC + off))
    iC iW (row * sH - pH + nh * dH) (min (row * sH - pH + (kH - 1) * dH + 1) iH)
    (col * sW - pW + nw * dW) (min (col * sW - pW + (kW - 1) * dW + 1) iW) dH dW htot
  have hs1 : (1 : Int) ≤ 4 * (vec_width : Int) := by omega
  have hf1 : (iC - 0).toNat + 1 ≤ fuel := by omega
  obtain ⟨c1, w1, hrun1, hfst1, hP1, hle1, -, hor1⟩ :=
    channel_for_spec (4 * (vec_width : Int)) iC hs1 _ _ hb1 fuel 0 hf1
  have hf2 : (iC - c1).toNat + 1 ≤ fuel := by omega
  obtain ⟨c2, w2, hrun2, hfst2, hP2, hle2, -, hor2⟩ :=
    channel_for_spec (vec_width : Int) iC hvwI _ _ hb2 fuel c1 hf2
  have hf3 : (iC - c2).toNat + 1 ≤ fuel := by omega
  obtain ⟨c3, w3, hrun3, hfst3, hP3, hle3, hend3, hor3⟩ :=
    channel_for_spec 1 iC (le_refl 1) _ _ hb3 fuel c2 hf3
  refine ⟨w1 ++ w2 ++ w3, ?_, ?_, ?_⟩
  · simp only [qmaxpool_2d_nhwc_tiers, hclipH, hclipW, hrun1, hrun2, hrun3]
  · rw [List.map_append, List.map_append, hfst1, hfst2, hfst3,
      int_range_append 0 c1 c2 hle1 hle2, int_range_append 0 c2 c3 (by omega) hle3]
    by_cases hiC : 0 ≤ iC
    · have : c3 = iC := by omega
      rw [this]
    · have h3 : c3 = 0 := by omega
      rw [h3, int_range_self]
      simp only [int_range]
      have : (iC - 0).toNat = 0 := by omega
      rw [this]
      rfl
  · intro p hp
    rw [hkernel]
    rcases List.mem_append.mp hp with hp | hp
    · rcases List.mem_append.mp hp with hp | hp
      · exact hP1 p hp
      · exact hP2 p hp
    · exact hP3 p hp

/-- The theorem `qmaxpool_tiers_refine` with vector width `2` and `11` channels on a 2x2
`quint8` input with codes `(off * 7) % 10` and a 2x2 window. -/
theorem qmaxpool_tiers_refine_witness :
    1 ≤ 2 ∧ (1 : Int) ≤ 1 ∧ qmaxpool_tiers_fuel 11 2 2 1 1 0 0 0 0 ≤ 20 ∧
      ∃ writes,
        qmaxpool_2d_nhwc_tiers 20 .quint8 2 (fun off => (off * 7) % 10)
            11 2 2 2 2 1 1 0 0 1 1 0 0 0 = some writes ∧
          writes.map Prod.fst = int_range 0 11 ∧
          ∀ p ∈ writes,
            qmaxpool_2d_nhwc_kernel 20 .quint8 (fun off => (off * 7) % 10)
              11 2 2 2 2 1 1 0 0 1 1 0 0 0 p.1 = some p.2 :=
  ⟨by decide, by decide, by decide,
    qmaxpool_tiers_refine .quint8 2 (by decide) (fun off => (off * 7) % 10)
      11 2 2 2 2 1 1 0 0 1 1 0 0 0 (by decide) (by decide) 20 (by decide)⟩

/-- The three tiers evaluated with vector width `2` and `11` channels on a 2x2 input
with codes `(off * 7) % 10` and a 2x2 window: the interleaved tier writes the channels
`0..7`, the single-vector tier `8, 9`, the scalar tier `10`. -/
theorem qmaxpool_tiers_eval_example :
    qmaxpool_2d_nhwc_tiers 20 .quint8 2 (fun off => (off * 7) % 10) 11 2 2 2 2 1 1 0 0 1 1
        0 0 0
      = some [(0, 7), (1, 8), (2, 8), (3, 8), (4, 9), (5, 9), (6, 9), (7, 9), (8, 7),
          (9, 7), (10, 7)] ∧
      qmaxpool_2d_nhwc_kernel 20 .quint8 (fun off => (off * 7) % 10) 11 2 2 2 2 1 1 0 0 1 1
        0 0 0 9 = some 7 := by
  decide

/-! ### Average pooling: the divisor is positive -/

/-- C21, as amended. Average pooling divisor is positive: in `qavg_pool2d_nhwc_kernel`
with no divisor override, if `0 ≤ padH < kH` and `0 ≤ padW < kW` (so `kH, kW ≥ 1`), the
input sizes are at least `1`, the output index times the stride is not negative on each axis
and the window origin satisfies `oh*dH - padH < inputHeight` and
`ow*dW - padW < inputWidth`, then the clipped window is not empty (`hstart < hend` and
`wstart < wend` after clipping) and `divide_factor ≥ 1` for both values of
`count_include_pad`. -/
theorem qavg_divisor_positive (inputWidth inputHeight kW kH dW dH padW padH oh ow : Int)
    (hpadH0 : 0 ≤ padH) (hpadH : padH < kH) (hpadW0 : 0 ≤ padW) (hpadW : padW < kW)
    (hiH : 1 ≤ inputHeight) (hiW : 1 ≤ inputWidth)
    (hoh : 0 ≤ oh * dH) (how : 0 ≤ ow * dW)
    (horH : oh * dH - padH < inputHeight) (horW : ow * dW - padW < inputWidth)
    (count_include_pad : Bool) :
    (qavg_window inputWidth inputHeight kW kH dW dH padW padH count_include_pad none
        oh ow).hstart
      < (qavg_window inputWidth inputHeight kW kH dW dH padW padH count_include_pad none
        oh ow).hend ∧
    (qavg_window inputWidth inputHeight kW kH dW dH padW padH count_include_pad none
        oh ow).wstart
      < (qavg_window inputWidth inputHeight kW kH dW dH padW padH count_include_pad none
        oh ow).wend ∧
    1 ≤ (qavg_window inputWidth inputHeight kW kH dW dH padW padH count_include_pad none
        oh ow).divide_factor := by
  obtain ⟨h1, h2, h3, h4⟩ := qavg_window_bounds inputWidth inputHeight kW kH dW dH padW padH
    count_include_pad none oh ow hpadH0 hpadW0
  have hH : max (oh * dH - padH) 0 < min (oh * dH - padH + kH) inputHeight :=
    max_lt (lt_min (by omega) horH) (lt_min (by omega) (by omega))
  have hW : max (ow * dW - padW) 0 < min (ow * dW - padW + kW) inputWidth :=
    max_lt (lt_min (by omega) horW) (lt_min (by omega) (by omega))
  refine ⟨by rw [h1, h2]; exact hH, by rw [h3, h4]; exact hW, ?_⟩
  cases count_include_pad with
  | false =>
    rw [qavg_divisor_exclude_pad _ _ _ _ _ _ _ _ _ _ hpadH0 hpadW0]
    have a1 : 1 ≤ min (oh * dH - padH + kH) inputHeight - max (oh * dH - padH) 0 := by
      omega
    have a2 : 1 ≤ min (ow * dW - padW + kW) inputWidth - max (ow * dW - padW) 0 := by
      omega
    nlinarith
  | true =>
    rw [qavg_divisor_include_pad]
    have a1 : oh * dH - padH < min (oh * dH - padH + kH) (inputHeight + padH) :=
      lt_min (by omega) (by omega)
    have a2 : ow * dW - padW < min (ow * dW - padW + kW) (inputWidth + padW) :=
      lt_min (by omega) (by omega)
    have b1 : 1 ≤ min (oh * dH - padH + kH) (inputHeight + padH) - (oh * dH - padH) := by
      omega
    have b2 : 1 ≤ min (ow * dW - padW + kW) (inputWidth + padW) - (ow * dW - padW) := by
      omega
    nlinarith

/-- The theorem `qavg_divisor_positive` at a 3x3 input, a 2x2 kernel, stride 2, padding
1, `count_include_pad = false` and the output element `(0, 0)`, whose clipped window is the
one coordinate `(0, 0)`. -/
theorem qavg_divisor_positive_witness :
    (qavg_window 3 3 2 2 2 2 1 1 false none 0 0).hstart
        < (qavg_window 3 3 2 2 2 2 1 1 false none 0 0).hend ∧
      (qavg_window 3 3 2 2 2 2 1 1 false none 0 0).wstart
        < (qavg_window 3 3 2 2 2 2 1 1 false none 0 0).wend ∧
      1 ≤ (qavg_window 3 3 2 2 2 2 1 1 false none 0 0).divide_factor :=
  qavg_divisor_positive 3 3 2 2 2 2 1 1 0 0 (by decide) (by decide) (by decide)
    (by decide) (by decide) (by decide) (by decide) (by decide) (by decide) (by decide)
    false

/-- C21 as stated fails without a bound on the input size and on the origin from below.
On an input of height `0` and width `3`, with a 2x2 kernel, stride 2, padding 1 and the
output element `(0, 0)`, every stated condition holds (`kH, kW ≥ 1`, `0 ≤ pad < k`, origin
`-1` below the input size), but the clipped rows are `hstart = hend = 0` and, without
`count_include_pad`, `divide_factor = 0`. And on a 5x5 input with a 1x1 kernel, no
padding and the stride `-3` at the output index `1`, the origin `-3` is below the input
size, the clipped rows are `hstart = 0`, `hend = -2`, and `divide_factor = -2`. -/
theorem qavg_divisor_zero_on_empty_input :
    ((1 : Int) ≤ 2 ∧ (0 : Int) ≤ 1 ∧ (1 : Int) < 2 ∧ (0 : Int) * 2 - 1 < 0 ∧
        (0 : Int) * 2 - 1 < 3) ∧
      (qavg_window 3 0 2 2 2 2 1 1 false none 0 0).hstart = 0 ∧
      (qavg_window 3 0 2 2 2 2 1 1 false none 0 0).hend = 0 ∧
      (qavg_window 3 0 2 2 2 2 1 1 false none 0 0).divide_factor = 0 ∧
      ((1 : Int) ≤ 1 ∧ (0 : Int) ≤ 0 ∧ (0 : Int) < 1 ∧ (1 : Int) * (-3) - 0 < 5 ∧
        (0 : Int) * 1 - 0 < 5) ∧
      (qavg_window 5 5 1 1 1 (-3) 0 0 false none 1 0).hstart = 0 ∧
      (qavg_window 5 5 1 1 1 (-3) 0 0 false none 1 0).hend = -2 ∧
      (qavg_window 5 5 1 1 1 (-3) 0 0 false none 1 0).divide_factor = -2 := by
  decide

/-! ### Max pooling: termination and the coordinates read -/

/-- The value the start-clipping loop ends with: the start itself when that is not
negative, its residue modulo the step otherwise; no smaller value `start + m*d ≥ 0`
with `m ≥ 0` exists. -/
theorem clip_start_value (d : Int) (hd : 1 ≤ d) (fuel : Nat) (s : Int)
    (hfuel : (-s).toNat + 1 ≤ fuel) :
    ∃ r, clip_start fuel s d = some r ∧ 0 ≤ r ∧
      r = (if s < 0 then s % d else s) ∧
      ∀ m : Nat, 0 ≤ s + m * d → r ≤ s + m * d := by
  obtain ⟨n, hrun, h0, hmin⟩ := clip_start_spec d hd fuel s hfuel
  refine ⟨s + n * d, hrun, h0, ?_, ?_⟩
  · by_cases hs : s < 0
    · rw [if_pos hs]
      have hn : 1 ≤ n := by
        by_contra hn0
        have : n = 0 := by omega
        subst this
        simp at h0
        omega
      have hprev := hmin (n - 1) (by omega)
      have hcast : ((n - 1 : Nat) : Int) = (n : Int) - 1 := by omega
      rw [hcast] at hprev
      have hlt : s + n * d < d := by
        have e : s + ((n : Int) - 1) * d = s + n * d - d := by ring
        omega
      rw [← Int.add_mul_emod_self, Int.emod_eq_of_lt h0 hlt]
    · rw [if_neg hs]
      have hn : n = 0 := by
        by_contra hn0
        have := hmin 0 (by omega)
        simp at this
        omega
      subst hn
      simp
  · intro m hm
    by_cases hmn : m < n
    · have := hmin m hmn
      omega
    · have hle : (n : Int) ≤ (m : Int) := by omega
      have : (n : Int) * d ≤ (m : Int) * d := mul_le_mul_of_nonneg_right hle (by omega)
      omega

/-- A property of the accumulator that the body of a strided loop keeps at every value
the loop variable takes is kept by the loop. -/
theorem strided_for_invariant {α : Type} (Inv : α → Prop) (lo stop d : Int) (hd : 0 ≤ d)
    (body : α → Int → Option α)
    (hbody : ∀ a y a1, lo ≤ y → y < stop → Inv a → body a y = some a1 → Inv a1) :
    ∀ (fuel : Nat) (y : Int) (a r : α), lo ≤ y → Inv a →
      strided_for fuel y stop d body a = some r → Inv r := by
  intro fuel
  induction fuel with
  | zero =>
    intro y a r _ _ h
    simp [strided_for] at h
  | succ fuel ih =>
    intro y a r hlo hinv h
    by_cases hy : y < stop
    · cases hb : body a y with
      | none => simp [strided_for, hy, hb] at h
      | some a1 =>
        simp only [strided_for, hy, if_true, hb] at h
        exact ih (y + d) a1 r (by omega) (hbody a y a1 hlo hy hinv hb) h
    · simp only [strided_for, hy, if_false, Option.some.injEq] at h
      rw [← h]
      exact hinv

/-- The traced scan computes the maximum of the scalar scan. -/
theorem qmaxpool_scan_traced_fst (fuel : Nat) (T : QType) (i_p : Int → Int)
    (iC iW h_start h_end w_start w_end dH dW c : Int) :
    (qmaxpool_scan_traced fuel T i_p iC iW h_start h_end w_start w_end dH dW c).map Prod.fst
      = qmaxpool_scan_scalar fuel T i_p iC iW h_start h_end w_start w_end dH dW c := by
  unfold qmaxpool_scan_traced qmaxpool_scan_scalar
  refine strided_for_map (Prod.fst : Int × List (Int × Int) → Int) _ _ ?_ h_end dH fuel
    h_start _
  intro a y
  refine strided_for_map (Prod.fst : Int × List (Int × Int) → Int) _ _ ?_ w_end dW fuel
    w_start a
  intro a1 x
  simp only [Option.map_some']

/-- Every coordinate the traced scan records lies between the clipped starts and the
window ends. -/
theorem qmaxpool_scan_traced_reads (fuel : Nat) (T : QType) (i_p : Int → Int)
    (iC iW h_start h_end w_start w_end dH dW c : Int) (hdH : 1 ≤ dH) (hdW : 1 ≤ dW)
    (r : Int × List (Int × Int))
    (hr : qmaxpool_scan_traced fuel T i_p iC iW h_start h_end w_start w_end dH dW c
      = some r) :
    ∀ p ∈ r.2, h_start ≤ p.1 ∧ p.1 < h_end ∧ w_start ≤ p.2 ∧ p.2 < w_end := by
  unfold qmaxpool_scan_traced at hr
  refine strided_for_invariant
    (fun (acc : Int × List (Int × Int)) =>
      ∀ p ∈ acc.2, h_start ≤ p.1 ∧ p.1 < h_end ∧ w_start ≤ p.2 ∧ p.2 < w_end)
    h_start h_end dH (by omega) _ ?_ fuel h_start (T.lowest, []) r (le_refl _) ?_ hr
  · intro a y a1 hylo hy hinv ha1
    refine strided_for_invariant
      (fun (acc : Int × List (Int × Int)) =>
        ∀ p ∈ acc.2, h_start ≤ p.1 ∧ p.1 < h_end ∧ w_start ≤ p.2 ∧ p.2 < w_end)
      w_start w_end dW (by omega) _ ?_ fuel w_start a a1 (le_refl _) hinv ha1
    intro a2 x a3 hxlo hx hinv2 ha3
    simp only [Option.some.injEq] at ha3
    rw [← ha3]
    intro p hp
    rcases List.mem_append.mp hp with hp | hp
    · exact hinv2 p hp
    · rw [List.mem_singleton] at hp
      rw [hp]
      exact ⟨hylo, hy, hxlo, hx⟩
  · intro p hp
    exact absurd hp (List.not_mem_nil p)

/-- C22, as amended. In `qmaxpool_2d_nhwc_kernel`, for every geometry with `dH ≥ 1` and
`dW ≥ 1`, the two start-clipping loops and the dilated window loops terminate (with
`qmaxpool_fuel` steps of fuel they return), the kernel writes the maximum `v` of the
coordinates `reads` it read, and every coordinate read satisfies `0 ≤ y < iH` and
`0 ≤ x < iW`. The clipped start is not negative, is congruent to `row*sH - pH` modulo
`dH`, and is the smallest value `≥ 0` among `row*sH - pH + m*dH` with `m ≥ 0`: it is
`row*sH - pH` itself when that is not negative, and only when `row*sH - pH < dH` is it
the smallest value `≥ 0` of the congruence class, `(row*sH - pH) mod dH`. Likewise for
the width. Integers are unbounded here (the code uses `int64_t`). -/
theorem qmaxpool_loops_terminate (T : QType) (idata : Int → Int)
    (iC iH iW kH kW sH sW pH pW dH dW b row col c : Int)
    (hdH : 1 ≤ dH) (hdW : 1 ≤ dW)
    (fuel : Nat) (hfuel : qmaxpool_fuel iH iW sH sW pH pW row col ≤ fuel) :
    ∃ (h_start w_start v : Int) (reads : List (Int × Int)),
      clip_start fuel (row * sH - pH) dH = some h_start ∧
      clip_start fuel (col * sW - pW) dW = some w_start ∧
      qmaxpool_2d_nhwc_traced fuel T idata iC iH iW kH kW sH sW pH pW dH dW b row col c
        = some (v, reads) ∧
      qmaxpool_2d_nhwc_kernel fuel T idata iC iH iW kH kW sH sW pH pW dH dW b row col c
        = some v ∧
      (0 ≤ h_start ∧ h_start % dH = (row * sH - pH) % dH ∧
        (0 ≤ row * sH - pH → h_start = row * sH - pH) ∧
        (row * sH - pH < dH → h_start = (row * sH - pH) % dH) ∧
        ∀ m : Nat, 0 ≤ row * sH - pH + m * dH → h_start ≤ row * sH - pH + m * dH) ∧
      (0 ≤ w_start ∧ w_start % dW = (col * sW - pW) % dW ∧
        (0 ≤ col * sW - pW → w_start = col * sW - pW) ∧
        (col * sW - pW < dW → w_start = (col * sW - pW) % dW) ∧
        ∀ m : Nat, 0 ≤ col * sW - pW + m * dW → w_start ≤ col * sW - pW + m * dW) ∧
      ∀ p ∈ reads, 0 ≤ p.1 ∧ p.1 < iH ∧ 0 ≤ p.2 ∧ p.2 < iW := by
  have hfH : (-(row * sH - pH)).toNat + 1 ≤ fuel := by
    unfold qmaxpool_fuel at hfuel
    have : -(row * sH - pH) = pH - row * sH := by ring
    rw [this]
    omega
  have hfW : (-(col * sW - pW)).toNat + 1 ≤ fuel := by
    unfold qmaxpool_fuel at hfuel
    have : -(col * sW - pW) = pW - col * sW := by ring
    rw [this]
    omega
  obtain ⟨hs, hclipH, hs0, hsval, hsmin⟩ := clip_start_value dH hdH fuel _ hfH
  obtain ⟨ws, hclipW, ws0, wsval, wsmin⟩ := clip_start_value dW hdW fuel _ hfW
  have hsH : (min (row * sH - pH + (kH - 1) * dH + 1) iH - hs).toNat + 1 ≤ fuel := by
    unfold qmaxpool_fuel at hfuel
    have := min_le_right (row * sH - pH + (kH - 1) * dH + 1) iH
    omega
  have hsW : (min (col * sW - pW + (kW - 1) * dW + 1) iW - ws).toNat + 1 ≤ fuel := by
    unfold qmaxpool_fuel at hfuel
    have := min_le_right (col * sW - pW + (kW - 1) * dW + 1) iW
    omega
  obtain ⟨v, hv⟩ := qmaxpool_scan_scalar_total fuel T
    (fun off => idata (b * iW * iH * iC + off)) iC iW hs
    (min (row * sH - pH + (kH - 1) * dH + 1) iH) ws
    (min (col * sW - pW + (kW - 1) * dW + 1) iW) dH dW c hdH hdW hsH hsW
  have hfst := qmaxpool_scan_traced_fst fuel T
    (fun off => idata (b * iW * iH * iC + off)) iC iW hs
    (min (row * sH - pH + (kH - 1) * dH + 1) iH) ws
    (min (col * sW - pW + (kW - 1) * dW + 1) iW) dH dW c
  rw [hv] at hfst
  obtain ⟨r, hr, hrv⟩ := Option.map_eq_some'.mp hfst
  have hreads := qmaxpool_scan_traced_reads fuel T
    (fun off => idata (b * iW * iH * iC + off)) iC iW hs
    (min (row * sH - pH + (kH - 1) * dH + 1) iH) ws
    (min (col * sW - pW + (kW - 1) * dW + 1) iW) dH dW c hdH hdW r hr
  have hclass : ∀ (s d r0 : Int), 1 ≤ d → r0 = (if s < 0 then s % d else s) →
      r0 % d = s % d ∧ (0 ≤ s → r0 = s) ∧ (s < d → r0 = s % d) := by
    intro s d r0 hd hr0
    by_cases hneg : s < 0
    · rw [if_pos hneg] at hr0
      refine ⟨?_, ?_, ?_⟩
      · rw [hr0, Int.emod_emod_of_dvd s (dvd_refl d)]
      · intro h; omega
      · intro _; exact hr0
    · rw [if_neg hneg] at hr0
      refine ⟨by rw [hr0], fun _ => hr0, ?_⟩
      intro hlt
      rw [hr0, Int.emod_eq_of_lt (by omega) hlt]
  obtain ⟨hH1, hH2, hH3⟩ := hclass _ dH hs hdH hsval
  obtain ⟨hW1, hW2, hW3⟩ := hclass _ dW ws hdW wsval
  refine ⟨hs, ws, v, r.2, hclipH, hclipW, ?_, ?_, ⟨hs0, hH1, hH2, hH3, hsmin⟩,
    ⟨ws0, hW1, hW2, hW3, wsmin⟩, ?_⟩
  · simp only [qmaxpool_2d_nhwc_traced, hclipH, hclipW]
    rw [hr, ← hrv]
  · simp only [qmaxpool_2d_nhwc_kernel, hclipH, hclipW]
    exact hv
  · intro p hp
    obtain ⟨h1, h2, h3, h4⟩ := hreads p hp
    have := min_le_right (row * sH - pH + (kH - 1) * dH + 1) iH
    have := min_le_right (col * sW - pW + (kW - 1) * dW + 1) iW
    exact ⟨by omega, by omega, by omega, by omega⟩

/-- The theorem `qmaxpool_loops_terminate` at a 4x4 single-channel `quint8` input with a
3x3 window, padding 3 and dilation 2, where both clipping loops run twice. -/
theorem qmaxpool_loops_terminate_witness :
    (1 : Int) ≤ 2 ∧ (1 : Int) ≤ 2 ∧ qmaxpool_fuel 4 4 1 1 3 3 0 0 ≤ 15 ∧
      ∃ (h_start w_start v : Int) (reads : List (Int × Int)),
        clip_start 15 (0 * 1 - 3) 2 = some h_start ∧
        clip_start 15 (0 * 1 - 3) 2 = some w_start ∧
        qmaxpool_2d_nhwc_traced 15 .quint8 (fun off => (off * 7) % 10)
          1 4 4 3 3 1 1 3 3 2 2 0 0 0 0 = some (v, reads) ∧
        qmaxpool_2d_nhwc_kernel 15 .quint8 (fun off => (off * 7) % 10)
          1 4 4 3 3 1 1 3 3 2 2 0 0 0 0 = some v ∧
        (0 ≤ h_start ∧ h_start % 2 = (0 * 1 - 3) % 2 ∧
          ((0 : Int) ≤ 0 * 1 - 3 → h_start = 0 * 1 - 3) ∧
          ((0 : Int) * 1 - 3 < 2 → h_start = (0 * 1 - 3) % 2) ∧
          ∀ m : Nat, (0 : Int) ≤ 0 * 1 - 3 + m * 2 → h_start ≤ 0 * 1 - 3 + m * 2) ∧
        (0 ≤ w_start ∧ w_start % 2 = (0 * 1 - 3) % 2 ∧
          ((0 : Int) ≤ 0 * 1 - 3 → w_start = 0 * 1 - 3) ∧
          ((0 : Int) * 1 - 3 < 2 → w_start = (0 * 1 - 3) % 2) ∧
          ∀ m : Nat, (0 : Int) ≤ 0 * 1 - 3 + m * 2 → w_start ≤ 0 * 1 - 3 + m * 2) ∧
        ∀ p ∈ reads, 0 ≤ p.1 ∧ p.1 < 4 ∧ 0 ≤ p.2 ∧ p.2 < 4 :=
  ⟨by decide, by decide, by decide,
    qmaxpool_loops_terminate .quint8 (fun off => (off * 7) % 10)
      1 4 4 3 3 1 1 3 3 2 2 0 0 0 0 (by decide) (by decide) 15 (by decide)⟩

/-- C22 as stated fails where the unclipped start is at least the dilation. For output
row `5` with stride `1`, padding `0` and dilation `2` on an input of height `8` and a
window of height `2`, `row*sH - pH = 5`: the clipping loop does not run, the clipped
start is `5` and the rows read are `5` and `7`, although `1` is not negative, is
congruent to `5` modulo `2` and is smaller than `5`. -/
theorem clip_start_not_least_residue :
    (1 : Int) ≤ 2 ∧ (1 : Int) ≤ 1 ∧
      clip_start (qmaxpool_fuel 8 8 1 1 0 0 5 0) (5 * 1 - 0) 2 = some 5 ∧
      qmaxpool_2d_nhwc_traced (qmaxpool_fuel 8 8 1 1 0 0 5 0) .quint8
        (fun off => off % 10) 1 8 8 2 1 1 1 0 0 2 1 0 5 0 0
        = some (6, [(5, 0), (7, 0)]) ∧
      (0 : Int) ≤ 1 ∧ (1 : Int) % 2 = (5 * 1 - 0) % 2 ∧ (1 : Int) < 5 := by
  decide

/-! ### Average pooling: the channels of one output element -/

/-- A channel loop from `c` whose body at every `c1` it reaches writes the offsets
`c1, …, c1 + step - 1`, each with a code satisfying `P`: it ends at `c + k * step`, the
first such value with `iC < c + k * step + step`, and has written the offsets from `c` to
there, in order, each once, with codes satisfying `P`. -/
theorem channel_for_range (step iC : Int) (hstep : 1 ≤ step)
    (body : Int → Option (List (Int × Int))) (P : Int × Int → Prop) (c0 : Int)
    (hbody : ∀ c, c0 ≤ c → c + step ≤ iC →
      ∃ w, body c = some w ∧ w.map Prod.fst = int_range c (c + step) ∧ ∀ p ∈ w, P p) :
    ∀ (fuel : Nat) (c : Int), c0 ≤ c → (iC - c).toNat + 1 ≤ fuel →
      ∃ c1 ws, channel_for step iC body fuel c = some (c1, ws) ∧
        ws.map Prod.fst = int_range c c1 ∧ (∀ p ∈ ws, P p) ∧ c ≤ c1 ∧ iC < c1 + step ∧
        (c1 = c ∨ c1 ≤ iC) ∧ ∃ k : Nat, c1 = c + (k : Int) * step := by
  intro fuel
  induction fuel with
  | zero => intro c _ h; omega
  | succ fuel ih =>
    intro c hc0 h
    by_cases hc : c + step ≤ iC
    · obtain ⟨w, hw, hfst, hP⟩ := hbody c hc0 hc
      obtain ⟨c1, ws, hrec, hfst1, hP1, hle, hend, hor, k, hk⟩ :=
        ih (c + step) (by omega) (by omega)
      refine ⟨c1, w ++ ws, ?_, ?_, ?_, by omega, hend, Or.inr (by omega), k + 1, ?_⟩
      · simp only [channel_for, hc, if_true, hw, hrec]
      · rw [List.map_append, hfst, hfst1, int_range_append c (c + step) c1 (by omega) hle]
      · intro p hp
        rcases List.mem_append.mp hp with hp | hp
        · exact hP p hp
        · exact hP1 p hp
      · rw [hk]
        push_cast
        ring
    · refine ⟨c, [], ?_, ?_, ?_, le_refl c, by omega, Or.inl rfl, 0, by simp⟩
      · simp only [channel_for, hc, if_false]
      · rw [int_range_self]; rfl
      · intro p hp; exact absurd hp (List.not_mem_nil p)

/-- A lane of a fold whose step acts on each lane by itself is the fold of that lane. -/
theorem foldl_lane {β : Type} (g : Nat → Int → β → Int) (xs : List β) (init : Vec256)
    (l : Nat) :
    (xs.foldl (fun (acc : Vec256) x => fun l => g l (acc l) x) init) l
      = xs.foldl (fun a x => g l a x) (init l) := by
  induction xs generalizing init with
  | nil => rfl
  | cons x xs ih =>
    simp only [List.foldl_cons]
    rw [ih]

/-- Lane `l` of the accumulator of `do_avg_pool_on_AVX2` at channel `c`, as
`qavg_pool2d_nhwc_kernel` calls it, is the accumulator of the remainder loop for the
channel `c + l`. -/
theorem avx2_accumulate_lane (i_p : Int → Int) (c nInputPlane inputWidth : Int)
    (hstart hend wstart wend init : Int) (l : Nat) :
    avx2_accumulate i_p c nInputPlane hstart hend wstart wend 1 inputWidth 1 init l
      = avg_accumulate i_p inputWidth nInputPlane (c + (l : Int))
          hstart hend wstart wend init := by
  unfold avx2_accumulate avg_accumulate
  have hinner : ∀ (ih : Int) (acc : Vec256),
      (int_range wstart wend).foldl
          (fun (acc : Vec256) iw =>
            let tcntr := ih * inputWidth + iw * 1
            let vals := Vec256.loadu i_p (tcntr * nInputPlane + c * 1)
            fun (l : Nat) => wrap_int32 (acc l + vals l))
          acc
        = (int_range wstart wend).foldl
          (fun (acc : Vec256) iw => fun (l : Nat) =>
            wrap_int32 (acc l
              + i_p ((ih * inputWidth + iw) * nInputPlane + (c + (l : Int)))))
          acc := by
    intro ih acc
    congr 1
    funext acc iw l
    simp only [Vec256.loadu, mul_one]
    congr 3
    ring
  have hstep : (fun (acc : Vec256) (ih : Int) =>
        (int_range wstart wend).foldl
          (fun (acc : Vec256) iw => fun (l : Nat) =>
            wrap_int32 (acc l
              + i_p ((ih * inputWidth + iw) * nInputPlane + (c + (l : Int)))))
          acc)
      = (fun (acc : Vec256) (ih : Int) => fun (l : Nat) =>
        (int_range wstart wend).foldl
          (fun a iw => wrap_int32 (a
            + i_p ((ih * inputWidth + iw) * nInputPlane + (c + (l : Int)))))
          (acc l)) := by
    funext acc ih l
    exact foldl_lane (fun (l : Nat) a iw => wrap_int32 (a
      + i_p ((ih * inputWidth + iw) * nInputPlane + (c + (l : Int))))) _ acc l
  simp only [hinner]
  rw [hstep]
  exact foldl_lane (fun (l : Nat) a ih => (int_range wstart wend).foldl
    (fun a iw => wrap_int32 (a + i_p ((ih * inputWidth + iw) * nInputPlane
      + (c + (l : Int))))) a) _ (Vec256.splat init) l

theorem mem_int_range (lo hi x : Int) : x ∈ int_range lo hi ↔ lo ≤ x ∧ x < hi := by
  simp only [int_range, List.mem_map, List.mem_range]
  constructor
  · rintro ⟨i, hi1, rfl⟩
    omega
  · rintro ⟨h1, h2⟩
    exact ⟨(x - lo).toNat, by omega, by omega⟩

/-- One round of the channel loop of `do_avg_pool_on_AVX2` at channel `c`, as
`qavg_pool2d_nhwc_kernel` calls it: it writes the offsets `c, …, c + 7`, and the code at
a channel is the vectorized quantization of that channel's accumulator converted to
`float`. -/
theorem avx2_channel_group_spec (T : QType) (i_p : Int → Int)
    (nInputPlane inputWidth init output_zero_point : Int) (m : ℚ)
    (hstart hend wstart wend c : Int) :
    (avx2_channel_group T i_p nInputPlane init output_zero_point m
        hstart hend wstart wend 1 inputWidth 1 c).map Prod.fst = int_range c (c + 8) ∧
      ∀ p ∈ avx2_channel_group T i_p nInputPlane init output_zero_point m
          hstart hend wstart wend 1 inputWidth 1 c,
        p.2 = min (max (nearbyint (round_to_float
            ((avg_accumulate i_p inputWidth nInputPlane p.1 hstart hend wstart wend init
              : Int) : ℚ) * m) + output_zero_point) T.lowest) T.highest := by
  unfold avx2_channel_group
  constructor
  · rw [store_fst]
    rfl
  · intro p hp
    obtain ⟨l, rfl⟩ := store_mem 8 _ c p hp
    simp only [QuantizeAvx2, avx2_accumulate_lane]

/-- The function `do_avg_pool_on_AVX2` as `qavg_pool2d_nhwc_kernel` calls it: it returns
with `c = c1`, has written the channels `0, …, c1 - 1`, which are the channels on the
AVX2 path, each once and in order, and the code at a channel is the vectorized
quantization of that channel's accumulator converted to `float`. -/
theorem do_avg_pool_on_AVX2_spec (avx2 : Bool) (vec_size fuel : Nat) (T : QType)
    (i_p : Int → Int) (nInputPlane inputWidth init output_zero_point : Int) (m : ℚ)
    (hstart hend wstart wend : Int) (hfuel : nInputPlane.toNat + 1 ≤ fuel) :
    ∃ c1 ws, do_avg_pool_on_AVX2 avx2 vec_size fuel T i_p 0 nInputPlane nInputPlane
          init output_zero_point m hstart hend wstart wend 1 inputWidth 1 = some (c1, ws) ∧
        ws.map Prod.fst = int_range 0 c1 ∧
        (∀ p ∈ ws, p.2 = min (max (nearbyint (round_to_float
            ((avg_accumulate i_p inputWidth nInputPlane p.1 hstart hend wstart wend init
              : Int) : ℚ) * m) + output_zero_point) T.lowest) T.highest) ∧
        0 ≤ c1 ∧ (c1 = 0 ∨ c1 ≤ nInputPlane) ∧
        ∀ c, 0 ≤ c → (OnAvx2Path avx2 vec_size nInputPlane c ↔ c < c1) := by
  by_cases hpath : avx2 = true ∧ vec_size / 4 = 8
  · have hvw : ((vec_size / 4 : Nat) : Int) = 8 := by rw [hpath.2]; rfl
    have hbody : ∀ c, (0 : Int) ≤ c → c + 8 ≤ nInputPlane →
        ∃ w, (fun c => some (avx2_channel_group T i_p nInputPlane init output_zero_point m
            hstart hend wstart wend 1 inputWidth 1 c)) c = some w ∧
          w.map Prod.fst = int_range c (c + 8) ∧
          ∀ p ∈ w, p.2 = min (max (nearbyint (round_to_float
            ((avg_accumulate i_p inputWidth nInputPlane p.1 hstart hend wstart wend init
              : Int) : ℚ) * m) + output_zero_point) T.lowest) T.highest := by
      intro c _ _
      exact ⟨_, rfl, avx2_channel_group_spec T i_p nInputPlane inputWidth init
        output_zero_point m hstart hend wstart wend c⟩
    have hf : (nInputPlane - 0).toNat + 1 ≤ fuel := by omega
    obtain ⟨c1, ws, hrun, hfst, hP, hle, hend1, hor, k, hk⟩ :=
      channel_for_range 8 nInputPlane (by decide) _ _ 0 hbody fuel 0 (le_refl 0) hf
    refine ⟨c1, ws, ?_, hfst, hP, hle, by omega, ?_⟩
    · simp only [do_avg_pool_on_AVX2, hpath, and_self, if_true, hvw]
      exact hrun
    · intro c hc
      simp only [OnAvx2Path, hpath, true_and]
      omega
  · refine ⟨0, [], ?_, ?_, ?_, le_refl 0, Or.inl rfl, ?_⟩
    · simp only [do_avg_pool_on_AVX2, hpath, if_false]
    · rw [int_range_self]; rfl
    · intro p hp; exact absurd hp (List.not_mem_nil p)
    · intro c hc
      simp only [OnAvx2Path]
      constructor
      · rintro ⟨h1, h2, -⟩
        exact absurd ⟨h1, h2⟩ hpath
      · intro h; omega

/-- The channels of one output element: where the multiplier of line 410 has the value
`m` and the remainder loop writes the code `B c` for each channel `c` off the AVX2 path,
the kernel writes the channels `0, …, nInputPlane - 1`, each once and in order; on the
AVX2 path the code is the vectorized quantization of the accumulator converted to
`float`, off it the code is `B c`. -/
theorem qavg_channels_spec (avx2 : Bool) (vec_size fuel : Nat) (T : QType)
    (idata : Int → Int) (scale_in scale_out : ℚ) (zero_point_in zero_point_out : Int)
    (b nInputPlane inputWidth inputHeight : Int) (kW kH dW dH padW padH : Int)
    (count_include_pad : Bool) (divisor_override : Option Int) (oh ow : Int)
    (m : ℚ) (B : Int → Int) (hfuel : nInputPlane.toNat + 1 ≤ fuel)
    (hm : qavg_multiplier scale_in scale_out
      (qavg_window inputWidth inputHeight kW kH dW dH padW padH count_include_pad
        divisor_override oh ow).divide_factor = some m)
    (hslow : ∀ c, 0 ≤ c → c < nInputPlane → ¬ OnAvx2Path avx2 vec_size nInputPlane c →
      qavg_pool2d_nhwc_kernel T idata scale_in scale_out zero_point_in zero_point_out
        b nInputPlane inputWidth inputHeight kW kH dW dH padW padH
        count_include_pad divisor_override oh ow c = some (B c)) :
    ∃ writes,
      qavg_pool2d_nhwc_channels avx2 vec_size fuel T idata scale_in scale_out
          zero_point_in zero_point_out b nInputPlane inputWidth inputHeight
          kW kH dW dH padW padH count_include_pad divisor_override oh ow = some writes ∧
        writes.map Prod.fst = int_range 0 nInputPlane ∧
        ∀ p ∈ writes,
          (OnAvx2Path avx2 vec_size nInputPlane p.1 →
            p.2 = min (max (nearbyint (round_to_float
              ((qavg_acc_int32 idata zero_point_in b nInputPlane inputWidth inputHeight
                kW kH dW dH padW padH count_include_pad divisor_override oh ow p.1
                : Int) : ℚ) * m) + wrap_int32 zero_point_out) T.lowest) T.highest) ∧
          (¬ OnAvx2Path avx2 vec_size nInputPlane p.1 → p.2 = B p.1) := by
  obtain ⟨c1, ws1, hrun1, hfst1, hP1, hc10, hor1, hpath⟩ :=
    do_avg_pool_on_AVX2_spec avx2 vec_size fuel T
      (fun off => idata (b * (nInputPlane * inputWidth * inputHeight) + off))
      nInputPlane inputWidth
      (wrap_int32 (-zero_point_in * (qavg_window inputWidth inputHeight kW kH dW dH
        padW padH count_include_pad divisor_override oh ow).size))
      (wrap_int32 zero_point_out) m
      (qavg_window inputWidth inputHeight kW kH dW dH padW padH count_include_pad
        divisor_override oh ow).hstart
      (qavg_window inputWidth inputHeight kW kH dW dH padW padH count_include_pad
        divisor_override oh ow).hend
      (qavg_window inputWidth inputHeight kW kH dW dH padW padH count_include_pad
        divisor_override oh ow).wstart
      (qavg_window inputWidth inputHeight kW kH dW dH padW padH count_include_pad
        divisor_override oh ow).wend hfuel
  have hkernel : ∀ c, qavg_pool2d_nhwc_kernel T idata scale_in scale_out zero_point_in
      zero_point_out b nInputPlane inputWidth inputHeight kW kH dW dH padW padH
      count_include_pad divisor_override oh ow c
      = qavg_slow_path T (fun off => idata (b * (nInputPlane * inputWidth * inputHeight)
          + off)) inputWidth nInputPlane
        (qavg_window inputWidth inputHeight kW kH dW dH padW padH count_include_pad
          divisor_override oh ow) zero_point_in zero_point_out m c := by
    intro c
    simp only [qavg_pool2d_nhwc_kernel, hm, Option.some_bind]
  have hbody : ∀ c, c1 ≤ c → c + 1 ≤ nInputPlane →
      ∃ w, (fun c => (qavg_slow_path T
            (fun off => idata (b * (nInputPlane * inputWidth * inputHeight) + off))
            inputWidth nInputPlane
            (qavg_window inputWidth inputHeight kW kH dW dH padW padH count_include_pad
              divisor_override oh ow) zero_point_in zero_point_out m c).map
          (fun v => [(c, v)])) c = some w ∧
        w.map Prod.fst = int_range c (c + 1) ∧
        ∀ p ∈ w, c1 ≤ p.1 ∧ p.2 = B p.1 := by
    intro c hc hc1
    have hoff : ¬ OnAvx2Path avx2 vec_size nInputPlane c := by
      rw [hpath c (by omega)]
      omega
    have hv := hslow c (by omega) (by omega) hoff
    rw [hkernel] at hv
    refine ⟨[(c, B c)], by simp only [hv, Option.map_some'], ?_, ?_⟩
    · have := int_range_nat c 1
      simp only [Nat.cast_one] at this
      rw [this]
      simp [List.range_succ]
    · intro p hp
      rw [List.mem_singleton] at hp
      rw [hp]
      exact ⟨hc, rfl⟩
  have hf2 : (nInputPlane - c1).toNat + 1 ≤ fuel := by omega
  obtain ⟨c2, ws2, hrun2, hfst2, hP2, hle2, hend2, hor2, -⟩ :=
    channel_for_range 1 nInputPlane (le_refl 1) _ _ c1 hbody fuel c1 (le_refl c1) hf2
  refine ⟨ws1 ++ ws2, ?_, ?_, ?_⟩
  · simp only [qavg_pool2d_nhwc_channels, hm, Option.some_bind, hrun1, hrun2,
      Option.map_some']
  · rw [List.map_append, hfst1, hfst2, int_range_append 0 c1 c2 hc10 hle2]
    by_cases hn : c1 ≤ nInputPlane
    · have : c2 = nInputPlane := by omega
      rw [this]
    · have h1 : c1 = 0 := by omega
      have h2 : c2 = 0 := by omega
      rw [h2, int_range_self]
      simp only [int_range]
      have : (nInputPlane - 0).toNat = 0 := by omega
      rw [this]
      rfl
  · intro p hp
    rcases List.mem_append.mp hp with hp | hp
    · have hmem : p.1 ∈ int_range 0 c1 := by
        rw [← hfst1]
        exact List.mem_map_of_mem Prod.fst hp
      rw [mem_int_range] at hmem
      have hon : OnAvx2Path avx2 vec_size nInputPlane p.1 := (hpath p.1 hmem.1).mpr hmem.2
      refine ⟨fun _ => ?_, fun hoff => absurd hon hoff⟩
      rw [hP1 p hp]
      rfl
    · obtain ⟨hge, hB⟩ := hP2 p hp
      have hoff : ¬ OnAvx2Path avx2 vec_size nInputPlane p.1 := by
        rw [hpath p.1 (by omega)]
        omega
      exact ⟨fun hon => absurd hon hoff, fun _ => hB⟩

/-! ### Average pooling: the requantized average -/

/-- Without padding, with `count_include_pad` and without an override, for 8-bit codes
and a non-empty clipped window `W` with `255 * |W| ≤ 2^31 - 1`: the divisor is `|W|`, the
accumulator is the exact sum over `W` of `q - zero_point_in`, and that sum is at most
`255 * |W|` in magnitude. -/
theorem qavg_zero_pad_acc (T : QType) (hT : T ≠ .qint32) (idata : Int → Int)
    (hcodes : ∀ off, T.InRange (idata off)) (zero_point_in : Int)
    (hzp : T.InRange zero_point_in)
    (b nInputPlane inputWidth inputHeight kW kH dW dH oh ow : Int)
    (hoh : 0 ≤ oh * dH) (how : 0 ≤ ow * dW)
    (hne : (clipped_window (oh * dH) kH inputHeight (ow * dW) kW inputWidth).Nonempty)
    (hsize : 255 * ((clipped_window (oh * dH) kH inputHeight
      (ow * dW) kW inputWidth).card : Int) ≤ 2147483647) (c : Int) :
    (qavg_window inputWidth inputHeight kW kH dW dH 0 0 true none oh ow).divide_factor
        = ((clipped_window (oh * dH) kH inputHeight (ow * dW) kW inputWidth).card : Int) ∧
      qavg_acc_int32 idata zero_point_in b nInputPlane inputWidth inputHeight
          kW kH dW dH 0 0 true none oh ow c
        = window_sum idata zero_point_in b nInputPlane inputHeight inputWidth
          (clipped_window (oh * dH) kH inputHeight (ow * dW) kW inputWidth) c ∧
      |window_sum idata zero_point_in b nInputPlane inputHeight inputWidth
          (clipped_window (oh * dH) kH inputHeight (ow * dW) kW inputWidth) c|
        ≤ 255 * ((clipped_window (oh * dH) kH inputHeight (ow * dW) kW inputWidth).card
          : Int) := by
  have hW := clipped_window_eq (oh * dH) kH inputHeight (ow * dW) kW inputWidth
  rw [max_eq_left hoh, max_eq_left how] at hW
  rw [hW] at hne hsize ⊢
  obtain ⟨hneH, hneW⟩ := Finset.nonempty_product.mp hne
  rw [Finset.nonempty_Ico] at hneH hneW
  have hcard := card_Ico_product (oh * dH) (min (oh * dH + kH) inputHeight)
    (ow * dW) (min (ow * dW + kW) inputWidth) (le_of_lt hneH) (le_of_lt hneW)
  have hidx : ∀ p : Int × Int,
      idata (b * (nInputPlane * inputWidth * inputHeight)
        + ((p.1 * inputWidth + p.2) * nInputPlane + c))
      = nhwc_at idata nInputPlane inputHeight inputWidth b p.1 p.2 c := by
    intro p
    unfold nhwc_at
    congr 1
    ring
  have hsum : -zero_point_in * ((min (oh * dH + kH) inputHeight - oh * dH)
        * (min (ow * dW + kW) inputWidth - ow * dW))
      + ∑ p in (Finset.Ico (oh * dH) (min (oh * dH + kH) inputHeight)) ×ˢ
          (Finset.Ico (ow * dW) (min (ow * dW + kW) inputWidth)),
          idata (b * (nInputPlane * inputWidth * inputHeight)
            + ((p.1 * inputWidth + p.2) * nInputPlane + c))
      = ∑ p in (Finset.Ico (oh * dH) (min (oh * dH + kH) inputHeight)) ×ˢ
          (Finset.Ico (ow * dW) (min (ow * dW + kW) inputWidth)),
          (nhwc_at idata nInputPlane inputHeight inputWidth b p.1 p.2 c
            - zero_point_in) := by
    rw [Finset.sum_sub_distrib, Finset.sum_const, nsmul_eq_mul, hcard]
    simp only [hidx]
    ring
  have hbounds := sum_sub_const_bounds
    ((Finset.Ico (oh * dH) (min (oh * dH + kH) inputHeight)) ×ˢ
      (Finset.Ico (ow * dW) (min (ow * dW + kW) inputWidth)))
    (fun p => nhwc_at idata nInputPlane inputHeight inputWidth b p.1 p.2 c)
    zero_point_in T.lowest T.highest (fun p => hcodes _) hzp
  rw [eight_bit_span T hT] at hbounds
  beta_reduce at hbounds
  refine ⟨?_, ?_, ?_⟩
  · simp only [qavg_window_zero_pad _ _ _ _ _ _ _ _ hoh how]
    exact hcard.symm
  · simp only [qavg_acc_int32, qavg_window_zero_pad _ _ _ _ _ _ _ _ hoh how]
    rw [avg_accumulate_eq, hsum, wrap_int32_of_range _ (by omega) (by omega)]
    rfl
  · unfold window_sum
    rw [abs_le]
    constructor
    · linarith [hbounds.1]
    · exact hbounds.2

/-- Rounding commutes with the addition of an integer, unless the value lies halfway
between two integers and the integer added is odd. -/
theorem nearbyint_add_intCast (x : ℚ) (z : Int) (h : x - (⌊x⌋ : ℚ) ≠ 1 / 2 ∨ Even z) :
    nearbyint (x + (z : ℚ)) = nearbyint x + z := by
  have hfrac : x + (z : ℚ) - ((⌊x⌋ + z : Int) : ℚ) = x - (⌊x⌋ : ℚ) := by
    push_cast
    ring
  unfold nearbyint
  rw [Int.floor_add_int, hfrac]
  by_cases hlt : x - (⌊x⌋ : ℚ) < 1 / 2
  · simp only [if_pos hlt]
  · simp only [if_neg hlt]
    by_cases hgt : 1 / 2 < x - (⌊x⌋ : ℚ)
    · simp only [if_pos hgt]
      ring
    · simp only [if_neg hgt]
      have heq : x - (⌊x⌋ : ℚ) = 1 / 2 := le_antisymm (not_lt.mp hgt) (not_lt.mp hlt)
      rcases h with h | h
      · exact absurd heq h
      · rw [Int.even_iff] at h
        by_cases hev : ⌊x⌋ % 2 = 0
        · rw [if_pos hev, if_pos (by omega)]
        · rw [if_neg hev, if_neg (by omega)]
          ring

/-- The nearest integer of a value of magnitude at most `2^31 - 1` is a value of
`int32_t`. -/
theorem int32_of_bounded (y : ℚ) (h : |y| ≤ 2147483647) : Int32Range (nearbyint y) := by
  have hs := abs_le.mp (nearbyint_spec y).1
  have hy := abs_le.mp h
  have h1 : ((nearbyint y : Int) : ℚ) < 2147483648 := by linarith [hs.2]
  have h2 : (-2147483648 : ℚ) < ((nearbyint y : Int) : ℚ) := by linarith [hs.1]
  have h1i : nearbyint y < 2147483648 := by exact_mod_cast h1
  have h2i : -2147483648 < nearbyint y := by exact_mod_cast h2
  unfold Int32Range
  omega

/-- A list of writes is determined by its offsets and the code at each offset. -/
theorem writes_eq_map (l : List (Int × Int)) (ks : List Int) (f : Int → Int)
    (hfst : l.map Prod.fst = ks) (hsnd : ∀ p ∈ l, p.2 = f p.1) :
    l = ks.map (fun k => (k, f k)) := by
  rw [← hfst, List.map_map]
  have h : ∀ p ∈ l, ((fun k => (k, f k)) ∘ Prod.fst) p = p := by
    intro p hp
    simp only [Function.comp]
    rw [← hsnd p hp]
  rw [List.map_congr_left h, List.map_id']

/-- Half an integer of magnitude below `2^53` is a `double`. -/
theorem double_of_half_int (S : Int) (hS : |S| < 2 ^ 53) :
    double_of ((S : ℚ) / 2) = some ((S : ℚ) / 2) := by
  have hSq : |(S : ℚ)| < 2 ^ 53 := by exact_mod_cast hS
  refine double_of_exact _ S (-1) ?_ hS (by norm_num) ?_
  · rw [zpow_neg_one]
    ring
  · rw [abs_div, abs_of_pos (by norm_num : (0 : ℚ) < 2)]
    have : |(S : ℚ)| / 2 ≤ |(S : ℚ)| := by linarith [abs_nonneg (S : ℚ)]
    exact lt_of_le_of_lt this (lt_trans hSq (by norm_num))

/-- The requantization of lines 438-444 where the rounded value is not a value of
`int32_t`: the conversion is undefined. -/
theorem qavg_requantize_undefined (T : QType) (m : ℚ) (zero_point_out acc : Int)
    (hzp : |zero_point_out| < 2 ^ 53)
    (h4 : double_of ((acc : ℚ) * m) = some ((acc : ℚ) * m))
    (h5 : double_of ((acc : ℚ) * m + (zero_point_out : ℚ))
      = some ((acc : ℚ) * m + (zero_point_out : ℚ)))
    (hr : ¬ Int32Range (nearbyint ((acc : ℚ) * m + (zero_point_out : ℚ)))) :
    qavg_requantize T m zero_point_out acc = none := by
  simp only [qavg_requantize, mul_one, h4, Option.some_bind,
    round_to_double_intCast zero_point_out hzp, h5, if_neg hr]

theorem channel_for_none (step iC : Int) (body : Int → Option (List (Int × Int)))
    (fuel : Nat) (c : Int) (hc : c + step ≤ iC) (hb : body c = none) :
    channel_for step iC body (fuel + 1) c = none := by
  simp only [channel_for, hc, if_true, hb]

/-- Without the AVX2 path the remainder loop starts at channel `0`: where the kernel has
no result for channel `0`, the channels of the output element have none. -/
theorem qavg_channels_undefined (vec_size fuel : Nat) (T : QType) (idata : Int → Int)
    (scale_in scale_out : ℚ) (zero_point_in zero_point_out : Int)
    (b nInputPlane inputWidth inputHeight : Int) (kW kH dW dH padW padH : Int)
    (count_include_pad : Bool) (divisor_override : Option Int) (oh ow : Int)
    (hn : 1 ≤ nInputPlane)
    (hk : qavg_pool2d_nhwc_kernel T idata scale_in scale_out zero_point_in zero_point_out
      b nInputPlane inputWidth inputHeight kW kH dW dH padW padH count_include_pad
      divisor_override oh ow 0 = none) :
    qavg_pool2d_nhwc_channels false vec_size (fuel + 1) T idata scale_in scale_out
      zero_point_in zero_point_out b nInputPlane inputWidth inputHeight kW kH dW dH padW
      padH count_include_pad divisor_override oh ow = none := by
  unfold qavg_pool2d_nhwc_channels
  unfold qavg_pool2d_nhwc_kernel at hk
  simp only at hk ⊢
  cases hm : qavg_multiplier scale_in scale_out (qavg_window inputWidth inputHeight kW kH
      dW dH padW padH count_include_pad divisor_override oh ow).divide_factor with
  | none => simp only [Option.none_bind]
  | some m =>
    rw [hm] at hk
    simp only [Option.some_bind] at hk
    simp only [Option.some_bind, do_avg_pool_on_AVX2, Bool.false_eq_true, false_and,
      if_false]
    rw [channel_for_none 1 nInputPlane _ fuel 0 (by omega)
      (by simp only [hk, Option.map_none'])]
    rfl

/-- The slow path evaluated at a 3x3 single-channel `quint8` input with codes `off % 10`,
a 2x2 kernel with stride 2 and the output element `(1, 0)`: the window codes are `6` and
`7`, their average `13/2` rounds to the even code `6`. -/
theorem qavg_pool_eval_example :
    qavg_pool2d_nhwc_kernel .quint8 (fun off => off % 10) 1 1 0 0
      0 1 3 3 2 2 2 2 0 0 true none 1 0 0 = some 6 := by
  have hacc : qavg_acc_int32 (fun off => off % 10) 0 0 1 3 3 2 2 2 2 0 0 true none 1 0 0
      = 13 := by decide
  have hw : (qavg_window 3 3 2 2 2 2 0 0 true none 1 0).divide_factor = 2 := by decide
  have hm : qavg_multiplier 1 1 2 = some (1 / 2) := by
    have h := qavg_multiplier_exact 1 1 2 (by norm_num) (by norm_num) (by norm_num)
      (double_of_exact _ 1 0 (by norm_num) (by norm_num) (by norm_num)
        (abs_lt.mpr ⟨by norm_num, by norm_num⟩))
      (double_of_exact _ 1 (-1) (by norm_num) (by norm_num) (by norm_num)
        (abs_lt.mpr ⟨by norm_num, by norm_num⟩))
      (float_of_exact _ 1 (-1) (by norm_num) (by norm_num) (by norm_num)
        (abs_lt.mpr ⟨by norm_num, by norm_num⟩))
    norm_num at h
    exact h
  have hr : qavg_requantize .quint8 (1 / 2) 0 13 = some 6 := by
    have h := qavg_requantize_exact .quint8 (1 / 2) 0 13 (by norm_num)
      (double_of_exact _ 13 (-1) (by norm_num) (by norm_num) (by norm_num)
        (abs_lt.mpr ⟨by norm_num, by norm_num⟩))
      (double_of_exact _ 13 (-1) (by norm_num) (by norm_num) (by norm_num)
        (abs_lt.mpr ⟨by norm_num, by norm_num⟩))
      (by norm_num [Int32Range, nearbyint])
    norm_num [nearbyint, QType.lowest, QType.highest] at h
    exact h
  rw [qavg_kernel_uses_acc, hacc, hw, hm, Option.some_bind, hr]

/-- Outside the exact range of the 32-bit accumulator the slow path does not hold the sum
of the window: on a `quint8` input of one row of `8421505` codes `255` (zero point `0`)
and a kernel that covers the row, the sum `255 * 8421505 = 2147483775` exceeds
`2^31 - 1` and the accumulator holds `-2147483521`. -/
theorem qavg_pool_large_window_wraps :
    qavg_acc_int32 (fun _ => 255) 0 0 1 8421505 1 8421505 1 1 1 0 0 true none 0 0 0
        = -2147483521 ∧
      window_sum (fun _ => 255) 0 0 1 1 8421505
        (clipped_window (0 * 1) 1 1 (0 * 1) 8421505 8421505) 0 = 2147483775 := by
  have hcard : (((Finset.Ico (0 : Int) 1) ×ˢ (Finset.Ico (0 : Int) 8421505)).card : Int)
      = 8421505 := by
    rw [card_Ico_product _ _ _ _ (by decide) (by decide)]
    decide
  have hcardN : ((Finset.Ico (0 : Int) 1) ×ˢ (Finset.Ico (0 : Int) 8421505)).card
      = 8421505 := by exact_mod_cast hcard
  constructor
  · simp only [qavg_acc_int32,
      qavg_window_zero_pad 8421505 1 8421505 1 1 1 0 0 (by decide) (by decide)]
    rw [avg_accumulate_eq]
    norm_num [Finset.sum_const, hcardN, wrap_int32]
  · rw [window_sum, clipped_window_eq]
    norm_num [nhwc_at, Finset.sum_const, hcardN]

end QuantizedOpKernels
